import Mathlib

/-!
# Bounded undo/redo history and window geometry of fheroes2

A shallow embedding of `src/fheroes2/editor/history_manager.h` and, further
down, of the areas and the symmetric button layout of `src/fheroes2/gui/ui_window.h`
and `ui_window.cpp`.

* An owning pointer `std::unique_ptr<Action>` is an `Option α`: `none` is the
  null pointer, `some a` owns the action object `a`.
* The two virtual methods of `Action` and the call operator of the
  `std::function` observer are supplied by a `Runtime`; they act on an outside
  world `W` (the edited document, the user interface) and never on the manager.
* Every virtual call and every observer call is appended to a ghost trace, so
  that "which calls were made, and in which order" can be stated.
* `size_t` is `Nat` with explicit reduction modulo `2 ^ 64`.
* Undefined behaviour (indexing the deque out of bounds, calling through a null
  pointer) and a failing `assert` make an operation return `none`.
* Destroying an action (when it is cut off, evicted or cleared) is not recorded:
  `~Action()` is taken to have no effect on the outside world.
-/

namespace fheroes2

/-! ## Machine arithmetic on `size_t` -/

/-- Count of the values of `size_t`. -/
def sizeModulus : Nat := 2 ^ 64

/-- The operator `++` on a `size_t`. -/
def sizeIncrement (n : Nat) : Nat := (n + 1) % sizeModulus

/-- The operator `--` on a `size_t`. -/
def sizeDecrement (n : Nat) : Nat := (n + sizeModulus - 1) % sizeModulus

/-! ## The outside world -/

/-- Ghost record of one call that leaves the manager. -/
inductive Event (α κ : Type) where
  /-- The virtual call `action->undo()`. -/
  | undo (action : α)
  /-- The virtual call `action->redo()`. -/
  | redo (action : α)
  /-- The call `_stateCallback( undoAvailable, redoAvailable )`. -/
  | stateCallback (callback : κ) (undoAvailable redoAvailable : Bool)
  deriving DecidableEq, Repr

/-- Behaviour of the code the manager calls into: the overriders of
`Action::redo` and `Action::undo`, and the targets of the observer. -/
structure Runtime (α κ W : Type) where
  /-- `virtual bool redo() = 0`. -/
  redo : α → W → Bool × W
  /-- `virtual bool undo() = 0`. -/
  undo : α → W → Bool × W
  /-- Call operator of `std::function<void( const bool, const bool )>`. -/
  invoke : κ → Bool → Bool → W → W

/-- Everything outside the manager: the world and the ghost trace. -/
structure Exec (α κ W : Type) where
  world : W
  trace : List (Event α κ)
  deriving DecidableEq, Repr

/-! ## HistoryManager -/

/-- Private data members of `class HistoryManager`. -/
structure HistoryManager (α κ : Type) where
  /-- `std::deque<std::unique_ptr<Action>> _actions`. -/
  _actions : List (Option α)
  /-- `size_t _lastActionId{ 0 }`. -/
  _lastActionId : Nat
  /-- `std::function<void( const bool, const bool )> _stateCallback`. -/
  _stateCallback : Option κ
  deriving DecidableEq, Repr

/-- `static const size_t maxActions{ 500 }`. -/
def maxActions : Nat := 500

/-- `std::deque::resize( count )`: drops the elements from index `count` on, or
appends value-initialised (null) pointers up to `count` elements. -/
def dequeResize {α : Type} (d : List (Option α)) (count : Nat) : List (Option α) :=
  d.take count ++ List.replicate (count - d.length) none

namespace HistoryManager

variable {α κ W : Type}

/-- The implicitly defined default constructor. -/
def initial : HistoryManager α κ :=
  { _actions := [], _lastActionId := 0, _stateCallback := none }

/-- `void setStateCallback( std::function<void( const bool, const bool )> )`. -/
def setStateCallback (m : HistoryManager α κ) (stateCallback : Option κ) : HistoryManager α κ :=
  { m with _stateCallback := stateCallback }

/-- `bool isUndoAvailable() const`. -/
def isUndoAvailable (m : HistoryManager α κ) : Bool :=
  decide (m._lastActionId > 0)

/-- `bool isRedoAvailable() const`. -/
def isRedoAvailable (m : HistoryManager α κ) : Bool :=
  decide (m._lastActionId < m._actions.length)

/-- The statement `if ( _stateCallback ) { _stateCallback( u, r ); }`. -/
def fire (rt : Runtime α κ W) (m : HistoryManager α κ) (u r : Bool) (e : Exec α κ W) :
    Exec α κ W :=
  match m._stateCallback with
  | none => e
  | some cb =>
    { world := rt.invoke cb u r e.world, trace := e.trace ++ [Event.stateCallback cb u r] }

/-- The statement
`if ( _stateCallback ) { _stateCallback( isUndoAvailable(), isRedoAvailable() ); }`. -/
def notify (rt : Runtime α κ W) (m : HistoryManager α κ) (e : Exec α κ W) : Exec α κ W :=
  m.fire rt m.isUndoAvailable m.isRedoAvailable e

/-- `void reset()`. -/
def reset (rt : Runtime α κ W) (m : HistoryManager α κ) (e : Exec α κ W) :
    HistoryManager α κ × Exec α κ W :=
  let m1 : HistoryManager α κ := { m with _actions := [], _lastActionId := 0 }
  (m1, m1.fire rt false false e)

/-- First three statements of `add`: `_actions.resize( _lastActionId )`,
`_actions.push_back( std::move( action ) )`, `++_lastActionId`. -/
def addPush (m : HistoryManager α κ) (action : Option α) : HistoryManager α κ :=
  { m with
    _actions := dequeResize m._actions m._lastActionId ++ [action]
    _lastActionId := sizeIncrement m._lastActionId }

/-- The statement of `add` that evicts:
`if ( _actions.size() > maxActions ) { --_lastActionId; _actions.pop_front(); }`,
with the bound as an argument. -/
def addEvict (bound : Nat) (m : HistoryManager α κ) : HistoryManager α κ :=
  if m._actions.length > bound then
    { m with _lastActionId := sizeDecrement m._lastActionId, _actions := m._actions.tail }
  else
    m

/-- The body of `add` with the constant `maxActions` as the argument `bound`. The
closing `assert( _actions.size() <= maxActions )` aborts when it fails. -/
def addWith (bound : Nat) (rt : Runtime α κ W) (m : HistoryManager α κ) (action : Option α)
    (e : Exec α κ W) : Option (HistoryManager α κ × Exec α κ W) :=
  let m1 := addEvict bound (m.addPush action)
  let e1 := m1.notify rt e
  if m1._actions.length ≤ bound then some (m1, e1) else none

/-- `void add( std::unique_ptr<Action> action )`. -/
def add (rt : Runtime α κ W) (m : HistoryManager α κ) (action : Option α) (e : Exec α κ W) :
    Option (HistoryManager α κ × Exec α κ W) :=
  addWith maxActions rt m action e

/-- `bool undo()`. -/
def undo (rt : Runtime α κ W) (m : HistoryManager α κ) (e : Exec α κ W) :
    Option (Bool × HistoryManager α κ × Exec α κ W) :=
  if !m.isUndoAvailable then
    some (false, m, e)
  else
    let m1 : HistoryManager α κ := { m with _lastActionId := sizeDecrement m._lastActionId }
    match m1._actions[m1._lastActionId]? with
    | some (some action) =>
      let result := rt.undo action e.world
      let e1 : Exec α κ W := { world := result.2, trace := e.trace ++ [Event.undo action] }
      some (result.1, m1, m1.notify rt e1)
    | _ => none

/-- `bool redo()`. -/
def redo (rt : Runtime α κ W) (m : HistoryManager α κ) (e : Exec α κ W) :
    Option (Bool × HistoryManager α κ × Exec α κ W) :=
  if !m.isRedoAvailable then
    some (false, m, e)
  else
    match m._actions[m._lastActionId]? with
    | some (some action) =>
      let result := rt.redo action e.world
      let e1 : Exec α κ W := { world := result.2, trace := e.trace ++ [Event.redo action] }
      let m1 : HistoryManager α κ := { m with _lastActionId := sizeIncrement m._lastActionId }
      some (result.1, m1, m1.notify rt e1)
    | _ => none

end HistoryManager

/-! ## Reachable states and the class invariant -/

/-- States of a manager that the public interface produces from a freshly
constructed one. `add` is given a non-null action. -/
inductive Reachable {α κ W : Type} (rt : Runtime α κ W) : HistoryManager α κ → Prop where
  | initial : Reachable rt HistoryManager.initial
  | setStateCallback {m : HistoryManager α κ} (cb : Option κ) :
      Reachable rt m → Reachable rt (m.setStateCallback cb)
  | reset {m : HistoryManager α κ} (e : Exec α κ W) :
      Reachable rt m → Reachable rt (m.reset rt e).1
  | add {m m1 : HistoryManager α κ} (a : α) (e e1 : Exec α κ W) :
      Reachable rt m → m.add rt (some a) e = some (m1, e1) → Reachable rt m1
  | undo {m m1 : HistoryManager α κ} (e e1 : Exec α κ W) (b : Bool) :
      Reachable rt m → m.undo rt e = some (b, m1, e1) → Reachable rt m1
  | redo {m m1 : HistoryManager α κ} (e e1 : Exec α κ W) (b : Bool) :
      Reachable rt m → m.redo rt e = some (b, m1, e1) → Reachable rt m1

/-- Class invariant: the cursor is inside the sequence, the sequence is within
the bound, and no stored pointer is null. -/
def HistoryManager.Invariant {α κ : Type} (bound : Nat) (m : HistoryManager α κ) : Prop :=
  m._lastActionId ≤ m._actions.length ∧ m._actions.length ≤ bound ∧
    ∀ p ∈ m._actions, p ≠ none

/-! ## Client scripts -/

/-- One call of the public interface of `HistoryManager`, as client code makes
it; `add` is given a non-null action. -/
inductive Call (α κ : Type) where
  | setStateCallback (stateCallback : Option κ)
  | reset
  | add (action : α)
  | undo
  | redo
  deriving DecidableEq, Repr

/-- Performs one call; the first component is the returned `bool` (`none` for a
`void` member function). The bound of `add` is an argument. -/
def HistoryManager.callWith {α κ W : Type} (bound : Nat) (rt : Runtime α κ W)
    (m : HistoryManager α κ) (e : Exec α κ W) :
    Call α κ → Option (Option Bool × HistoryManager α κ × Exec α κ W)
  | Call.setStateCallback cb => some (none, m.setStateCallback cb, e)
  | Call.reset => some (none, (m.reset rt e).1, (m.reset rt e).2)
  | Call.add a =>
    match m.addWith bound rt (some a) e with
    | some (m1, e1) => some (none, m1, e1)
    | none => none
  | Call.undo =>
    match m.undo rt e with
    | some (b, m1, e1) => some (some b, m1, e1)
    | none => none
  | Call.redo =>
    match m.redo rt e with
    | some (b, m1, e1) => some (some b, m1, e1)
    | none => none

/-- Performs the calls of a script in order and collects what they return. -/
def HistoryManager.runWith {α κ W : Type} (bound : Nat) (rt : Runtime α κ W) :
    List (Call α κ) → HistoryManager α κ → Exec α κ W →
      Option (List (Option Bool) × HistoryManager α κ × Exec α κ W)
  | [], m, e => some ([], m, e)
  | c :: cs, m, e =>
    match m.callWith bound rt e c with
    | none => none
    | some (r, m1, e1) =>
      match HistoryManager.runWith bound rt cs m1 e1 with
      | none => none
      | some (rs, m2, e2) => some (r :: rs, m2, e2)

/-- A script run against the manager of the source, whose bound is `maxActions`. -/
def HistoryManager.run {α κ W : Type} (rt : Runtime α κ W) (cs : List (Call α κ))
    (m : HistoryManager α κ) (e : Exec α κ W) :
    Option (List (Option Bool) × HistoryManager α κ × Exec α κ W) :=
  HistoryManager.runWith maxActions rt cs m e

/-- The observer calls recorded in a trace, in order. -/
def observerCalls {α κ : Type} : List (Event α κ) → List (κ × Bool × Bool)
  | [] => []
  | Event.stateCallback cb u r :: t => (cb, u, r) :: observerCalls t
  | _ :: t => observerCalls t

/-! ## A concrete instance

The document is an integer. The action `n` adds `n` to it when redone and
subtracts `n` when undone; the action `0` reports failure. Observers do not touch
the document. -/

/-- Runtime of the concrete instance. -/
def sampleRuntime : Runtime Nat Nat Int where
  redo := fun a w => (decide (a ≠ 0), w + a)
  undo := fun a w => (decide (a ≠ 0), w - a)
  invoke := fun _ _ _ w => w

/-- A runtime with the same effects in which every action reports failure. -/
def failingRuntime : Runtime Nat Nat Int where
  redo := fun a w => (false, w + a)
  undo := fun a w => (false, w - a)
  invoke := fun _ _ _ w => w

/-- Outside world of the concrete instance at the start: document `0`, no calls. -/
def sampleExec : Exec Nat Nat Int := { world := 0, trace := [] }

/-- Three actions, the last one undone, observer `9` installed. -/
def sampleManager : HistoryManager Nat Nat :=
  { _actions := [some 1, some 2, some 3], _lastActionId := 2, _stateCallback := some 9 }

/-- A full history with the cursor at its end. -/
def fullManager : HistoryManager Nat Nat :=
  { _actions := List.replicate 500 (some 1), _lastActionId := 500, _stateCallback := some 9 }

/-! ## Documents and scoped edits -/

/-- The `undo` and `redo` of an action are mutually inverse on document states. -/
def MutuallyInverse {α κ W : Type} (rt : Runtime α κ W) (a : α) : Prop :=
  ∀ w : W, (rt.undo a (rt.redo a w).2).2 = w ∧ (rt.redo a (rt.undo a w).2).2 = w

/-- The observer stored in the slot `cb`, if there is one, leaves the document as it is. -/
def ObserverNeutral {α κ W : Type} (rt : Runtime α κ W) (cb : Option κ) : Prop :=
  ∀ k ∈ cb, ∀ (u r : Bool) (w : W), rt.invoke k u r w = w

/-- Client code of the editor: the change that `action` stands for is made to the
document (the effect `redo` has on it), then the action is handed to `add`; the
bound of `add` is an argument. -/
def HistoryManager.applyAndAddWith {α κ W : Type} (bound : Nat) (rt : Runtime α κ W)
    (m : HistoryManager α κ) (action : α) (e : Exec α κ W) :
    Option (HistoryManager α κ × Exec α κ W) :=
  m.addWith bound rt (some action) { e with world := (rt.redo action e.world).2 }

/-- Data member `std::unique_ptr<Action> _action` of `class ActionCreator`; the
reference member `_manager` is the manager that the operations below are given. -/
structure ActionCreator (α : Type) where
  _action : Option α
  deriving DecidableEq, Repr

/-- `~ActionCreator()`: `if ( _action ) { _action->undo(); }`. The manager is
passed through to state that it is left alone. -/
def ActionCreator.destructor {α κ W : Type} (rt : Runtime α κ W) (ac : ActionCreator α)
    (m : HistoryManager α κ) (e : Exec α κ W) : HistoryManager α κ × Exec α κ W :=
  match ac._action with
  | some action =>
    (m, { world := (rt.undo action e.world).2, trace := e.trace ++ [Event.undo action] })
  | none => (m, e)

/-- Modelled from the spec: the body of `ActionCreator::commit()`, which the
header only declares. If a pending action exists and the document differs from
the snapshot taken by the constructor, the action is handed to `add` and the
pending slot is cleared; otherwise nothing happens. -/
def ActionCreator.commit {α κ W : Type} [DecidableEq W] (rt : Runtime α κ W) (snapshot : W)
    (ac : ActionCreator α) (m : HistoryManager α κ) (e : Exec α κ W) :
    Option (ActionCreator α × HistoryManager α κ × Exec α κ W) :=
  match ac._action with
  | some action =>
    if e.world ≠ snapshot then
      match m.add rt (some action) e with
      | some (m1, e1) => some ({ _action := none }, m1, e1)
      | none => none
    else
      some (ac, m, e)
  | none => some (ac, m, e)

/-- A script without a call of `setStateCallback`. -/
def keepsObserver {α κ : Type} : List (Call α κ) → Bool
  | [] => true
  | Call.setStateCallback _ :: _ => false
  | _ :: cs => keepsObserver cs

/-! ## Windows: `ui_window.h`, `ui_window.cpp`

`int32_t` is `Int`; an operation whose exact result is not a value of `int32_t`
(signed overflow, undefined behaviour) returns `none`. -/

/-- Result of an `int32_t` operation whose exact value is `v`. -/
def int32 (v : Int) : Option Int :=
  if -2147483648 ≤ v ∧ v ≤ 2147483647 then some v else none

/-- The operator `+` on `int32_t`. -/
def addInt32 (a b : Int) : Option Int := int32 (a + b)

/-- The operator `-` on `int32_t`. -/
def subInt32 (a b : Int) : Option Int := int32 (a - b)

/-- The operator `*` on `int32_t`. -/
def mulInt32 (a b : Int) : Option Int := int32 (a * b)

/-- `static_cast<int32_t>( n )` for a `size_t`: reduction modulo `2 ^ 32`. -/
def castInt32 (n : Nat) : Int := ((n : Int) + 2147483648) % 4294967296 - 2147483648

/-- Modelled from the spec: `fheroes2::Rect`, declared in `math_base.h`, which is
not among the sources; the fields are the four `int32_t` members the sources
read, in the order of the constructor arguments, and `Rect{}` is all zero. -/
structure Rect where
  x : Int
  y : Int
  width : Int
  height : Int
  deriving DecidableEq, Repr

/-- The rectangle `inner` lies entirely inside `outer`. -/
def Rect.includes (outer inner : Rect) : Prop :=
  outer.x ≤ inner.x ∧ outer.y ≤ inner.y ∧
    inner.x + inner.width ≤ outer.x + outer.width ∧
    inner.y + inner.height ≤ outer.y + outer.height

instance (outer inner : Rect) : Decidable (outer.includes inner) := by
  unfold Rect.includes
  exact inferInstance

/-- `const int32_t buttonsHorizontalGap = 37`. -/
def buttonsHorizontalGap : Int := 37

/-- `const int32_t buttonsVerticalGap = 10`. -/
def buttonsVerticalGap : Int := 10

/-- `const int32_t borderEdgeOffset{ 43 }`. -/
def borderEdgeOffset : Int := 43

/-- `const int32_t transitionSize{ 10 }`. -/
def transitionSize : Int := 10

/-- `const int32_t backgroundOffset{ 22 }`. -/
def backgroundOffset : Int := 22

/-- The operator `/` on `int32_t`: the quotient rounded towards zero; division by
zero and a quotient that is not a value of `int32_t` are undefined behaviour. -/
def divInt32 (a b : Int) : Option Int := if b = 0 then none else int32 (a.tdiv b)

/-- A computation on `int32_t` values that may have undefined behaviour: `none`
when it has. It is `Option` with a bind of its own, so that the long sequences of
statements of `render()` are compiled statement by statement. -/
def Checked (α : Type) : Type := Option α

/-- The rest of a computation after a statement: nothing when the statement has
undefined behaviour. -/
@[noinline]
def Checked.andThen {α β : Type} (x : Checked α) (f : α → Checked β) : Checked β :=
  match (x : Option α) with
  | none => (none : Option β)
  | some a => f a

instance : Monad Checked where
  pure := fun a => (some a : Option _)
  bind := Checked.andThen

/-- Modelled from the spec: what `width()` and `height()` of a `Sprite` return
(`image.h` is not among the sources). -/
structure SpriteSize where
  width : Int
  height : Int
  deriving DecidableEq, Repr

/-- Modelled from the spec: the sprites that `AGG::GetICN` returns to `render()`
and `renderBackgroundImage` for the interface in use (`agg_image.h` and the
resources of the game are not among the sources): `horizontalSprite` is
`ICN::SURDRBKE` or `ICN::SURDRBKG`, `verticalSprite` is `ICN::WINLOSEE` or
`ICN::WINLOSE`, `backgroundSprite` is `ICN::STONEBAK_EVIL` or `ICN::STONEBAK`.
Only their sizes enter the arithmetic. -/
structure WindowSprites where
  horizontalSprite : SpriteSize
  verticalSprite : SpriteSize
  backgroundSprite : SpriteSize
  deriving DecidableEq, Repr

/-- Modelled from the spec: a call of one of the drawing functions `Blit`, `Copy`,
`CreateDitheringTransition` and `addGradientShadowForArea` (`image.h` and
`ui_tool.h`, whose definitions are not among the sources) with the listed
`int32_t` arguments. The pixels of the output image are not part of the model,
so the call changes nothing here. -/
def draw (_arguments : List Int) : Option Unit := some ()

/-- The three areas of `class StandardWindow`. -/
structure StandardWindow where
  _activeArea : Rect
  _windowArea : Rect
  _totalArea : Rect
  deriving DecidableEq, Repr

namespace StandardWindow

/-- `const Rect & activeArea() const`. -/
def activeArea (w : StandardWindow) : Rect := w._activeArea

/-- `const Rect & windowArea() const`. -/
def windowArea (w : StandardWindow) : Rect := w._windowArea

/-- `const Rect & totalArea() const`. -/
def totalArea (w : StandardWindow) : Rect := w._totalArea

/-- The member initialisers of `_windowArea` and `_totalArea`, the same in the
three constructors; `borderSize` is the constant `fheroes2::borderWidthPx` of
`ui_constants.h`, which is not among the sources. -/
def withActiveArea (borderSize : Int) (activeArea : Rect) : Option StandardWindow := do
  let windowX ← subInt32 activeArea.x borderSize
  let windowY ← subInt32 activeArea.y borderSize
  let windowWidth ← addInt32 activeArea.width (← mulInt32 2 borderSize)
  let windowHeight ← addInt32 activeArea.height (← mulInt32 2 borderSize)
  let totalX ← subInt32 windowX borderSize
  let totalWidth ← addInt32 windowWidth borderSize
  let totalHeight ← addInt32 windowHeight borderSize
  some
    { _activeArea := activeArea
      _windowArea := ⟨windowX, windowY, windowWidth, windowHeight⟩
      _totalArea := ⟨totalX, windowY, totalWidth, totalHeight⟩ }

/-- The loop `for ( int32_t i = 0; i < backgroundHorizontalCopies; ++i )` of
`renderBackgroundImage`, given the number of iterations still to make and the
value of `toOffsetX`. -/
def renderBackgroundColumns (roi : Rect) (borderOffset backgroundSpriteWidth
    backgroundCopyHeight backgroundOffsetY stepX fromOffsetX : Int) : Nat → Int → Checked Unit
  | 0, _ => some ()
  | n + 1, toOffsetX => do
    draw [← addInt32 roi.x fromOffsetX, backgroundOffsetY, ← addInt32 roi.x toOffsetX,
      backgroundOffsetY,
      min backgroundSpriteWidth (← subInt32 (← subInt32 roi.width borderOffset) toOffsetX),
      backgroundCopyHeight]
    renderBackgroundColumns roi borderOffset backgroundSpriteWidth backgroundCopyHeight
      backgroundOffsetY stepX fromOffsetX n (← addInt32 toOffsetX stepX)

/-- The loop `for ( int32_t i = 0; i < backgroundVerticalCopies; ++i )` of
`renderBackgroundImage`, given the number of iterations still to make and the
value of `toOffsetY`. -/
def renderBackgroundRows (roi : Rect) (borderOffset backgroundSpriteHeight backgroundWidth
    backgroundOffsetX stepY fromOffsetY : Int) : Nat → Int → Checked Unit
  | 0, _ => some ()
  | n + 1, toOffsetY => do
    draw [backgroundOffsetX, ← addInt32 roi.y fromOffsetY, backgroundOffsetX,
      ← addInt32 roi.y toOffsetY, backgroundWidth,
      min backgroundSpriteHeight (← subInt32 (← subInt32 roi.height borderOffset) toOffsetY)]
    renderBackgroundRows roi borderOffset backgroundSpriteHeight backgroundWidth
      backgroundOffsetX stepY fromOffsetY n (← addInt32 toOffsetY stepY)

/-- The block `if ( backgroundHorizontalCopies > 0 ) { ... }` of
`renderBackgroundImage`. -/
def renderBackgroundHorizontally (roi : Rect) (borderOffset backgroundSpriteWidth
    backgroundCopyHeight backgroundOffsetY backgroundHorizontalCopies : Int) : Checked Unit :=
  if backgroundHorizontalCopies > 0 then do
    let toOffsetX ← addInt32 borderOffset backgroundSpriteWidth
    draw [0, 0, ← subInt32 (← addInt32 roi.x toOffsetX) transitionSize, backgroundOffsetY,
      transitionSize, backgroundCopyHeight]
    let stepX ← subInt32 backgroundSpriteWidth transitionSize
    let fromOffsetX ← addInt32 borderOffset transitionSize
    renderBackgroundColumns roi borderOffset backgroundSpriteWidth backgroundCopyHeight
      backgroundOffsetY stepX fromOffsetX backgroundHorizontalCopies.toNat toOffsetX
  else
    some ()

/-- The block `if ( backgroundVerticalCopies > 0 ) { ... }` of
`renderBackgroundImage`. -/
def renderBackgroundVertically (roi : Rect) (borderOffset backgroundSpriteHeight
    backgroundWidth backgroundOffsetX backgroundOffsetY backgroundVerticalCopies : Int) :
    Checked Unit :=
  if backgroundVerticalCopies > 0 then do
    let toOffsetY ← addInt32 borderOffset backgroundSpriteHeight
    draw [backgroundOffsetX, backgroundOffsetY, backgroundOffsetX,
      ← subInt32 (← addInt32 roi.y toOffsetY) transitionSize, backgroundWidth, transitionSize]
    let stepY ← subInt32 backgroundSpriteHeight transitionSize
    let fromOffsetY ← addInt32 borderOffset transitionSize
    renderBackgroundRows roi borderOffset backgroundSpriteHeight backgroundWidth
      backgroundOffsetX stepY fromOffsetY backgroundVerticalCopies.toNat toOffsetY
  else
    some ()

/-- `static void renderBackgroundImage( output, roi, borderOffset, isEvilInterface )`:
its `int32_t` arithmetic; `isEvilInterface` only selects the sprite. -/
def renderBackgroundImage (sprites : WindowSprites) (roi : Rect) (borderOffset : Int) :
    Checked Unit := do
  let backgroundSpriteWidth := sprites.backgroundSprite.width
  let backgroundSpriteHeight := sprites.backgroundSprite.height
  let backgroundWidth ← subInt32 roi.width (← mulInt32 borderOffset 2)
  let backgroundHeight ← subInt32 roi.height (← mulInt32 borderOffset 2)
  let backgroundHorizontalCopies ← divInt32
    (← subInt32 (← subInt32 backgroundWidth 1) transitionSize)
    (← subInt32 backgroundSpriteWidth transitionSize)
  let backgroundVerticalCopies ← divInt32
    (← subInt32 (← subInt32 backgroundHeight 1) transitionSize)
    (← subInt32 backgroundSpriteHeight transitionSize)
  let backgroundCopyWidth := min backgroundSpriteWidth backgroundWidth
  let backgroundCopyHeight := min backgroundSpriteHeight backgroundHeight
  let backgroundOffsetX ← addInt32 roi.x borderOffset
  let backgroundOffsetY ← addInt32 roi.y borderOffset
  draw [0, 0, backgroundOffsetX, backgroundOffsetY, backgroundCopyWidth, backgroundCopyHeight]
  renderBackgroundHorizontally roi borderOffset backgroundSpriteWidth backgroundCopyHeight
    backgroundOffsetY backgroundHorizontalCopies
  renderBackgroundVertically roi borderOffset backgroundSpriteHeight backgroundWidth
    backgroundOffsetX backgroundOffsetY backgroundVerticalCopies

/-- The loop `for ( int32_t i = 0; i < verticalSpriteCopies; ++i )` of `render()`,
given the number of iterations still to make and the value of `toOffsetY`. -/
def renderVerticalCopies (windowArea : Rect) (hasBackground : Bool)
    (cornerSize rightCornerSpriteOffsetX rightCornerOffsetX cornerOffsetX
      verticalSpriteCopyHeight stepY fromOffsetY : Int) : Nat → Int → Checked Unit
  | 0, _ => some ()
  | n + 1, toOffsetY => do
    let copyHeight := min verticalSpriteCopyHeight
      (← subInt32 (← subInt32 windowArea.height borderEdgeOffset) toOffsetY)
    let toY ← addInt32 windowArea.y toOffsetY
    draw [0, fromOffsetY, windowArea.x, toY, cornerSize, copyHeight]
    draw [rightCornerSpriteOffsetX, fromOffsetY, rightCornerOffsetX, toY, cornerSize, copyHeight]
    if hasBackground then do
      draw [cornerSize, fromOffsetY, cornerOffsetX, toY, transitionSize, copyHeight]
      draw [← subInt32 rightCornerSpriteOffsetX transitionSize, fromOffsetY,
        ← subInt32 rightCornerOffsetX transitionSize, toY, transitionSize, copyHeight]
    renderVerticalCopies windowArea hasBackground cornerSize rightCornerSpriteOffsetX
      rightCornerOffsetX cornerOffsetX verticalSpriteCopyHeight stepY fromOffsetY n
      (← addInt32 toOffsetY stepY)

/-- The loop `for ( int32_t i = 0; i < horizontalSpriteCopies; ++i )` of `render()`,
given the number of iterations still to make and the value of `toOffsetX`. -/
def renderHorizontalCopies (windowArea : Rect) (hasBackground : Bool)
    (cornerSize bottomBorderSpriteOffsetY bottomCornerOffsetY cornerOffsetY
      horizontalSpriteCopyWidth stepX fromOffsetX : Int) : Nat → Int → Checked Unit
  | 0, _ => some ()
  | n + 1, toOffsetX => do
    let copyWidth := min horizontalSpriteCopyWidth
      (← subInt32 (← subInt32 windowArea.width borderEdgeOffset) toOffsetX)
    let toX ← addInt32 windowArea.x toOffsetX
    draw [fromOffsetX, 0, toX, windowArea.y, copyWidth, cornerSize]
    draw [fromOffsetX, bottomBorderSpriteOffsetY, toX, bottomCornerOffsetY, copyWidth, cornerSize]
    if hasBackground then do
      draw [fromOffsetX, cornerSize, toX, cornerOffsetY, copyWidth, transitionSize]
      draw [fromOffsetX, ← subInt32 bottomBorderSpriteOffsetY transitionSize, toX,
        ← subInt32 bottomCornerOffsetY transitionSize, copyWidth, transitionSize]
    renderHorizontalCopies windowArea hasBackground cornerSize bottomBorderSpriteOffsetY
      bottomCornerOffsetY cornerOffsetY horizontalSpriteCopyWidth stepX fromOffsetX n
      (← addInt32 toOffsetX stepX)

/-- The first block `if ( _hasBackground ) { ... }` of `render()`: the background
image and the transitions in the corners. -/
def renderCornerTransitions (sprites : WindowSprites) (windowArea : Rect)
    (hasBackground : Bool) (cornerSize extraCornerSize cornerOffsetX cornerOffsetY
      rightBorderEdgeOffset bottomBorderEdgeOffset rightCornerOffsetX bottomCornerOffsetY
      rightCornerSpriteOffsetX bottomCornerSpriteOffsetY : Int) : Checked Unit :=
  if hasBackground then do
    renderBackgroundImage sprites windowArea backgroundOffset
    draw [cornerSize, cornerSize, cornerOffsetX, cornerOffsetY, extraCornerSize, transitionSize]
    draw [cornerSize, cornerSize, cornerOffsetX, cornerOffsetY, transitionSize, extraCornerSize]
    draw [rightBorderEdgeOffset, cornerSize, ← subInt32 rightCornerOffsetX extraCornerSize,
      cornerOffsetY, extraCornerSize, transitionSize]
    draw [← subInt32 rightCornerSpriteOffsetX transitionSize, cornerSize,
      ← subInt32 rightCornerOffsetX transitionSize, cornerOffsetY, transitionSize,
      extraCornerSize]
    draw [cornerSize, ← subInt32 bottomCornerSpriteOffsetY transitionSize, cornerOffsetX,
      ← subInt32 bottomCornerOffsetY transitionSize, extraCornerSize, transitionSize]
    draw [cornerSize, bottomBorderEdgeOffset, cornerOffsetX,
      ← subInt32 bottomCornerOffsetY extraCornerSize, transitionSize, extraCornerSize]
    draw [rightBorderEdgeOffset, ← subInt32 bottomCornerSpriteOffsetY transitionSize,
      ← subInt32 rightCornerOffsetX extraCornerSize,
      ← subInt32 bottomCornerOffsetY transitionSize, extraCornerSize, transitionSize]
    draw [← subInt32 rightCornerSpriteOffsetX transitionSize, bottomBorderEdgeOffset,
      ← subInt32 rightCornerOffsetX transitionSize,
      ← subInt32 bottomCornerOffsetY extraCornerSize, transitionSize, extraCornerSize]
  else
    some ()

/-- The block `if ( _hasBackground ) { ... }` of `render()` after the vertical
borders. -/
def renderVerticalTransitions (hasBackground : Bool) (cornerSize cornerOffsetX
    topBorderEdgeOffset verticalSpriteCopyHeight rightCornerSpriteOffsetX
    rightCornerOffsetX : Int) : Checked Unit :=
  if hasBackground then do
    draw [cornerSize, borderEdgeOffset, cornerOffsetX, topBorderEdgeOffset, transitionSize,
      verticalSpriteCopyHeight]
    draw [← subInt32 rightCornerSpriteOffsetX transitionSize, borderEdgeOffset,
      ← subInt32 rightCornerOffsetX transitionSize, topBorderEdgeOffset, transitionSize,
      verticalSpriteCopyHeight]
  else
    some ()

/-- The block `if ( verticalSpriteCopies > 0 ) { ... }` of `render()`. -/
def renderVerticalBorderCopies (windowArea : Rect) (hasBackground : Bool)
    (cornerSize rightCornerSpriteOffsetX rightCornerOffsetX cornerOffsetX
      verticalSpriteCopyHeight verticalSpriteCopies : Int) : Checked Unit :=
  if verticalSpriteCopies > 0 then do
    let toOffsetY ← addInt32 borderEdgeOffset verticalSpriteCopyHeight
    let outputY ← subInt32 (← addInt32 windowArea.y toOffsetY) transitionSize
    draw [0, borderEdgeOffset, windowArea.x, outputY, cornerSize, transitionSize]
    draw [rightCornerSpriteOffsetX, borderEdgeOffset, rightCornerOffsetX, outputY, cornerSize,
      transitionSize]
    let stepY ← subInt32 verticalSpriteCopyHeight transitionSize
    let fromOffsetY ← addInt32 borderEdgeOffset transitionSize
    renderVerticalCopies windowArea hasBackground cornerSize rightCornerSpriteOffsetX
      rightCornerOffsetX cornerOffsetX verticalSpriteCopyHeight stepY fromOffsetY
      verticalSpriteCopies.toNat toOffsetY
  else
    some ()

/-- The block `if ( _hasBackground ) { ... }` of `render()` after the horizontal
borders. -/
def renderHorizontalTransitions (hasBackground : Bool) (cornerSize cornerOffsetY
    horizontalSpriteCopyStartX leftBorderEdgeOffset horizontalSpriteCopyWidth
    bottomBorderSpriteOffsetY bottomCornerOffsetY : Int) : Checked Unit :=
  if hasBackground then do
    draw [horizontalSpriteCopyStartX, cornerSize, leftBorderEdgeOffset, cornerOffsetY,
      horizontalSpriteCopyWidth, transitionSize]
    draw [horizontalSpriteCopyStartX, ← subInt32 bottomBorderSpriteOffsetY transitionSize,
      leftBorderEdgeOffset, ← subInt32 bottomCornerOffsetY transitionSize,
      horizontalSpriteCopyWidth, transitionSize]
  else
    some ()

/-- The block `if ( horizontalSpriteCopies > 0 ) { ... }` of `render()`. -/
def renderHorizontalBorderCopies (windowArea : Rect) (hasBackground : Bool)
    (cornerSize bottomBorderSpriteOffsetY bottomCornerOffsetY cornerOffsetY
      horizontalSpriteCopyStartX horizontalSpriteCopyWidth horizontalSpriteCopies : Int) :
    Checked Unit :=
  if horizontalSpriteCopies > 0 then do
    let toOffsetX ← addInt32 borderEdgeOffset horizontalSpriteCopyWidth
    let outputX ← subInt32 (← addInt32 windowArea.x toOffsetX) transitionSize
    draw [horizontalSpriteCopyStartX, 0, outputX, windowArea.y, transitionSize, cornerSize]
    draw [horizontalSpriteCopyStartX, bottomBorderSpriteOffsetY, outputX, bottomCornerOffsetY,
      transitionSize, cornerSize]
    let stepX ← subInt32 horizontalSpriteCopyWidth transitionSize
    let fromOffsetX ← addInt32 horizontalSpriteCopyStartX transitionSize
    renderHorizontalCopies windowArea hasBackground cornerSize bottomBorderSpriteOffsetY
      bottomCornerOffsetY cornerOffsetY horizontalSpriteCopyWidth stepX fromOffsetX
      horizontalSpriteCopies.toNat toOffsetX
  else
    some ()

/-- `void StandardWindow::render()`: its `int32_t` arithmetic, statement by
statement, with the five `if` blocks in the definitions above; `hasBackground`
is the member `_hasBackground`, `borderSize` the constant
`fheroes2::borderWidthPx`, and `isEvilInterface` only selects the sprites. -/
def render (sprites : WindowSprites) (borderSize : Int) (w : StandardWindow)
    (hasBackground : Bool) : Checked Unit := do
  let horizontalSprite := sprites.horizontalSprite
  let verticalSprite := sprites.verticalSprite
  let cornerSize : Int := if hasBackground then backgroundOffset else borderSize
  let horizontalSpriteWidth ← subInt32 horizontalSprite.width borderSize
  let horizontalSpriteHeight ← subInt32 horizontalSprite.height borderSize
  let verticalSpriteHeight := verticalSprite.height
  let verticalSpriteWidth := verticalSprite.width
  let rightCornerOffsetX ← subInt32 (← addInt32 w._windowArea.x w._windowArea.width) cornerSize
  let bottomCornerOffsetY ← subInt32 (← addInt32 w._windowArea.y w._windowArea.height) cornerSize
  let rightCornerSpriteOffsetX ← subInt32 verticalSpriteWidth cornerSize
  let bottomCornerSpriteOffsetY ← subInt32 verticalSpriteHeight cornerSize
  draw [0, 0, w._windowArea.x, w._windowArea.y, cornerSize, cornerSize]
  draw [rightCornerSpriteOffsetX, 0, rightCornerOffsetX, w._windowArea.y, cornerSize, cornerSize]
  draw [0, bottomCornerSpriteOffsetY, w._windowArea.x, bottomCornerOffsetY, cornerSize, cornerSize]
  draw [rightCornerSpriteOffsetX, bottomCornerSpriteOffsetY, rightCornerOffsetX,
    bottomCornerOffsetY, cornerSize, cornerSize]
  let extraCornerSize ← subInt32 borderEdgeOffset cornerSize
  let cornerOffsetX ← addInt32 w._windowArea.x cornerSize
  let cornerOffsetY ← addInt32 w._windowArea.y cornerSize
  let rightBorderEdgeOffset ← subInt32 verticalSpriteWidth borderEdgeOffset
  let bottomBorderEdgeOffset ← subInt32 verticalSpriteHeight borderEdgeOffset
  draw [cornerSize, 0, cornerOffsetX, w._windowArea.y, extraCornerSize, cornerSize]
  draw [0, cornerSize, w._windowArea.x, cornerOffsetY, cornerSize, extraCornerSize]
  draw [rightBorderEdgeOffset, 0, ← subInt32 rightCornerOffsetX extraCornerSize, w._windowArea.y,
    extraCornerSize, cornerSize]
  draw [rightCornerSpriteOffsetX, cornerSize, rightCornerOffsetX, cornerOffsetY, cornerSize,
    extraCornerSize]
  draw [cornerSize, bottomCornerSpriteOffsetY, cornerOffsetX, bottomCornerOffsetY,
    extraCornerSize, cornerSize]
  draw [0, bottomBorderEdgeOffset, w._windowArea.x,
    ← subInt32 bottomCornerOffsetY extraCornerSize, cornerSize, extraCornerSize]
  draw [rightBorderEdgeOffset, bottomCornerSpriteOffsetY,
    ← subInt32 rightCornerOffsetX extraCornerSize, bottomCornerOffsetY, extraCornerSize,
    cornerSize]
  draw [rightCornerSpriteOffsetX, bottomBorderEdgeOffset, rightCornerOffsetX,
    ← subInt32 bottomCornerOffsetY extraCornerSize, cornerSize, extraCornerSize]
  renderCornerTransitions sprites w._windowArea hasBackground cornerSize extraCornerSize
    cornerOffsetX cornerOffsetY rightBorderEdgeOffset bottomBorderEdgeOffset rightCornerOffsetX
    bottomCornerOffsetY rightCornerSpriteOffsetX bottomCornerSpriteOffsetY
  let doubleBorderEdgeOffset ← mulInt32 borderEdgeOffset 2
  let verticalSpriteCopyHeight ← subInt32 (min w._windowArea.height verticalSpriteHeight)
    doubleBorderEdgeOffset
  let verticalSpriteCopies ← divInt32
    (← subInt32 (← subInt32 (← subInt32 w._windowArea.height doubleBorderEdgeOffset) 1)
      transitionSize)
    (← subInt32 (← subInt32 bottomBorderEdgeOffset borderEdgeOffset) transitionSize)
  let topBorderEdgeOffset ← addInt32 w._windowArea.y borderEdgeOffset
  draw [0, borderEdgeOffset, w._windowArea.x, topBorderEdgeOffset, cornerSize,
    verticalSpriteCopyHeight]
  draw [rightCornerSpriteOffsetX, borderEdgeOffset, rightCornerOffsetX, topBorderEdgeOffset,
    cornerSize, verticalSpriteCopyHeight]
  renderVerticalTransitions hasBackground cornerSize cornerOffsetX topBorderEdgeOffset
    verticalSpriteCopyHeight rightCornerSpriteOffsetX rightCornerOffsetX
  renderVerticalBorderCopies w._windowArea hasBackground cornerSize rightCornerSpriteOffsetX
    rightCornerOffsetX cornerOffsetX verticalSpriteCopyHeight verticalSpriteCopies
  let verticalSpriteBottomCornerEdgeY ← subInt32 bottomBorderEdgeOffset transitionSize
  let optputBottomCornerEdgeY ← subInt32
    (← subInt32 (← addInt32 w._windowArea.y w._windowArea.height) borderEdgeOffset)
    transitionSize
  draw [0, verticalSpriteBottomCornerEdgeY, w._windowArea.x, optputBottomCornerEdgeY,
    cornerSize, transitionSize]
  draw [rightCornerSpriteOffsetX, verticalSpriteBottomCornerEdgeY, rightCornerOffsetX,
    optputBottomCornerEdgeY, cornerSize, transitionSize]
  let horizontalSpriteCopyWidth ← subInt32 (min w._windowArea.width horizontalSpriteWidth)
    doubleBorderEdgeOffset
  let horizontalSpriteCopies ← divInt32
    (← subInt32 (← subInt32 (← subInt32 w._windowArea.width doubleBorderEdgeOffset) 1)
      transitionSize)
    (← subInt32 (← subInt32 horizontalSpriteWidth doubleBorderEdgeOffset) transitionSize)
  let bottomBorderSpriteOffsetY ← subInt32 horizontalSpriteHeight cornerSize
  let horizontalSpriteCopyStartX ← addInt32 borderEdgeOffset borderSize
  let leftBorderEdgeOffset ← addInt32 w._windowArea.x borderEdgeOffset
  draw [horizontalSpriteCopyStartX, 0, leftBorderEdgeOffset, w._windowArea.y,
    horizontalSpriteCopyWidth, cornerSize]
  draw [horizontalSpriteCopyStartX, bottomBorderSpriteOffsetY, leftBorderEdgeOffset,
    bottomCornerOffsetY, horizontalSpriteCopyWidth, cornerSize]
  renderHorizontalTransitions hasBackground cornerSize cornerOffsetY horizontalSpriteCopyStartX
    leftBorderEdgeOffset horizontalSpriteCopyWidth bottomBorderSpriteOffsetY bottomCornerOffsetY
  renderHorizontalBorderCopies w._windowArea hasBackground cornerSize bottomBorderSpriteOffsetY
    bottomCornerOffsetY cornerOffsetY horizontalSpriteCopyStartX horizontalSpriteCopyWidth
    horizontalSpriteCopies
  let horizontalSpriteRightCornerEdgeX ← subInt32
    (← subInt32 horizontalSprite.width borderEdgeOffset) transitionSize
  let optputRightCornerEdgeX ← subInt32
    (← subInt32 (← addInt32 w._windowArea.x w._windowArea.width) borderEdgeOffset)
    transitionSize
  draw [horizontalSpriteRightCornerEdgeX, 0, optputRightCornerEdgeX, w._windowArea.y,
    transitionSize, cornerSize]
  draw [horizontalSpriteRightCornerEdgeX, bottomBorderSpriteOffsetY, optputRightCornerEdgeX,
    bottomCornerOffsetY, transitionSize, cornerSize]
  draw [w._windowArea.x, w._windowArea.y, w._windowArea.width, w._windowArea.height, borderSize]

/-- `StandardWindow( width, height, renderBackground, output )`, which centres
the window in the output image of size `outputWidth` by `outputHeight`: the
member initialisers (`_restorer` is given the four values of `_totalArea`,
`_hasBackground` is `renderBackground`), then the body, which calls `render()`. -/
def centred (sprites : WindowSprites) (borderSize outputWidth outputHeight width height : Int)
    (renderBackground : Bool) : Option StandardWindow := do
  let x := (← subInt32 outputWidth width).tdiv 2
  let y := (← subInt32 outputHeight height).tdiv 2
  let w ← withActiveArea borderSize ⟨x, y, width, height⟩
  render sprites borderSize w renderBackground
  some w

/-- `StandardWindow( x, y, width, height, renderBackground, output )`: the member
initialisers (`_restorer` is given the four values of `_totalArea`,
`_hasBackground` is `renderBackground`), then the body, which calls `render()`. -/
def placed (sprites : WindowSprites) (borderSize x y width height : Int)
    (renderBackground : Bool) : Option StandardWindow := do
  let w ← withActiveArea borderSize ⟨x, y, width, height⟩
  render sprites borderSize w renderBackground
  some w

end StandardWindow

/-- Modelled from the spec: `ButtonBase::setPosition( x, y )` of `ui_button.h`,
which is not among the sources, applied to `button( buttonId )`; a button group
is the list of the areas of its buttons, the button is moved so that its area
starts at `(x, y)` and keeps its size, and an index outside the group is
undefined behaviour. -/
def setButtonPosition (buttons : List Rect) (buttonId : Nat) (x y : Int) : Option (List Rect) :=
  match buttons[buttonId]? with
  | some area => some (buttons.set buttonId { area with x := x, y := y })
  | none => none

/-- The function `getSymmetricDialogActiveArea` of `ui_window.cpp`. `menuX` and
`menuY` are `x()` and `y()` of the sprite `AGG::GetICN( ICN::HEROES, 0 )`,
`borderWidthPx` the constant of `ui_constants.h`. -/
def getSymmetricDialogActiveArea (borderWidthPx menuX menuY : Int) (buttons : List Rect)
    (isSingleColumn : Bool) (extraHeight outputWidth outputHeight : Int) : Option Rect :=
  if buttons.length = 0 then
    some ⟨0, 0, 0, 0⟩
  else do
    let buttonArea ← buttons[0]?
    let buttonCount := castInt32 buttons.length
    let widthPadding : Int := if isSingleColumn then 52 else 60
    let heightPadding : Int := if isSingleColumn then 43 else 26
    let cancelButtonAreaHeight : Int :=
      if isSingleColumn then 0 else 25 + buttonsVerticalGap + 10 + 1
    let dialogHeight0 ← addInt32 (← addInt32 cancelButtonAreaHeight heightPadding) extraHeight
    let size ←
      if isSingleColumn || buttonCount.tmod 2 != 0 then do
        let dialogWidth ← addInt32 widthPadding buttonArea.width
        let dialogHeight ← addInt32 dialogHeight0
          (← addInt32 (← mulInt32 buttonArea.height buttonCount)
            (← mulInt32 (← subInt32 buttonCount 1) buttonsVerticalGap))
        some (dialogWidth, dialogHeight)
      else if buttonCount = 2 then do
        let dialogWidth ← addInt32 widthPadding
          (← addInt32 (← mulInt32 buttonArea.width 2) buttonsHorizontalGap)
        let dialogHeight ← addInt32 dialogHeight0 buttonArea.height
        some (dialogWidth, dialogHeight)
      else do
        let buttonGaps : Int := 2 * buttonsVerticalGap
        let dialogWidth ← addInt32 widthPadding
          (← addInt32 (← mulInt32 (buttonCount.tdiv 2) buttonArea.width)
            (← mulInt32 (← subInt32 (buttonCount.tdiv 2) 1) buttonGaps))
        let dialogHeight ← addInt32 dialogHeight0
          (← addInt32 (← mulInt32 buttonArea.height 2) buttonGaps)
        some (dialogWidth, dialogHeight)
    let placement ←
      if isSingleColumn then do
        let panelXPos ← subInt32
          (← subInt32 (← subInt32 outputWidth menuX) (← addInt32 size.1 borderWidthPx)) 8
        let panelYPos ← addInt32 (← addInt32 menuY borderWidthPx) 8
        some (panelXPos, panelYPos)
      else do
        let x := (← subInt32 outputWidth size.1).tdiv 2
        let y := (← subInt32 outputHeight size.2).tdiv 2
        some (x, y)
    some ⟨placement.1, placement.2, size.1, size.2⟩

/-- `StandardWindow( buttons, isSingleColumn, extraHeight, output )`; with no
button the constructor stops at `assert( 0 )`. -/
def StandardWindow.symmetric (borderWidthPx menuX menuY : Int) (buttons : List Rect)
    (isSingleColumn : Bool) (extraHeight outputWidth outputHeight : Int) :
    Option StandardWindow := do
  let activeArea ← getSymmetricDialogActiveArea borderWidthPx menuX menuY buttons
    isSingleColumn extraHeight outputWidth outputHeight
  let w ← StandardWindow.withActiveArea borderWidthPx activeArea
  if buttons.length = 0 then none else some w

/-- What `renderSymmetricButtons` chooses before its loops: rows, columns, the
offset of the first button and the horizontal gap. -/
structure SymmetricGrid where
  rows : Int
  columns : Int
  offsetX : Int
  offsetY : Int
  horizontalGapBetweenButtons : Int
  deriving DecidableEq, Repr

/-- The `if`/`else if`/`else` of `renderSymmetricButtons` that chooses the grid. -/
def symmetricGrid (buttonCount : Int) (isSingleColumn : Bool) : SymmetricGrid :=
  if isSingleColumn || buttonCount.tmod 2 != 0 then
    ⟨buttonCount, 1, 25, 22, buttonsHorizontalGap⟩
  else if buttonCount = 2 then
    ⟨1, 2, 30, 15, buttonsHorizontalGap⟩
  else
    ⟨2, buttonCount.tdiv 2, 30, 15, 2 * buttonsVerticalGap⟩

/-- Body of the inner loop of `renderSymmetricButtons`: the button `buttonId` is
positioned for `row` and `column`, then `++buttonId`. -/
def renderSymmetricCell (activeArea : Rect) (buttonsWidth buttonsHeight : Int)
    (grid : SymmetricGrid) (offsetY verticalGapOffset row column : Int)
    (state : List Rect × Nat) : Option (List Rect × Nat) := do
  let x ← addInt32
    (← addInt32 (← addInt32 activeArea.x (← mulInt32 column buttonsWidth)) grid.offsetX)
    (← mulInt32 column grid.horizontalGapBetweenButtons)
  let y ← addInt32
    (← addInt32 activeArea.y
      (← mulInt32 row (← addInt32 buttonsHeight verticalGapOffset))) offsetY
  let buttons ← setButtonPosition state.1 state.2 x y
  some (buttons, sizeIncrement state.2)

/-- The inner loop `for ( column = 0; column < columns; ++column )`, given the
columns still to visit. -/
def renderSymmetricColumns (activeArea : Rect) (buttonsWidth buttonsHeight : Int)
    (grid : SymmetricGrid) (offsetY verticalGapOffset row : Int) :
    List Int → List Rect × Nat → Option (List Rect × Nat)
  | [], state => some state
  | column :: rest, state =>
    match renderSymmetricCell activeArea buttonsWidth buttonsHeight grid offsetY
        verticalGapOffset row column state with
    | some state1 =>
      renderSymmetricColumns activeArea buttonsWidth buttonsHeight grid offsetY
        verticalGapOffset row rest state1
    | none => none

/-- The values `0, 1, ..., n - 1` a loop variable takes in
`for ( i = 0; i < n; ++i )`. -/
def loopRange (n : Int) : List Int := (List.range n.toNat).map Int.ofNat

/-- The outer loop `for ( row = 0; row < rows; ++row )`, given the rows still to
visit. -/
def renderSymmetricRows (activeArea : Rect) (buttonsWidth buttonsHeight : Int)
    (grid : SymmetricGrid) (offsetY verticalGapOffset : Int) :
    List Int → List Rect × Nat → Option (List Rect × Nat)
  | [], state => some state
  | row :: rest, state =>
    match renderSymmetricColumns activeArea buttonsWidth buttonsHeight grid offsetY
        verticalGapOffset row (loopRange grid.columns) state with
    | some state1 =>
      renderSymmetricRows activeArea buttonsWidth buttonsHeight grid offsetY
        verticalGapOffset rest state1
    | none => none

/-- `void StandardWindow::renderSymmetricButtons( buttons, offsetY, isSingleColumn )`:
the positions it gives to the buttons; the drawing is left out. -/
def StandardWindow.renderSymmetricButtons (w : StandardWindow) (buttons : List Rect)
    (offsetY : Int) (isSingleColumn : Bool) : Option (List Rect) := do
  let first ← buttons[0]?
  let buttonsWidth := first.width
  let buttonsHeight := first.height
  let buttonCount := castInt32 buttons.length
  let grid := symmetricGrid buttonCount isSingleColumn
  let buttonsOffsetY ← addInt32 grid.offsetY offsetY
  let verticalGapOffset : Int :=
    if isSingleColumn then buttonsVerticalGap else 2 * buttonsVerticalGap
  let state ← renderSymmetricRows w._activeArea buttonsWidth buttonsHeight grid
    buttonsOffsetY verticalGapOffset (loopRange grid.rows) (buttons, 0)
  some state.1

/-- The rectangles `a` and `b` have a point in common. -/
def Rect.overlaps (a b : Rect) : Prop :=
  a.x < b.x + b.width ∧ b.x < a.x + a.width ∧ a.y < b.y + b.height ∧ b.y < a.y + a.height

instance (a b : Rect) : Decidable (a.overlaps b) := by
  unfold Rect.overlaps
  exact inferInstance

/-- The two arguments of `setPosition` in the inner loop of
`renderSymmetricButtons`, for `row` and `column`. -/
def symmetricCellPosition (activeArea : Rect) (buttonsWidth buttonsHeight : Int)
    (grid : SymmetricGrid) (offsetY verticalGapOffset row column : Int) : Option (Int × Int) := do
  let x ← addInt32
    (← addInt32 (← addInt32 activeArea.x (← mulInt32 column buttonsWidth)) grid.offsetX)
    (← mulInt32 column grid.horizontalGapBetweenButtons)
  let y ← addInt32
    (← addInt32 activeArea.y
      (← mulInt32 row (← addInt32 buttonsHeight verticalGapOffset))) offsetY
  some (x, y)

/-- Where a grid of `columns` columns that is filled row by row puts the button
with index `index`: in row `index / columns` and column `index % columns`, at
the position that the inner loop of `renderSymmetricButtons` computes for that
cell; the button keeps its size. -/
def rowMajorPlaced (activeArea : Rect) (buttonsWidth buttonsHeight : Int)
    (grid : SymmetricGrid) (offsetY verticalGapOffset : Int) (columns index : Nat)
    (button : Rect) : Rect :=
  { button with
    x := activeArea.x + ((index % columns : Nat) : Int) * buttonsWidth + grid.offsetX +
      ((index % columns : Nat) : Int) * grid.horizontalGapBetweenButtons
    y := activeArea.y + ((index / columns : Nat) : Int) * (buttonsHeight + verticalGapOffset) +
      offsetY }

/-- The group `current` is the group `buttons` in which the buttons with an index
below `done` have been positioned row by row and the other buttons are as they
were. -/
def RowMajorLayout (activeArea : Rect) (buttonsWidth buttonsHeight : Int)
    (grid : SymmetricGrid) (offsetY verticalGapOffset : Int) (columns : Nat)
    (buttons : List Rect) (done : Nat) (current : List Rect) : Prop :=
  current.length = buttons.length ∧
    ∀ i, current[i]? =
      if i < done then
        (buttons[i]?).map
          (rowMajorPlaced activeArea buttonsWidth buttonsHeight grid offsetY verticalGapOffset
            columns i)
      else buttons[i]?

/-- Three sprites for evaluation: a horizontal sprite of 656 by 496 pixels, a
vertical sprite and a background sprite of 640 by 480 pixels. -/
def sampleSprites : WindowSprites :=
  ⟨⟨656, 496⟩, ⟨640, 480⟩, ⟨640, 480⟩⟩

/-- A dialog of 640 by 480 pixels at the origin, with a border of 16 pixels. -/
def sampleWindow : StandardWindow :=
  ⟨⟨0, 0, 640, 480⟩, ⟨-16, -16, 672, 512⟩, ⟨-32, -16, 688, 528⟩⟩

/-- A group of four buttons of 100 by 25 pixels. -/
def sampleButtons : List Rect :=
  [⟨0, 0, 100, 25⟩, ⟨0, 0, 100, 25⟩, ⟨0, 0, 100, 25⟩, ⟨0, 0, 100, 25⟩]

/-! ## Languages: `ui_language.cpp` -/

/-- Modelled from the spec: `enum class SupportedLanguage : uint8_t`, defined in
`ui_language.h`, which is not among the sources; the enumerators are the 22 that
the `switch` statements of `ui_language.cpp` handle, in the order of
`getLanguageName`. -/
inductive SupportedLanguage where
  | English
  | French
  | Polish
  | German
  | Russian
  | Italian
  | Czech
  | Norwegian
  | Belarusian
  | Bulgarian
  | Ukrainian
  | Romanian
  | Spanish
  | Swedish
  | Portuguese
  | Turkish
  | Dutch
  | Hungarian
  | Danish
  | Slovak
  | Vietnamese
  | Greek
  deriving DecidableEq, Repr

/-- Modelled from the spec: `enum class CodePage`, defined in a header that is not
among the sources; the enumerators are those that `getCodePage` returns. -/
inductive CodePage where
  | ASCII
  | CP1250
  | CP1251
  | CP1252
  | CP1253
  | CP1254
  | CP1258
  | ISO8859_16
  deriving DecidableEq, Repr

/-- Modelled from the spec: `std::string StringLower( std::string str )` of
`tools.h`, which is not among the sources: every upper-case letter `A` to `Z` is
replaced by its lower-case letter and every other character is kept. -/
def StringLower (str : String) : String := ⟨str.data.map Char.toLower⟩

section

open SupportedLanguage

/-- The table `languageName`, entries in the order of the initialiser. -/
def languageName : List (String × SupportedLanguage) :=
  [("pl", Polish), ("polish", Polish),
   ("de", German), ("german", German),
   ("fr", French), ("french", French),
   ("ru", Russian), ("russian", Russian),
   ("it", Italian), ("italian", Italian),
   ("cs", Czech), ("czech", Czech),
   ("nb", Norwegian), ("norwegian", Norwegian),
   ("be", Belarusian), ("belarusian", Belarusian),
   ("uk", Ukrainian), ("ukrainian", Ukrainian),
   ("bg", Bulgarian), ("bulgarian", Bulgarian),
   ("es", Spanish), ("spanish", Spanish),
   ("pt", Portuguese), ("portuguese", Portuguese),
   ("sv", Swedish), ("swedish", Swedish),
   ("tr", Turkish), ("turkish", Turkish),
   ("ro", Romanian), ("romanian", Romanian),
   ("nl", Dutch), ("dutch", Dutch),
   ("hu", Hungarian), ("hungarian", Hungarian),
   ("dk", Danish), ("danish", Danish),
   ("sk", Slovak), ("slovak", Slovak),
   ("vi", Vietnamese), ("vietnamese", Vietnamese),
   ("gr", Greek), ("greek", Greek)]

/-- `const char * getLanguageAbbreviation( const SupportedLanguage language )`. -/
def getLanguageAbbreviation : SupportedLanguage → String
  | English => ""
  | French => "fr"
  | Polish => "pl"
  | German => "de"
  | Russian => "ru"
  | Italian => "it"
  | Czech => "cs"
  | Norwegian => "nb"
  | Belarusian => "be"
  | Bulgarian => "bg"
  | Ukrainian => "uk"
  | Romanian => "ro"
  | Spanish => "es"
  | Swedish => "sv"
  | Portuguese => "pt"
  | Turkish => "tr"
  | Dutch => "nl"
  | Hungarian => "hu"
  | Danish => "dk"
  | Slovak => "sk"
  | Vietnamese => "vi"
  | Greek => "gr"

/-- `SupportedLanguage getLanguageFromAbbreviation( const std::string & abbreviation )`;
`languageName.find( name )` is the lookup of the key `name` in the table. -/
def getLanguageFromAbbreviation (abbreviation : String) : SupportedLanguage :=
  if abbreviation.length = 0 then
    SupportedLanguage.English
  else
    let name := StringLower abbreviation
    match languageName.lookup name with
    | none => SupportedLanguage.English
    | some language => language

/-- `CodePage getCodePage( const SupportedLanguage language )`. -/
def getCodePage : SupportedLanguage → CodePage
  | English => CodePage.ASCII
  | Czech => CodePage.CP1250
  | Hungarian => CodePage.CP1250
  | Polish => CodePage.CP1250
  | Slovak => CodePage.CP1250
  | Belarusian => CodePage.CP1251
  | Bulgarian => CodePage.CP1251
  | Russian => CodePage.CP1251
  | Ukrainian => CodePage.CP1251
  | Danish => CodePage.CP1252
  | Dutch => CodePage.CP1252
  | French => CodePage.CP1252
  | German => CodePage.CP1252
  | Italian => CodePage.CP1252
  | Norwegian => CodePage.CP1252
  | Portuguese => CodePage.CP1252
  | Spanish => CodePage.CP1252
  | Swedish => CodePage.CP1252
  | Greek => CodePage.CP1253
  | Turkish => CodePage.CP1254
  | Vietnamese => CodePage.CP1258
  | Romanian => CodePage.ISO8859_16

/-- The initialiser of the set `possibleLanguages` in `getSupportedLanguages`. -/
def possibleLanguages : List SupportedLanguage :=
  [French, Polish, German, Russian, Italian, Norwegian, Belarusian, Bulgarian, Ukrainian,
   Romanian, Spanish, Portuguese, Swedish, Turkish, Dutch, Hungarian, Czech, Danish, Slovak,
   Vietnamese, Greek]

end

/-- All enumerators of `CodePage`. -/
def allCodePages : List CodePage :=
  [CodePage.ASCII, CodePage.CP1250, CodePage.CP1251, CodePage.CP1252, CodePage.CP1253,
   CodePage.CP1254, CodePage.CP1258, CodePage.ISO8859_16]

/-- The order in which a `std::set` or the keys of a `std::map` are visited: by
increasing value. The values of the enumerators are declared in headers that are
not among the sources, so they are the argument `value`. -/
def iterationOrder {β : Type} (value : β → Nat) (elements : List β) : List β :=
  elements.insertionSort (fun a b => value a ≤ value b)

/-- `supportedLanguges[codePage].emplace_back( language )` on the map from code
pages to vectors; a key that is not in the map has the empty vector. -/
def emplaceLanguage (groups : CodePage → List SupportedLanguage) (codePage : CodePage)
    (language : SupportedLanguage) : CodePage → List SupportedLanguage :=
  fun key => if key = codePage then groups key ++ [language] else groups key

/-- Modelled from the spec: the two member functions of `Settings` (`settings.h`,
not among the sources) that `getSupportedLanguages` calls, on a state `S` of the
settings: `getGameLanguage` reads the abbreviation, `setGameLanguage` changes
the state and reports whether the translation could be loaded. -/
structure SettingsRuntime (S : Type) where
  getGameLanguage : S → String
  setGameLanguage : String → S → Bool × S

/-- Body of the inner loop of the second loop nest of `getSupportedLanguages`:
`if ( conf.setGameLanguage( getLanguageAbbreviation( language ) ) )
validSupportedLanguages.emplace_back( language )`. -/
def tryLanguage {S : Type} (conf : SettingsRuntime S) (state : List SupportedLanguage × S)
    (language : SupportedLanguage) : List SupportedLanguage × S :=
  let result := conf.setGameLanguage (getLanguageAbbreviation language) state.2
  if result.1 then (state.1 ++ [language], result.2) else (state.1, result.2)

/-- `std::vector<SupportedLanguage> getSupportedLanguages()`, together with the
state in which it leaves the settings. `resourceLanguage` is what
`getResourceLanguage()` returns, `isAlphabetSupported` the function of that name
(both depend on files that are not among the sources), `languageValue` and
`codePageValue` the values of the enumerators. The closing
`assert( !validSupportedLanguages.empty() )` cannot fail, as the vector starts
with English. -/
def getSupportedLanguages {S : Type} (languageValue : SupportedLanguage → Nat)
    (codePageValue : CodePage → Nat) (resourceLanguage : SupportedLanguage)
    (isAlphabetSupported : SupportedLanguage → Bool) (conf : SettingsRuntime S)
    (settings : S) : List SupportedLanguage × S :=
  let supportedLanguges0 : CodePage → List SupportedLanguage :=
    if resourceLanguage ≠ SupportedLanguage.English then
      emplaceLanguage (fun _ => []) (getCodePage resourceLanguage) resourceLanguage
    else
      fun _ => []
  let supportedLanguges : CodePage → List SupportedLanguage :=
    (iterationOrder languageValue possibleLanguages).foldl
      (fun groups language =>
        if language ≠ resourceLanguage ∧ isAlphabetSupported language = true then
          emplaceLanguage groups (getCodePage language) language
        else
          groups)
      supportedLanguges0
  let currentLanguage := getLanguageFromAbbreviation (conf.getGameLanguage settings)
  let valid : List SupportedLanguage × S :=
    (iterationOrder codePageValue allCodePages).foldl
      (fun state codePage => (supportedLanguges codePage).foldl (tryLanguage conf) state)
      ([SupportedLanguage.English], settings)
  let restored := conf.setGameLanguage (getLanguageAbbreviation currentLanguage) valid.2
  (valid.1, restored.2)

/-- Values of the enumerators in the order in which `SupportedLanguage` is
modelled. -/
def sampleLanguageValue (language : SupportedLanguage) : Nat := language.toCtorIdx

/-- Values of the enumerators in the order in which `CodePage` is modelled. -/
def sampleCodePageValue (codePage : CodePage) : Nat := codePage.toCtorIdx

/-- Settings whose state is the abbreviation of the game language and in which
the translations of Polish, Russian, German and Czech can be loaded. -/
def sampleSettings : SettingsRuntime String where
  getGameLanguage := fun s => s
  setGameLanguage := fun abbreviation s =>
    if abbreviation ∈ ["", "pl", "ru", "de", "cs"] then (true, abbreviation) else (false, s)

/-! ## Observations on a trace -/

/-- The calls of `Action::undo` and `Action::redo` recorded in a trace, in order. -/
def actionCalls {α κ : Type} : List (Event α κ) → List (Event α κ)
  | [] => []
  | Event.stateCallback _ _ _ :: t => actionCalls t
  | e :: t => e :: actionCalls t

/-- What an observer does is invisible to the actions: `R` relates outside
worlds that the actions cannot tell apart (related worlds give the same result
and related worlds again), and the observer in the slot `cb`, if there is one,
maps a world to a related one. -/
def ObserverInvisible {α κ W : Type} (rt : Runtime α κ W) (R : W → W → Prop) (cb : Option κ) :
    Prop :=
  (∀ (a : α) (w1 w2 : W), R w1 w2 →
    (rt.undo a w1).1 = (rt.undo a w2).1 ∧ R (rt.undo a w1).2 (rt.undo a w2).2) ∧
  (∀ (a : α) (w1 w2 : W), R w1 w2 →
    (rt.redo a w1).1 = (rt.redo a w2).1 ∧ R (rt.redo a w1).2 (rt.redo a w2).2) ∧
  ∀ k ∈ cb, ∀ (u r : Bool) (w1 w2 : W), R w1 w2 → R w1 (rt.invoke k u r w2)

/-- A runtime in which observers are visible to the actions: the document is an
integer, an action succeeds when the document is not negative, and an observer
sets the document to `-1`. -/
def meddlingRuntime : Runtime Nat Nat Int where
  redo := fun a w => (decide (0 ≤ w), w + a)
  undo := fun a w => (decide (0 ≤ w), w - a)
  invoke := fun _ _ _ _ => -1

/-- A runtime in which the observer is invisible to the actions: the outside
world is a document and a counter, the actions work on the document as in
`meddlingRuntime`, and an observer increments the counter. -/
def countingRuntime : Runtime Nat Nat (Int × Nat) where
  redo := fun a w => (decide (0 ≤ w.1), (w.1 + a, w.2))
  undo := fun a w => (decide (0 ≤ w.1), (w.1 - a, w.2))
  invoke := fun _ _ _ w => (w.1, w.2 + 1)

end fheroes2

namespace fheroes2

/-! ## Arithmetic and container lemmas -/

theorem sizeIncrement_eq {n : Nat} (h : n + 1 < sizeModulus) : sizeIncrement n = n + 1 := by
  unfold sizeIncrement
  exact Nat.mod_eq_of_lt h

theorem sizeDecrement_eq {n : Nat} (h0 : 0 < n) (h : n ≤ sizeModulus) :
    sizeDecrement n = n - 1 := by
  unfold sizeDecrement
  have h1 : n + sizeModulus - 1 = (n - 1) + sizeModulus := by omega
  rw [h1, Nat.add_mod_right]
  exact Nat.mod_eq_of_lt (by omega)

theorem maxActions_lt_sizeModulus : maxActions + 1 < sizeModulus := by
  unfold maxActions sizeModulus
  norm_num

theorem dequeResize_of_le {α : Type} (d : List (Option α)) {n : Nat} (h : n ≤ d.length) :
    dequeResize d n = d.take n := by
  unfold dequeResize
  have h1 : n - d.length = 0 := by omega
  simp [h1]

theorem length_dequeResize {α : Type} (d : List (Option α)) (n : Nat) :
    (dequeResize d n).length = n := by
  unfold dequeResize
  simp
  omega

namespace HistoryManager

variable {α κ W : Type}

/-! ## What `add` computes -/

theorem length_addPush (m : HistoryManager α κ) (p : Option α) :
    (m.addPush p)._actions.length = m._lastActionId + 1 := by
  simp [addPush, length_dequeResize]

/-- Below the bound nothing is evicted: the redo tail is cut and the new pointer
is appended. -/
theorem addWith_of_lt {bound : Nat} (hb : bound + 1 < sizeModulus) (rt : Runtime α κ W)
    (m : HistoryManager α κ) (p : Option α) (e : Exec α κ W)
    (hc : m._lastActionId ≤ m._actions.length) (hlt : m._lastActionId < bound) :
    addWith bound rt m p e =
      some (⟨m._actions.take m._lastActionId ++ [p], m._lastActionId + 1, m._stateCallback⟩,
        notify rt ⟨m._actions.take m._lastActionId ++ [p], m._lastActionId + 1,
          m._stateCallback⟩ e) := by
  have hlen := length_addPush m p
  have hpush : m.addPush p =
      ⟨m._actions.take m._lastActionId ++ [p], m._lastActionId + 1, m._stateCallback⟩ := by
    simp only [addPush, dequeResize_of_le _ hc]
    rw [sizeIncrement_eq (by omega)]
  have hev : addEvict bound (m.addPush p) = m.addPush p := by
    unfold addEvict
    rw [if_neg (by omega)]
  unfold addWith
  simp only [hev]
  rw [if_pos (by omega), hpush]

/-- At the bound the oldest pointer is evicted and the cursor stays. -/
theorem addWith_of_full {bound : Nat} (hb : bound + 1 < sizeModulus) (rt : Runtime α κ W)
    (m : HistoryManager α κ) (p : Option α) (e : Exec α κ W)
    (hc : m._lastActionId = m._actions.length) (hfull : m._lastActionId = bound) :
    addWith bound rt m p e =
      some (⟨(m._actions ++ [p]).tail, bound, m._stateCallback⟩,
        notify rt ⟨(m._actions ++ [p]).tail, bound, m._stateCallback⟩ e) := by
  have hlen := length_addPush m p
  have hpush : m.addPush p = ⟨m._actions ++ [p], bound + 1, m._stateCallback⟩ := by
    simp only [addPush, dequeResize_of_le _ (le_of_eq hc)]
    rw [sizeIncrement_eq (by omega), hc, List.take_length, ← hc, hfull]
  have hev : addEvict bound (m.addPush p) =
      ⟨(m._actions ++ [p]).tail, bound, m._stateCallback⟩ := by
    unfold addEvict
    rw [if_pos (by omega), hpush]
    simp only
    rw [sizeDecrement_eq (by omega) (by omega)]
    rfl
  unfold addWith
  simp only [hev]
  rw [if_pos]
  simp only [List.length_tail, List.length_append, List.length_singleton]
  omega

end HistoryManager

end fheroes2

namespace fheroes2

namespace HistoryManager

variable {α κ W : Type}

/-! ## What `undo` and `redo` compute -/

theorem undo_of_unavailable (rt : Runtime α κ W) (m : HistoryManager α κ) (e : Exec α κ W)
    (h : m._lastActionId = 0) : m.undo rt e = some (false, m, e) := by
  simp [undo, isUndoAvailable, h]

theorem redo_of_unavailable (rt : Runtime α κ W) (m : HistoryManager α κ) (e : Exec α κ W)
    (h : m._actions.length ≤ m._lastActionId) : m.redo rt e = some (false, m, e) := by
  simp [redo, isRedoAvailable, h]

theorem undo_of_available (rt : Runtime α κ W) (m : HistoryManager α κ) (e : Exec α κ W)
    (a : α) (h0 : 0 < m._lastActionId) (hs : m._lastActionId ≤ sizeModulus)
    (ha : m._actions[m._lastActionId - 1]? = some (some a)) :
    m.undo rt e =
      some ((rt.undo a e.world).1, ⟨m._actions, m._lastActionId - 1, m._stateCallback⟩,
        notify rt ⟨m._actions, m._lastActionId - 1, m._stateCallback⟩
          ⟨(rt.undo a e.world).2, e.trace ++ [Event.undo a]⟩) := by
  unfold undo
  have hav : m.isUndoAvailable = true := by simp [isUndoAvailable, h0]
  simp only [hav, Bool.not_true, Bool.false_eq_true, if_false]
  rw [sizeDecrement_eq h0 hs, ha]

theorem redo_of_available (rt : Runtime α κ W) (m : HistoryManager α κ) (e : Exec α κ W)
    (a : α) (hs : m._lastActionId + 1 < sizeModulus)
    (ha : m._actions[m._lastActionId]? = some (some a)) :
    m.redo rt e =
      some ((rt.redo a e.world).1, ⟨m._actions, m._lastActionId + 1, m._stateCallback⟩,
        notify rt ⟨m._actions, m._lastActionId + 1, m._stateCallback⟩
          ⟨(rt.redo a e.world).2, e.trace ++ [Event.redo a]⟩) := by
  unfold redo
  have hlt : m._lastActionId < m._actions.length := by
    by_contra hge
    rw [List.getElem?_eq_none (by omega)] at ha
    exact Option.noConfusion ha
  have hav : m.isRedoAvailable = true := by simp [isRedoAvailable, hlt]
  simp only [hav, Bool.not_true, Bool.false_eq_true, if_false]
  rw [ha, sizeIncrement_eq hs]

/-! ## The class invariant -/

/-- Under the invariant every index inside the sequence holds a non-null pointer. -/
theorem Invariant.lookup {bound : Nat} {m : HistoryManager α κ} (h : m.Invariant bound) {i : Nat}
    (hi : i < m._actions.length) : ∃ a, m._actions[i]? = some (some a) := by
  have hmem : m._actions[i] ∈ m._actions := List.getElem_mem hi
  have hne := h.2.2 _ hmem
  cases hx : m._actions[i] with
  | none => exact absurd hx hne
  | some a => exact ⟨a, by rw [List.getElem?_eq_getElem hi, hx]⟩

theorem Invariant.initial (bound : Nat) : (initial : HistoryManager α κ).Invariant bound := by
  simp [Invariant, HistoryManager.initial]

theorem Invariant.setStateCallback {bound : Nat} {m : HistoryManager α κ} (h : m.Invariant bound)
    (cb : Option κ) : (m.setStateCallback cb).Invariant bound := h

theorem Invariant.reset {bound : Nat} (rt : Runtime α κ W) (m : HistoryManager α κ)
    (e : Exec α κ W) : (m.reset rt e).1.Invariant bound := by
  simp [Invariant, HistoryManager.reset]

/-- From a state that satisfies the invariant, `add` of a non-null pointer runs to
its end (the assertion holds) and re-establishes the invariant. -/
theorem Invariant.addWith {bound : Nat} (hb : bound + 1 < sizeModulus) (rt : Runtime α κ W)
    {m : HistoryManager α κ} (h : m.Invariant bound) (a : α) (e : Exec α κ W) :
    ∃ m1 e1, addWith bound rt m (some a) e = some (m1, e1) ∧ m1.Invariant bound := by
  obtain ⟨hc, hl, hn⟩ := h
  by_cases hlt : m._lastActionId < bound
  · refine ⟨_, _, addWith_of_lt hb rt m (some a) e hc hlt, ?_, ?_, ?_⟩
    · simp [List.length_take, Nat.min_eq_left hc]
    · simp only [List.length_append, List.length_take, Nat.min_eq_left hc,
        List.length_singleton]
      omega
    · intro p hp
      rcases List.mem_append.1 hp with hp | hp
      · exact hn p (List.mem_of_mem_take hp)
      · simp only [List.mem_singleton] at hp
        simp [hp]
  · have hfull : m._lastActionId = bound := by omega
    have hcl : m._lastActionId = m._actions.length := by omega
    refine ⟨_, _, addWith_of_full hb rt m (some a) e hcl hfull, ?_, ?_, ?_⟩
    · simp only [List.length_tail, List.length_append, List.length_singleton]
      omega
    · simp only [List.length_tail, List.length_append, List.length_singleton]
      omega
    · intro p hp
      rcases List.mem_append.1 (List.mem_of_mem_tail hp) with hp | hp
      · exact hn p hp
      · simp only [List.mem_singleton] at hp
        simp [hp]

theorem Invariant.undo {bound : Nat} (hb : bound + 1 < sizeModulus) (rt : Runtime α κ W)
    {m : HistoryManager α κ} (h : m.Invariant bound) (e : Exec α κ W) :
    ∃ b m1 e1, m.undo rt e = some (b, m1, e1) ∧ m1.Invariant bound := by
  by_cases h0 : m._lastActionId = 0
  · exact ⟨_, _, _, undo_of_unavailable rt m e h0, h⟩
  · obtain ⟨a, ha⟩ := h.lookup (i := m._lastActionId - 1) (by have := h.1; omega)
    refine ⟨_, _, _, undo_of_available rt m e a (by omega) (by have := h.1; have := h.2.1; omega)
      ha, ?_, h.2.1, h.2.2⟩
    have := h.1
    show m._lastActionId - 1 ≤ m._actions.length
    omega

theorem Invariant.redo {bound : Nat} (hb : bound + 1 < sizeModulus) (rt : Runtime α κ W)
    {m : HistoryManager α κ} (h : m.Invariant bound) (e : Exec α κ W) :
    ∃ b m1 e1, m.redo rt e = some (b, m1, e1) ∧ m1.Invariant bound := by
  by_cases h0 : m._actions.length ≤ m._lastActionId
  · exact ⟨_, _, _, redo_of_unavailable rt m e h0, h⟩
  · obtain ⟨a, ha⟩ := h.lookup (i := m._lastActionId) (by omega)
    refine ⟨_, _, _, redo_of_available rt m e a (by have := h.2.1; omega) ha, ?_, h.2.1, h.2.2⟩
    show m._lastActionId + 1 ≤ m._actions.length
    omega

/-- Every reachable state satisfies the class invariant. -/
theorem Invariant.of_reachable (rt : Runtime α κ W) {m : HistoryManager α κ}
    (h : Reachable rt m) : m.Invariant maxActions := by
  induction h with
  | initial => exact Invariant.initial _
  | setStateCallback cb _ ih => exact ih.setStateCallback cb
  | reset e _ _ => exact Invariant.reset rt _ e
  | add a e e1 _ hstep ih =>
    obtain ⟨m2, e2, heq, hinv⟩ := ih.addWith maxActions_lt_sizeModulus rt a e
    have : HistoryManager.add rt _ (some a) e = some (m2, e2) := heq
    rw [this] at hstep
    cases hstep
    exact hinv
  | undo e e1 b _ hstep ih =>
    obtain ⟨b2, m2, e2, heq, hinv⟩ := ih.undo maxActions_lt_sizeModulus rt e
    rw [heq] at hstep
    cases hstep
    exact hinv
  | redo e e1 b _ hstep ih =>
    obtain ⟨b2, m2, e2, heq, hinv⟩ := ih.redo maxActions_lt_sizeModulus rt e
    rw [heq] at hstep
    cases hstep
    exact hinv

end HistoryManager

end fheroes2

namespace fheroes2

namespace HistoryManager

variable {α κ W : Type}

/-! ## Every state that satisfies the invariant is reachable -/

theorem exists_map_some (s : List (Option α)) (h : ∀ p ∈ s, p ≠ none) :
    ∃ as : List α, s = as.map some := by
  induction s with
  | nil => exact ⟨[], rfl⟩
  | cons p t ih =>
    obtain ⟨as, has⟩ := ih (fun q hq => h q (List.mem_cons_of_mem _ hq))
    cases p with
    | none => exact absurd rfl (h none (List.mem_cons_self _ _))
    | some a => exact ⟨a :: as, by rw [has]; rfl⟩

theorem reachable_adds (rt : Runtime α κ W) (w : W) (as : List α)
    (h : as.length ≤ maxActions) : Reachable rt ⟨as.map some, as.length, none⟩ := by
  induction as using List.reverseRecOn with
  | nil => exact Reachable.initial
  | append_singleton as a ih =>
    have hlen : as.length < maxActions := by
      simp only [List.length_append, List.length_singleton] at h
      omega
    have r := ih (le_of_lt hlen)
    have hadd := addWith_of_lt maxActions_lt_sizeModulus rt
      (⟨as.map some, as.length, none⟩ : HistoryManager α κ) (some a) ⟨w, []⟩
      (by simp) hlen
    have hst : (⟨(as ++ [a]).map some, (as ++ [a]).length, none⟩ : HistoryManager α κ) =
        ⟨(as.map some).take as.length ++ [some a], as.length + 1, none⟩ := by
      have : (as.map some).take as.length = as.map some :=
        List.take_of_length_le (by simp)
      simp [this]
    rw [hst]
    exact Reachable.add a _ _ r hadd

theorem reachable_undos (rt : Runtime α κ W) (w : W) (s : List (Option α)) (cb : Option κ)
    (hn : ∀ p ∈ s, p ≠ none) (hl : s.length ≤ maxActions) (c k : Nat) (hk : c + k ≤ s.length)
    (h : Reachable rt ⟨s, c + k, cb⟩) : Reachable rt ⟨s, c, cb⟩ := by
  induction k with
  | zero => exact h
  | succ k ih =>
    apply ih (by omega)
    have hinv : (⟨s, c + (k + 1), cb⟩ : HistoryManager α κ).Invariant maxActions :=
      ⟨hk, hl, hn⟩
    obtain ⟨a, ha⟩ := hinv.lookup (i := c + k) (by show c + k < s.length; omega)
    have hu := undo_of_available rt (⟨s, c + (k + 1), cb⟩ : HistoryManager α κ) ⟨w, []⟩ a
      (by show 0 < c + (k + 1); omega)
      (by show c + (k + 1) ≤ sizeModulus; have := maxActions_lt_sizeModulus; omega) ha
    exact Reachable.undo _ _ _ h hu

/-- The invariant characterises the reachable states (given some outside world to
run in). -/
theorem reachable_of_invariant (rt : Runtime α κ W) (w : W) {m : HistoryManager α κ}
    (h : m.Invariant maxActions) : Reachable rt m := by
  obtain ⟨s, c, cb⟩ := m
  obtain ⟨hc, hl, hn⟩ := h
  simp only at hc hl hn
  obtain ⟨as, rfl⟩ := exists_map_some s hn
  have r1 := reachable_adds rt w as (by simpa using hl)
  have r2 : Reachable rt ⟨as.map some, as.length, cb⟩ := Reachable.setStateCallback cb r1
  have hk : c + ((as.map some).length - c) = as.length := by
    simp only [List.length_map] at hc ⊢
    omega
  apply reachable_undos rt w (as.map some) cb hn hl c ((as.map some).length - c) (by omega)
  rw [hk]
  exact r2

theorem reachable_iff_invariant (rt : Runtime α κ W) (w : W) (m : HistoryManager α κ) :
    Reachable rt m ↔ m.Invariant maxActions :=
  ⟨Invariant.of_reachable rt, reachable_of_invariant rt w⟩

/-! ## The concrete instance -/

theorem sampleManager_invariant : sampleManager.Invariant maxActions := by
  refine ⟨by decide, by decide, ?_⟩
  intro p hp
  simp only [sampleManager, List.mem_cons, List.mem_singleton, List.not_mem_nil, or_false] at hp
  rcases hp with rfl | rfl | rfl <;> simp

theorem fullManager_invariant : fullManager.Invariant maxActions := by
  refine ⟨?_, ?_, ?_⟩
  · show 500 ≤ (List.replicate 500 (some 1)).length
    rw [List.length_replicate]
  · show (List.replicate 500 (some 1)).length ≤ 500
    rw [List.length_replicate]
  · intro p hp
    simp only [fullManager] at hp
    rw [List.eq_of_mem_replicate hp]
    simp

theorem sampleManager_reachable : Reachable sampleRuntime sampleManager :=
  reachable_of_invariant sampleRuntime 0 sampleManager_invariant

theorem fullManager_reachable : Reachable sampleRuntime fullManager :=
  reachable_of_invariant sampleRuntime 0 fullManager_invariant

end HistoryManager

end fheroes2

namespace fheroes2

open HistoryManager

variable {α κ W : Type}

/-! ## Invariants of the history -/

/-- Claim C1. In every state reachable from the freshly constructed manager by
`setStateCallback`, `reset`, `add`, `undo` and `redo` calls the cursor is at most
the length and the length is at most `maxActions`; and every `add` made in such
a state runs to its end and leaves a length of at most `maxActions`. -/
theorem reachable_cursor_length_capacity (rt : Runtime α κ W) (m : HistoryManager α κ)
    (h : Reachable rt m) :
    0 ≤ m._lastActionId ∧ m._lastActionId ≤ m._actions.length ∧
      m._actions.length ≤ maxActions ∧
      ∀ (a : α) (e : Exec α κ W), ∃ m1 e1,
        m.add rt (some a) e = some (m1, e1) ∧ m1._actions.length ≤ maxActions := by
  have hinv := Invariant.of_reachable rt h
  refine ⟨Nat.zero_le _, hinv.1, hinv.2.1, ?_⟩
  intro a e
  obtain ⟨m1, e1, heq, h1⟩ := hinv.addWith maxActions_lt_sizeModulus rt a e
  exact ⟨m1, e1, heq, h1.2.1⟩

theorem reachable_cursor_length_capacity_witness :
    Reachable sampleRuntime sampleManager ∧
      (0 ≤ sampleManager._lastActionId ∧
        sampleManager._lastActionId ≤ sampleManager._actions.length ∧
        sampleManager._actions.length ≤ maxActions ∧
        ∀ (a : Nat) (e : Exec Nat Nat Int), ∃ m1 e1,
          sampleManager.add sampleRuntime (some a) e = some (m1, e1) ∧
            m1._actions.length ≤ maxActions) :=
  ⟨sampleManager_reachable,
    reachable_cursor_length_capacity sampleRuntime sampleManager sampleManager_reachable⟩

/-! ## `add` -/

/-- Claim C2. In a reachable state with sequence `s` and cursor `c < maxActions`,
`add(a)` leaves the first `c` elements of `s` followed by `a`, and the cursor
`c + 1`. -/
theorem add_below_capacity (rt : Runtime α κ W) (m : HistoryManager α κ) (h : Reachable rt m)
    (hc : m._lastActionId < maxActions) (a : α) (e : Exec α κ W) :
    ∃ e1, m.add rt (some a) e =
      some (⟨m._actions.take m._lastActionId ++ [some a], m._lastActionId + 1,
        m._stateCallback⟩, e1) :=
  ⟨_, addWith_of_lt maxActions_lt_sizeModulus rt m (some a) e (Invariant.of_reachable rt h).1 hc⟩

theorem add_below_capacity_witness :
    Reachable sampleRuntime sampleManager ∧ sampleManager._lastActionId < maxActions ∧
      ∃ e1, sampleManager.add sampleRuntime (some 4) sampleExec =
        some (⟨[some 1, some 2, some 4], 3, some 9⟩, e1) :=
  ⟨sampleManager_reachable, by decide,
    add_below_capacity sampleRuntime sampleManager sampleManager_reachable (by decide) 4
      sampleExec⟩

/-- Claim C3. In a reachable state whose cursor equals `maxActions` the sequence
`s` is full and has no redo tail, and `add(a)` leaves `s` without its first
element followed by `a` with the cursor still `maxActions`: the done actions are
the old ones without the oldest, followed by `a`, and nothing is redoable. -/
theorem add_at_capacity (rt : Runtime α κ W) (m : HistoryManager α κ) (h : Reachable rt m)
    (hc : m._lastActionId = maxActions) (a : α) (e : Exec α κ W) :
    m._actions.length = maxActions ∧ m.isRedoAvailable = false ∧
      ∃ m1 e1, m.add rt (some a) e = some (m1, e1) ∧
        m1._actions = m._actions.tail ++ [some a] ∧
        m1._lastActionId = maxActions ∧
        m1._actions.take m1._lastActionId =
          (m._actions.take m._lastActionId).tail ++ [some a] ∧
        m1._actions.drop m1._lastActionId = [] ∧
        m1.isRedoAvailable = false := by
  have hinv := Invariant.of_reachable rt h
  have hlen : m._actions.length = maxActions := by
    have h1 := hinv.1
    have h2 := hinv.2.1
    omega
  have hcl : m._lastActionId = m._actions.length := by omega
  have hne : m._actions ≠ [] := by
    intro hnil
    rw [hnil] at hlen
    have h500 : (0 : Nat) ≠ maxActions := by decide
    exact h500 hlen
  have htail : (m._actions ++ [some a]).tail = m._actions.tail ++ [some a] :=
    List.tail_append_of_ne_nil hne
  have hl1 : (m._actions.tail ++ [some a]).length = maxActions := by
    simp only [List.length_append, List.length_tail, List.length_singleton]
    have : 0 < maxActions := by decide
    omega
  refine ⟨hlen, by simp [isRedoAvailable, hcl], _, _,
    addWith_of_full maxActions_lt_sizeModulus rt m (some a) e hcl hc, htail, rfl, ?_, ?_, ?_⟩
  · show ((m._actions ++ [some a]).tail).take maxActions = _
    rw [htail, hcl, List.take_length, List.take_of_length_le (le_of_eq hl1)]
  · show ((m._actions ++ [some a]).tail).drop maxActions = []
    rw [htail, List.drop_eq_nil_iff]
    exact le_of_eq hl1
  · show decide (maxActions < ((m._actions ++ [some a]).tail).length) = false
    rw [htail, hl1]
    simp

theorem add_at_capacity_witness :
    Reachable sampleRuntime fullManager ∧ fullManager._lastActionId = maxActions ∧
      (fullManager._actions.length = maxActions ∧ fullManager.isRedoAvailable = false ∧
        ∃ m1 e1, fullManager.add sampleRuntime (some 7) sampleExec = some (m1, e1) ∧
          m1._actions = fullManager._actions.tail ++ [some 7] ∧
          m1._lastActionId = maxActions ∧
          m1._actions.take m1._lastActionId =
            (fullManager._actions.take fullManager._lastActionId).tail ++ [some 7] ∧
          m1._actions.drop m1._lastActionId = [] ∧
          m1.isRedoAvailable = false) :=
  ⟨fullManager_reachable, rfl,
    add_at_capacity sampleRuntime fullManager fullManager_reachable rfl 7 sampleExec⟩

/-- Claim C4. Whenever `add` evicts from a reachable state (the length after the
push exceeds `maxActions`), the incremented cursor is at least 1 and equals the
length, the decrement of the `size_t` cursor does not wrap, the eviction leaves
the cursor one lower and removes the front entry, and that entry lies left of the
cursor while nothing lies at or right of it. -/
theorem add_eviction_cursor (rt : Runtime α κ W) (m : HistoryManager α κ) (h : Reachable rt m)
    (p : Option α) (hev : (m.addPush p)._actions.length > maxActions) :
    1 ≤ (m.addPush p)._lastActionId ∧
      (m.addPush p)._lastActionId = (m.addPush p)._actions.length ∧
      sizeDecrement (m.addPush p)._lastActionId + 1 = (m.addPush p)._lastActionId ∧
      addEvict maxActions (m.addPush p) =
        ⟨(m.addPush p)._actions.tail, (m.addPush p)._lastActionId - 1, m._stateCallback⟩ ∧
      (m.addPush p)._actions.drop (m.addPush p)._lastActionId = [] := by
  have hinv := Invariant.of_reachable rt h
  have hlen := length_addPush m p
  have hb := maxActions_lt_sizeModulus
  have h1 := hinv.1
  have h2 := hinv.2.1
  have hid : (m.addPush p)._lastActionId = m._lastActionId + 1 :=
    sizeIncrement_eq (by omega)
  have hdec : sizeDecrement (m.addPush p)._lastActionId = (m.addPush p)._lastActionId - 1 :=
    sizeDecrement_eq (by omega) (by omega)
  refine ⟨by omega, by omega, by omega, ?_, ?_⟩
  · unfold addEvict
    rw [if_pos hev, hdec]
    rfl
  · rw [List.drop_eq_nil_iff]
    omega

theorem add_eviction_cursor_witness :
    Reachable sampleRuntime fullManager ∧
      (fullManager.addPush (some 7))._actions.length > maxActions ∧
      (1 ≤ (fullManager.addPush (some 7))._lastActionId ∧
        (fullManager.addPush (some 7))._lastActionId =
          (fullManager.addPush (some 7))._actions.length ∧
        sizeDecrement (fullManager.addPush (some 7))._lastActionId + 1 =
          (fullManager.addPush (some 7))._lastActionId ∧
        addEvict maxActions (fullManager.addPush (some 7)) =
          ⟨(fullManager.addPush (some 7))._actions.tail,
            (fullManager.addPush (some 7))._lastActionId - 1, fullManager._stateCallback⟩ ∧
        (fullManager.addPush (some 7))._actions.drop
          (fullManager.addPush (some 7))._lastActionId = []) :=
  ⟨fullManager_reachable, by rw [length_addPush]; exact Nat.lt_succ_self 500,
    add_eviction_cursor sampleRuntime fullManager fullManager_reachable (some 7)
      (by rw [length_addPush]; exact Nat.lt_succ_self 500)⟩

end fheroes2

namespace fheroes2

open HistoryManager

variable {α κ W : Type}

/-- Claim C5. In a reachable state in which undo is available, `undo()` followed
by `add(x)` both run to their end and leave a state in which redo is not
available; a following `redo()` returns false and changes neither the manager nor
the outside world nor the trace; the sequence is the part left of the moved
cursor followed by `x`, and nothing lies at or right of the cursor. -/
theorem undo_then_add_drops_redo (rt : Runtime α κ W) (m : HistoryManager α κ)
    (h : Reachable rt m) (hu : m.isUndoAvailable = true) (x : α) (e : Exec α κ W) :
    ∃ b m1 e1 m2 e2, m.undo rt e = some (b, m1, e1) ∧
      m1.add rt (some x) e1 = some (m2, e2) ∧
      m2.isRedoAvailable = false ∧
      m2.redo rt e2 = some (false, m2, e2) ∧
      m2._actions = m._actions.take (m._lastActionId - 1) ++ [some x] ∧
      m2._lastActionId = m._lastActionId ∧
      m2._actions.drop m2._lastActionId = [] := by
  have hinv := Invariant.of_reachable rt h
  have hb := maxActions_lt_sizeModulus
  have h1 := hinv.1
  have h2 := hinv.2.1
  have h0 : 0 < m._lastActionId := by simpa [isUndoAvailable] using hu
  obtain ⟨a, ha⟩ := hinv.lookup (i := m._lastActionId - 1) (by omega)
  have hundo := undo_of_available rt m e a h0 (by omega) ha
  have hadd := addWith_of_lt hb rt
    (⟨m._actions, m._lastActionId - 1, m._stateCallback⟩ : HistoryManager α κ) (some x)
    (notify rt ⟨m._actions, m._lastActionId - 1, m._stateCallback⟩
      ⟨(rt.undo a e.world).2, e.trace ++ [Event.undo a]⟩)
    (by show m._lastActionId - 1 ≤ m._actions.length; omega)
    (by show m._lastActionId - 1 < maxActions; omega)
  have hlen : (m._actions.take (m._lastActionId - 1) ++ [some x]).length = m._lastActionId := by
    simp only [List.length_append, List.length_take, List.length_singleton]
    omega
  have hcur : m._lastActionId - 1 + 1 = m._lastActionId := by omega
  refine ⟨_, _, _, _, _, hundo, hadd, ?_, ?_, rfl, hcur, ?_⟩
  · show decide (m._lastActionId - 1 + 1 <
      (m._actions.take (m._lastActionId - 1) ++ [some x]).length) = false
    rw [hlen, hcur]
    simp
  · apply redo_of_unavailable
    show (m._actions.take (m._lastActionId - 1) ++ [some x]).length ≤ m._lastActionId - 1 + 1
    omega
  · show (m._actions.take (m._lastActionId - 1) ++ [some x]).drop (m._lastActionId - 1 + 1) = []
    rw [List.drop_eq_nil_iff]
    omega

theorem undo_then_add_drops_redo_witness :
    Reachable sampleRuntime sampleManager ∧ sampleManager.isUndoAvailable = true ∧
      ∃ b m1 e1 m2 e2, sampleManager.undo sampleRuntime sampleExec = some (b, m1, e1) ∧
        m1.add sampleRuntime (some 8) e1 = some (m2, e2) ∧
        m2.isRedoAvailable = false ∧
        m2.redo sampleRuntime e2 = some (false, m2, e2) ∧
        m2._actions = sampleManager._actions.take (sampleManager._lastActionId - 1) ++ [some 8] ∧
        m2._lastActionId = sampleManager._lastActionId ∧
        m2._actions.drop m2._lastActionId = [] :=
  ⟨sampleManager_reachable, by decide,
    undo_then_add_drops_redo sampleRuntime sampleManager sampleManager_reachable (by decide) 8
      sampleExec⟩

/-! ## `undo` and `redo` -/

/-- Claim C7. In every state with cursor 0 `undo()` returns false, and in every
state whose cursor equals the length `redo()` returns false; in both cases the
manager (sequence, cursor, observer), the outside world and the trace are
unchanged, so no action and no observer was called. -/
theorem unavailable_undo_redo_noop (rt : Runtime α κ W) (m : HistoryManager α κ)
    (e : Exec α κ W) :
    (m._lastActionId = 0 → m.undo rt e = some (false, m, e)) ∧
      (m._lastActionId = m._actions.length → m.redo rt e = some (false, m, e)) :=
  ⟨undo_of_unavailable rt m e, fun h => redo_of_unavailable rt m e (le_of_eq h.symm)⟩

theorem unavailable_undo_redo_noop_witness :
    (⟨[some 1, some 2], 0, some 9⟩ : HistoryManager Nat Nat).undo sampleRuntime sampleExec =
        some (false, ⟨[some 1, some 2], 0, some 9⟩, sampleExec) ∧
      (⟨[some 1, some 2], 2, some 9⟩ : HistoryManager Nat Nat).redo sampleRuntime sampleExec =
        some (false, ⟨[some 1, some 2], 2, some 9⟩, sampleExec) :=
  ⟨(unavailable_undo_redo_noop sampleRuntime ⟨[some 1, some 2], 0, some 9⟩ sampleExec).1 rfl,
    (unavailable_undo_redo_noop sampleRuntime ⟨[some 1, some 2], 2, some 9⟩ sampleExec).2 rfl⟩

/-- Claim C8. In every state of a manager (cursor within the sequence, sequence
within `maxActions`, no null pointer stored) with cursor `c > 0`, `undo()` calls
`undo()` on the action stored at index `c - 1` and on nothing else, then calls
the observer, if one is installed, with the availability of the new state,
returns what the action returned, and leaves the sequence unchanged and the
cursor `c - 1`. -/
theorem undo_available_effect (rt : Runtime α κ W) (m : HistoryManager α κ) (e : Exec α κ W)
    (h : m.Invariant maxActions) (hc : 0 < m._lastActionId) :
    ∃ a, m._actions[m._lastActionId - 1]? = some (some a) ∧
      m.undo rt e =
        some ((rt.undo a e.world).1, ⟨m._actions, m._lastActionId - 1, m._stateCallback⟩,
          match m._stateCallback with
          | none => ⟨(rt.undo a e.world).2, e.trace ++ [Event.undo a]⟩
          | some cb =>
            ⟨rt.invoke cb
                (isUndoAvailable ⟨m._actions, m._lastActionId - 1, m._stateCallback⟩)
                (isRedoAvailable ⟨m._actions, m._lastActionId - 1, m._stateCallback⟩)
                (rt.undo a e.world).2,
              e.trace ++ [Event.undo a, Event.stateCallback cb
                (isUndoAvailable ⟨m._actions, m._lastActionId - 1, m._stateCallback⟩)
                (isRedoAvailable ⟨m._actions, m._lastActionId - 1, m._stateCallback⟩)]⟩) := by
  have hb := maxActions_lt_sizeModulus
  have h1 := h.1
  have h2 := h.2.1
  obtain ⟨a, ha⟩ := h.lookup (i := m._lastActionId - 1) (by omega)
  refine ⟨a, ha, ?_⟩
  rw [undo_of_available rt m e a hc (by omega) ha]
  cases hcb : m._stateCallback <;> simp [notify, fire, isUndoAvailable, isRedoAvailable]

theorem undo_available_effect_witness :
    sampleManager.Invariant maxActions ∧ 0 < sampleManager._lastActionId ∧
      ∃ a, sampleManager._actions[sampleManager._lastActionId - 1]? = some (some a) ∧
        sampleManager.undo sampleRuntime sampleExec =
          some ((sampleRuntime.undo a sampleExec.world).1,
            ⟨sampleManager._actions, sampleManager._lastActionId - 1,
              sampleManager._stateCallback⟩,
            match sampleManager._stateCallback with
            | none => ⟨(sampleRuntime.undo a sampleExec.world).2,
                sampleExec.trace ++ [Event.undo a]⟩
            | some cb =>
              ⟨sampleRuntime.invoke cb
                  (isUndoAvailable ⟨sampleManager._actions, sampleManager._lastActionId - 1,
                    sampleManager._stateCallback⟩)
                  (isRedoAvailable ⟨sampleManager._actions, sampleManager._lastActionId - 1,
                    sampleManager._stateCallback⟩)
                  (sampleRuntime.undo a sampleExec.world).2,
                sampleExec.trace ++ [Event.undo a, Event.stateCallback cb
                  (isUndoAvailable ⟨sampleManager._actions, sampleManager._lastActionId - 1,
                    sampleManager._stateCallback⟩)
                  (isRedoAvailable ⟨sampleManager._actions, sampleManager._lastActionId - 1,
                    sampleManager._stateCallback⟩)]⟩) :=
  ⟨sampleManager_invariant, by decide,
    undo_available_effect sampleRuntime sampleManager sampleExec sampleManager_invariant
      (by decide)⟩

/-- Claim C9. In every state of a manager (cursor within the sequence, sequence
within `maxActions`, no null pointer stored) with cursor `c` less than the
length, `redo()` calls `redo()` on the action stored at index `c` and on nothing
else, then calls the observer, if one is installed, with the availability of the
new state, returns what the action returned, and leaves the sequence unchanged
and the cursor `c + 1`. -/
theorem redo_available_effect (rt : Runtime α κ W) (m : HistoryManager α κ) (e : Exec α κ W)
    (h : m.Invariant maxActions) (hc : m._lastActionId < m._actions.length) :
    ∃ a, m._actions[m._lastActionId]? = some (some a) ∧
      m.redo rt e =
        some ((rt.redo a e.world).1, ⟨m._actions, m._lastActionId + 1, m._stateCallback⟩,
          match m._stateCallback with
          | none => ⟨(rt.redo a e.world).2, e.trace ++ [Event.redo a]⟩
          | some cb =>
            ⟨rt.invoke cb
                (isUndoAvailable ⟨m._actions, m._lastActionId + 1, m._stateCallback⟩)
                (isRedoAvailable ⟨m._actions, m._lastActionId + 1, m._stateCallback⟩)
                (rt.redo a e.world).2,
              e.trace ++ [Event.redo a, Event.stateCallback cb
                (isUndoAvailable ⟨m._actions, m._lastActionId + 1, m._stateCallback⟩)
                (isRedoAvailable ⟨m._actions, m._lastActionId + 1, m._stateCallback⟩)]⟩) := by
  have hb := maxActions_lt_sizeModulus
  have h2 := h.2.1
  obtain ⟨a, ha⟩ := h.lookup (i := m._lastActionId) hc
  refine ⟨a, ha, ?_⟩
  rw [redo_of_available rt m e a (by omega) ha]
  cases hcb : m._stateCallback <;> simp [notify, fire, isUndoAvailable, isRedoAvailable]

theorem redo_available_effect_witness :
    sampleManager.Invariant maxActions ∧
      sampleManager._lastActionId < sampleManager._actions.length ∧
      ∃ a, sampleManager._actions[sampleManager._lastActionId]? = some (some a) ∧
        sampleManager.redo sampleRuntime sampleExec =
          some ((sampleRuntime.redo a sampleExec.world).1,
            ⟨sampleManager._actions, sampleManager._lastActionId + 1,
              sampleManager._stateCallback⟩,
            match sampleManager._stateCallback with
            | none => ⟨(sampleRuntime.redo a sampleExec.world).2,
                sampleExec.trace ++ [Event.redo a]⟩
            | some cb =>
              ⟨sampleRuntime.invoke cb
                  (isUndoAvailable ⟨sampleManager._actions, sampleManager._lastActionId + 1,
                    sampleManager._stateCallback⟩)
                  (isRedoAvailable ⟨sampleManager._actions, sampleManager._lastActionId + 1,
                    sampleManager._stateCallback⟩)
                  (sampleRuntime.redo a sampleExec.world).2,
                sampleExec.trace ++ [Event.redo a, Event.stateCallback cb
                  (isUndoAvailable ⟨sampleManager._actions, sampleManager._lastActionId + 1,
                    sampleManager._stateCallback⟩)
                  (isRedoAvailable ⟨sampleManager._actions, sampleManager._lastActionId + 1,
                    sampleManager._stateCallback⟩)]⟩) :=
  ⟨sampleManager_invariant, by decide,
    redo_available_effect sampleRuntime sampleManager sampleExec sampleManager_invariant
      (by decide)⟩

end fheroes2

namespace fheroes2

open HistoryManager

variable {α κ W : Type}

/-- Claim C10. In every state of a manager in which undo (resp. redo) is
available, run against any two behaviours of the actions (one in which the called
action reports success, one in which it reports failure, say), `undo()` (resp.
`redo()`) leaves the same manager state and appends the same calls, with the same
observer arguments, to the trace; the value returned is in each run the value
the action returned. -/
theorem failed_action_same_effect (rt1 rt2 : Runtime α κ W) (m : HistoryManager α κ)
    (e1 e2 : Exec α κ W) (h : m.Invariant maxActions) :
    (m.isUndoAvailable = true →
      ∃ a m1 t x1 x2, m._actions[m._lastActionId - 1]? = some (some a) ∧
        m.undo rt1 e1 = some ((rt1.undo a e1.world).1, m1, x1) ∧
        m.undo rt2 e2 = some ((rt2.undo a e2.world).1, m1, x2) ∧
        x1.trace = e1.trace ++ t ∧ x2.trace = e2.trace ++ t) ∧
    (m.isRedoAvailable = true →
      ∃ a m1 t x1 x2, m._actions[m._lastActionId]? = some (some a) ∧
        m.redo rt1 e1 = some ((rt1.redo a e1.world).1, m1, x1) ∧
        m.redo rt2 e2 = some ((rt2.redo a e2.world).1, m1, x2) ∧
        x1.trace = e1.trace ++ t ∧ x2.trace = e2.trace ++ t) := by
  have hb := maxActions_lt_sizeModulus
  have h1 := h.1
  have h2 := h.2.1
  constructor
  · intro hu
    have h0 : 0 < m._lastActionId := by simpa [isUndoAvailable] using hu
    obtain ⟨a, ha⟩ := h.lookup (i := m._lastActionId - 1) (by omega)
    refine ⟨a, _, [Event.undo a] ++ (match m._stateCallback with
        | none => []
        | some cb => [Event.stateCallback cb
            (isUndoAvailable ⟨m._actions, m._lastActionId - 1, m._stateCallback⟩)
            (isRedoAvailable ⟨m._actions, m._lastActionId - 1, m._stateCallback⟩)]), _, _, ha,
      undo_of_available rt1 m e1 a h0 (by omega) ha,
      undo_of_available rt2 m e2 a h0 (by omega) ha, ?_, ?_⟩ <;>
    cases hcb : m._stateCallback <;> simp [notify, fire, hcb]
  · intro hr
    have h0 : m._lastActionId < m._actions.length := by simpa [isRedoAvailable] using hr
    obtain ⟨a, ha⟩ := h.lookup (i := m._lastActionId) h0
    refine ⟨a, _, [Event.redo a] ++ (match m._stateCallback with
        | none => []
        | some cb => [Event.stateCallback cb
            (isUndoAvailable ⟨m._actions, m._lastActionId + 1, m._stateCallback⟩)
            (isRedoAvailable ⟨m._actions, m._lastActionId + 1, m._stateCallback⟩)]), _, _, ha,
      redo_of_available rt1 m e1 a (by omega) ha,
      redo_of_available rt2 m e2 a (by omega) ha, ?_, ?_⟩ <;>
    cases hcb : m._stateCallback <;> simp [notify, fire, hcb]

theorem failed_action_same_effect_witness :
    sampleManager.Invariant maxActions ∧ sampleManager.isUndoAvailable = true ∧
      sampleManager.isRedoAvailable = true ∧
      (∃ a m1 t x1 x2,
        sampleManager._actions[sampleManager._lastActionId - 1]? = some (some a) ∧
        sampleManager.undo sampleRuntime sampleExec =
          some ((sampleRuntime.undo a sampleExec.world).1, m1, x1) ∧
        sampleManager.undo failingRuntime sampleExec =
          some ((failingRuntime.undo a sampleExec.world).1, m1, x2) ∧
        x1.trace = sampleExec.trace ++ t ∧ x2.trace = sampleExec.trace ++ t) ∧
      (∃ a m1 t x1 x2,
        sampleManager._actions[sampleManager._lastActionId]? = some (some a) ∧
        sampleManager.redo sampleRuntime sampleExec =
          some ((sampleRuntime.redo a sampleExec.world).1, m1, x1) ∧
        sampleManager.redo failingRuntime sampleExec =
          some ((failingRuntime.redo a sampleExec.world).1, m1, x2) ∧
        x1.trace = sampleExec.trace ++ t ∧ x2.trace = sampleExec.trace ++ t) :=
  ⟨sampleManager_invariant, by decide, by decide,
    (failed_action_same_effect sampleRuntime failingRuntime sampleManager sampleExec sampleExec
      sampleManager_invariant).1 (by decide),
    (failed_action_same_effect sampleRuntime failingRuntime sampleManager sampleExec sampleExec
      sampleManager_invariant).2 (by decide)⟩

end fheroes2

namespace fheroes2

namespace HistoryManager

variable {α κ W : Type}

/-! ## Scripts -/

theorem runWith_cons (bound : Nat) (rt : Runtime α κ W) (c : Call α κ) (cs : List (Call α κ))
    (m : HistoryManager α κ) (e : Exec α κ W) :
    runWith bound rt (c :: cs) m e =
      match callWith bound rt m e c with
      | none => none
      | some (r, m1, e1) =>
        match runWith bound rt cs m1 e1 with
        | none => none
        | some (rs, m2, e2) => some (r :: rs, m2, e2) := rfl

theorem runWith_append (bound : Nat) (rt : Runtime α κ W) (cs1 cs2 : List (Call α κ))
    (m : HistoryManager α κ) (e : Exec α κ W) :
    runWith bound rt (cs1 ++ cs2) m e =
      match runWith bound rt cs1 m e with
      | none => none
      | some (rs1, m1, e1) =>
        match runWith bound rt cs2 m1 e1 with
        | none => none
        | some (rs2, m2, e2) => some (rs1 ++ rs2, m2, e2) := by
  induction cs1 generalizing m e with
  | nil =>
    simp only [List.nil_append, runWith]
    cases runWith bound rt cs2 m e with
    | none => rfl
    | some x => rfl
  | cons c cs ih =>
    rw [List.cons_append, runWith_cons, runWith_cons]
    cases callWith bound rt m e c with
    | none => rfl
    | some x =>
      obtain ⟨r, m1, e1⟩ := x
      simp only
      rw [ih]
      cases runWith bound rt cs m1 e1 with
      | none => rfl
      | some y =>
        obtain ⟨rs, m2, e2⟩ := y
        simp only
        cases runWith bound rt cs2 m2 e2 with
        | none => rfl
        | some z => rfl

/-- Adding actions one after the other to a history without a redo tail, as long
as the bound is not exceeded, appends them in order. -/
theorem runWith_adds {bound : Nat} (hb : bound + 1 < sizeModulus) (rt : Runtime α κ W)
    (as : List α) (s : List (Option α)) (cb : Option κ) (e : Exec α κ W)
    (h : s.length + as.length ≤ bound) :
    ∃ rs e1, runWith bound rt (as.map Call.add) ⟨s, s.length, cb⟩ e =
      some (rs, ⟨s ++ as.map some, s.length + as.length, cb⟩, e1) := by
  induction as generalizing s e with
  | nil => exact ⟨[], e, by simp [runWith]⟩
  | cons a as ih =>
    simp only [List.length_cons] at h
    have hadd := addWith_of_lt hb rt (⟨s, s.length, cb⟩ : HistoryManager α κ) (some a) e
      (le_refl _) (by show s.length < bound; omega)
    simp only [List.take_length] at hadd
    obtain ⟨rs, e1, hrun⟩ := ih (s ++ [some a])
      (notify rt ⟨s ++ [some a], s.length + 1, cb⟩ e)
      (by simp only [List.length_append, List.length_singleton]; omega)
    simp only [List.length_append, List.length_singleton] at hrun
    refine ⟨none :: rs, e1, ?_⟩
    simp only [List.map_cons, runWith, callWith, hadd, hrun, List.length_cons]
    simp only [List.append_assoc, List.singleton_append]
    have : s.length + 1 + as.length = s.length + (as.length + 1) := by omega
    rw [this]

theorem tail_map_range_succ {β : Type} (f : Nat → β) (n : Nat) :
    ((List.range n).map f ++ [f n]).tail = (List.range n).map (fun i => f (i + 1)) := by
  have h1 : (List.range n).map f ++ [f n] = (List.range (n + 1)).map f := by
    rw [List.range_succ, List.map_append]
    rfl
  rw [h1, List.range_succ_eq_map]
  simp only [List.map_cons, List.tail_cons, List.map_map]
  rfl

/-- One call of `add` more than the bound, starting from an empty history. -/
theorem runWith_adds_overflow {bound : Nat} (hb : bound + 1 < sizeModulus)
    (rt : Runtime α κ W) (cb : Option κ) (a : Nat → α) (e : Exec α κ W) :
    ∃ rs e1,
      runWith bound rt ((List.range (bound + 1)).map (fun i => Call.add (a i))) ⟨[], 0, cb⟩ e =
        some (rs, ⟨(List.range bound).map (fun i => some (a (i + 1))), bound, cb⟩, e1) := by
  have hsplit : (List.range (bound + 1)).map (fun i => Call.add (a i)) =
      (((List.range bound).map a).map Call.add : List (Call α κ)) ++
        [Call.add (a bound)] := by
    rw [List.range_succ, List.map_append, List.map_map]
    rfl
  obtain ⟨rs, e1, hrun⟩ := runWith_adds hb rt ((List.range bound).map a) [] cb e
    (by simp)
  have hst : (⟨[] ++ ((List.range bound).map a).map some,
      ([] : List (Option α)).length + ((List.range bound).map a).length, cb⟩ :
        HistoryManager α κ) = ⟨(List.range bound).map (fun i => some (a i)), bound, cb⟩ := by
    simp [Function.comp_def]
  rw [hst] at hrun
  have hfull := addWith_of_full hb rt
    (⟨(List.range bound).map (fun i => some (a i)), bound, cb⟩ : HistoryManager α κ)
    (some (a bound)) e1 (by simp) rfl
  rw [tail_map_range_succ (fun i => some (a i)) bound] at hfull
  refine ⟨rs ++ [none], notify rt
    ⟨(List.range bound).map (fun i => some (a (i + 1))), bound, cb⟩ e1, ?_⟩
  rw [hsplit, runWith_append]
  have hrun1 : runWith bound rt (((List.range bound).map a).map Call.add) ⟨[], 0, cb⟩ e =
      some (rs, ⟨(List.range bound).map (fun i => some (a i)), bound, cb⟩, e1) := hrun
  rw [hrun1]
  simp only [runWith, callWith, hfull]

end HistoryManager

open HistoryManager

variable {α κ W : Type}

/-- Claim C6. Starting from an empty manager, `maxActions + 1` calls of `add`
with the actions `a 0`, ..., `a maxActions` all run to their end and leave undo
available, redo not available, and exactly `maxActions` actions, namely `a 1`,
..., `a maxActions` in this order. -/
theorem add_capacity_plus_one (rt : Runtime α κ W) (cb : Option κ) (a : Nat → α)
    (e : Exec α κ W) :
    ∃ rs m1 e1,
      run rt ((List.range (maxActions + 1)).map (fun i => Call.add (a i))) ⟨[], 0, cb⟩ e =
        some (rs, m1, e1) ∧
      m1.isUndoAvailable = true ∧ m1.isRedoAvailable = false ∧
      m1._actions.length = maxActions ∧
      m1._actions = (List.range maxActions).map (fun i => some (a (i + 1))) := by
  obtain ⟨rs, e1, hrun⟩ := runWith_adds_overflow maxActions_lt_sizeModulus rt cb a e
  refine ⟨rs, ⟨(List.range maxActions).map (fun i => some (a (i + 1))), maxActions, cb⟩, e1,
    ?_, ?_, ?_, ?_, ?_⟩
  · unfold run
    exact hrun
  · unfold isUndoAvailable
    dsimp only
    decide
  · unfold isRedoAvailable
    dsimp only
    rw [List.length_map, List.length_range]
    simp
  · dsimp only
    rw [List.length_map, List.length_range]
  · dsimp only

end fheroes2

namespace fheroes2

theorem observerCalls_append {α κ : Type} (t1 t2 : List (Event α κ)) :
    observerCalls (t1 ++ t2) = observerCalls t1 ++ observerCalls t2 := by
  induction t1 with
  | nil => rfl
  | cons x t ih =>
    cases x with
    | undo a => simpa [observerCalls] using ih
    | redo a => simpa [observerCalls] using ih
    | stateCallback cb u r => simp [observerCalls, ih]

namespace HistoryManager

variable {α κ W : Type}

/-- What the statement `if ( _stateCallback ) { _stateCallback( u, r ); }` appends
to the trace. -/
theorem fire_trace (rt : Runtime α κ W) (m : HistoryManager α κ) (u r : Bool)
    (e : Exec α κ W) :
    (m.fire rt u r e).trace = e.trace ++
      (match m._stateCallback with
        | none => []
        | some cb => [Event.stateCallback cb u r]) := by
  unfold fire
  cases m._stateCallback <;> simp

theorem addWith_stateCallback {bound : Nat} (rt : Runtime α κ W) (m m1 : HistoryManager α κ)
    (p : Option α) (e e1 : Exec α κ W) (h : addWith bound rt m p e = some (m1, e1)) :
    m1._stateCallback = m._stateCallback ∧
      e1.trace = e.trace ++
        (match m._stateCallback with
          | none => []
          | some cb => [Event.stateCallback cb m1.isUndoAvailable m1.isRedoAvailable]) := by
  unfold addWith at h
  dsimp only at h
  by_cases hle : (addEvict bound (m.addPush p))._actions.length ≤ bound
  · rw [if_pos hle] at h
    simp only [Option.some.injEq, Prod.mk.injEq] at h
    obtain ⟨h1, h2⟩ := h
    have hcb : (addEvict bound (m.addPush p))._stateCallback = m._stateCallback := by
      unfold addEvict
      split <;> rfl
    subst h1
    subst h2
    refine ⟨hcb, ?_⟩
    unfold notify
    rw [fire_trace, hcb]
  · rw [if_neg hle] at h
    exact Option.noConfusion h

end HistoryManager

open HistoryManager

variable {α κ W : Type}

/-! ## `reset`, the observer -/

/-- Claim C11. From every state `reset()` leaves an empty sequence and cursor 0
with the observer slot as it was; undo and redo are then unavailable and a
following `undo()` or `redo()` returns false and changes nothing; `reset()` calls
no action, and it calls the installed observer, if there is one, exactly once,
with `(false, false)`. -/
theorem reset_effect (rt : Runtime α κ W) (m : HistoryManager α κ) (e : Exec α κ W) :
    m.reset rt e =
        (⟨[], 0, m._stateCallback⟩,
          match m._stateCallback with
          | none => e
          | some cb =>
            ⟨rt.invoke cb false false e.world, e.trace ++ [Event.stateCallback cb false false]⟩) ∧
      (m.reset rt e).1.isUndoAvailable = false ∧
      (m.reset rt e).1.isRedoAvailable = false ∧
      (m.reset rt e).1.undo rt (m.reset rt e).2 =
        some (false, (m.reset rt e).1, (m.reset rt e).2) ∧
      (m.reset rt e).1.redo rt (m.reset rt e).2 =
        some (false, (m.reset rt e).1, (m.reset rt e).2) := by
  refine ⟨?_, rfl, rfl, undo_of_unavailable rt _ _ rfl, redo_of_unavailable rt _ _ (le_refl _)⟩
  unfold reset fire
  cases m._stateCallback <;> rfl

/-- Claim C12. In every state of a manager, every `add`, every `undo` with undo
available and every `redo` with redo available runs to its end and appends to
the trace exactly one observer call when an observer is installed (none
otherwise), and its arguments are `isUndoAvailable()` and `isRedoAvailable()`
of the state the operation leaves behind; this holds for an `add` that evicts
as for any other. -/
theorem observer_notified_once (rt : Runtime α κ W) (m : HistoryManager α κ) (e : Exec α κ W)
    (h : m.Invariant maxActions) :
    (∀ a : α, ∃ m1 e1 t, m.add rt (some a) e = some (m1, e1) ∧ e1.trace = e.trace ++ t ∧
      observerCalls t =
        (match m._stateCallback with
          | none => []
          | some cb => [(cb, m1.isUndoAvailable, m1.isRedoAvailable)])) ∧
    (m.isUndoAvailable = true →
      ∃ b m1 e1 t, m.undo rt e = some (b, m1, e1) ∧ e1.trace = e.trace ++ t ∧
        observerCalls t =
          (match m._stateCallback with
            | none => []
            | some cb => [(cb, m1.isUndoAvailable, m1.isRedoAvailable)])) ∧
    (m.isRedoAvailable = true →
      ∃ b m1 e1 t, m.redo rt e = some (b, m1, e1) ∧ e1.trace = e.trace ++ t ∧
        observerCalls t =
          (match m._stateCallback with
            | none => []
            | some cb => [(cb, m1.isUndoAvailable, m1.isRedoAvailable)])) := by
  have hb := maxActions_lt_sizeModulus
  have h1 := h.1
  have h2 := h.2.1
  refine ⟨?_, ?_, ?_⟩
  · intro a
    obtain ⟨m1, e1, hadd, _⟩ := h.addWith hb rt a e
    obtain ⟨_, htr⟩ := addWith_stateCallback rt m m1 (some a) e e1 hadd
    refine ⟨m1, e1, _, hadd, htr, ?_⟩
    cases m._stateCallback <;> rfl
  · intro hu
    have h0 : 0 < m._lastActionId := by simpa [isUndoAvailable] using hu
    obtain ⟨a, ha⟩ := h.lookup (i := m._lastActionId - 1) (by omega)
    refine ⟨_, _, _, [Event.undo a] ++ (match m._stateCallback with
        | none => []
        | some cb => [Event.stateCallback cb
            (isUndoAvailable ⟨m._actions, m._lastActionId - 1, m._stateCallback⟩)
            (isRedoAvailable ⟨m._actions, m._lastActionId - 1, m._stateCallback⟩)]),
      undo_of_available rt m e a h0 (by omega) ha, ?_, ?_⟩
    · unfold notify
      rw [fire_trace]
      simp
    · cases m._stateCallback <;> rfl
  · intro hr
    have h0 : m._lastActionId < m._actions.length := by simpa [isRedoAvailable] using hr
    obtain ⟨a, ha⟩ := h.lookup (i := m._lastActionId) h0
    refine ⟨_, _, _, [Event.redo a] ++ (match m._stateCallback with
        | none => []
        | some cb => [Event.stateCallback cb
            (isUndoAvailable ⟨m._actions, m._lastActionId + 1, m._stateCallback⟩)
            (isRedoAvailable ⟨m._actions, m._lastActionId + 1, m._stateCallback⟩)]),
      redo_of_available rt m e a (by omega) ha, ?_, ?_⟩
    · unfold notify
      rw [fire_trace]
      simp
    · cases m._stateCallback <;> rfl

theorem observer_notified_once_witness :
    fullManager.Invariant maxActions ∧ sampleManager.Invariant maxActions ∧
      sampleManager.isUndoAvailable = true ∧ sampleManager.isRedoAvailable = true ∧
      (∃ m1 e1 t, fullManager.add sampleRuntime (some 7) sampleExec = some (m1, e1) ∧
        e1.trace = sampleExec.trace ++ t ∧
        observerCalls t =
          (match fullManager._stateCallback with
            | none => []
            | some cb => [(cb, m1.isUndoAvailable, m1.isRedoAvailable)])) ∧
      (∃ b m1 e1 t, sampleManager.undo sampleRuntime sampleExec = some (b, m1, e1) ∧
        e1.trace = sampleExec.trace ++ t ∧
        observerCalls t =
          (match sampleManager._stateCallback with
            | none => []
            | some cb => [(cb, m1.isUndoAvailable, m1.isRedoAvailable)])) ∧
      (∃ b m1 e1 t, sampleManager.redo sampleRuntime sampleExec = some (b, m1, e1) ∧
        e1.trace = sampleExec.trace ++ t ∧
        observerCalls t =
          (match sampleManager._stateCallback with
            | none => []
            | some cb => [(cb, m1.isUndoAvailable, m1.isRedoAvailable)])) :=
  ⟨fullManager_invariant, sampleManager_invariant, by decide, by decide,
    (observer_notified_once sampleRuntime fullManager sampleExec fullManager_invariant).1 7,
    (observer_notified_once sampleRuntime sampleManager sampleExec
      sampleManager_invariant).2.1 (by decide),
    (observer_notified_once sampleRuntime sampleManager sampleExec
      sampleManager_invariant).2.2 (by decide)⟩

end fheroes2

namespace fheroes2

namespace HistoryManager

variable {α κ W : Type}

/-! ## The observer slot along a script -/

/-- From a state that satisfies the invariant, a call other than
`setStateCallback` runs to its end, re-establishes the invariant, keeps the
observer slot, and every observer call it makes goes to the observer in the
slot. -/
theorem Invariant.callWith {bound : Nat} (hb : bound + 1 < sizeModulus) (rt : Runtime α κ W)
    {m : HistoryManager α κ} (h : m.Invariant bound) (e : Exec α κ W) (c : Call α κ)
    (hc : ∀ cb, c ≠ Call.setStateCallback cb) :
    ∃ r m1 e1 t, callWith bound rt m e c = some (r, m1, e1) ∧ m1.Invariant bound ∧
      m1._stateCallback = m._stateCallback ∧ e1.trace = e.trace ++ t ∧
      ∀ x ∈ observerCalls t, some x.1 = m._stateCallback := by
  have h1 := h.1
  have h2 := h.2.1
  cases c with
  | setStateCallback cb => exact absurd rfl (hc cb)
  | reset =>
    refine ⟨none, (m.reset rt e).1, (m.reset rt e).2, _, rfl, Invariant.reset rt m e, rfl,
      fire_trace rt _ false false e, ?_⟩
    show ∀ x ∈ observerCalls
      (match m._stateCallback with
        | none => []
        | some cb => [Event.stateCallback cb false false]), some x.1 = m._stateCallback
    cases m._stateCallback <;> simp [observerCalls]
  | add a =>
    obtain ⟨m1, e1, hadd, hinv⟩ := h.addWith hb rt a e
    obtain ⟨hcb, htr⟩ := addWith_stateCallback rt m m1 (some a) e e1 hadd
    refine ⟨none, m1, e1, _, by simp [HistoryManager.callWith, hadd], hinv, hcb, htr, ?_⟩
    cases m._stateCallback <;> simp [observerCalls]
  | undo =>
    by_cases h0 : m._lastActionId = 0
    · refine ⟨some false, m, e, [], ?_, h, rfl, by simp, by simp [observerCalls]⟩
      simp [HistoryManager.callWith, undo_of_unavailable rt m e h0]
    · obtain ⟨a, ha⟩ := h.lookup (i := m._lastActionId - 1) (by omega)
      have hu := undo_of_available rt m e a (by omega) (by omega) ha
      refine ⟨some (rt.undo a e.world).1,
        ⟨m._actions, m._lastActionId - 1, m._stateCallback⟩,
        notify rt ⟨m._actions, m._lastActionId - 1, m._stateCallback⟩
          ⟨(rt.undo a e.world).2, e.trace ++ [Event.undo a]⟩,
        [Event.undo a] ++ (match m._stateCallback with
          | none => []
          | some cb => [Event.stateCallback cb
              (isUndoAvailable ⟨m._actions, m._lastActionId - 1, m._stateCallback⟩)
              (isRedoAvailable ⟨m._actions, m._lastActionId - 1, m._stateCallback⟩)]),
        by simp only [HistoryManager.callWith, hu], ⟨?_, h2, h.2.2⟩, rfl, ?_, ?_⟩
      · show m._lastActionId - 1 ≤ m._actions.length
        omega
      · unfold notify
        rw [fire_trace]
        simp
      · cases m._stateCallback <;> simp [observerCalls]
  | redo =>
    by_cases h0 : m._actions.length ≤ m._lastActionId
    · refine ⟨some false, m, e, [], ?_, h, rfl, by simp, by simp [observerCalls]⟩
      simp [HistoryManager.callWith, redo_of_unavailable rt m e h0]
    · obtain ⟨a, ha⟩ := h.lookup (i := m._lastActionId) (by omega)
      have hr := redo_of_available rt m e a (by omega) ha
      refine ⟨some (rt.redo a e.world).1,
        ⟨m._actions, m._lastActionId + 1, m._stateCallback⟩,
        notify rt ⟨m._actions, m._lastActionId + 1, m._stateCallback⟩
          ⟨(rt.redo a e.world).2, e.trace ++ [Event.redo a]⟩,
        [Event.redo a] ++ (match m._stateCallback with
          | none => []
          | some cb => [Event.stateCallback cb
              (isUndoAvailable ⟨m._actions, m._lastActionId + 1, m._stateCallback⟩)
              (isRedoAvailable ⟨m._actions, m._lastActionId + 1, m._stateCallback⟩)]),
        by simp only [HistoryManager.callWith, hr], ⟨?_, h2, h.2.2⟩, rfl, ?_, ?_⟩
      · show m._lastActionId + 1 ≤ m._actions.length
        omega
      · unfold notify
        rw [fire_trace]
        simp
      · cases m._stateCallback <;> simp [observerCalls]

/-- A script without `setStateCallback` runs to its end from a state that
satisfies the invariant, and all its observer calls go to the observer in the
slot. -/
theorem Invariant.runWith_keepsObserver {bound : Nat} (hb : bound + 1 < sizeModulus)
    (rt : Runtime α κ W) (cs : List (Call α κ)) (hk : keepsObserver cs = true)
    {m : HistoryManager α κ} (h : m.Invariant bound) (e : Exec α κ W) :
    ∃ rs m1 e1 t, runWith bound rt cs m e = some (rs, m1, e1) ∧ m1.Invariant bound ∧
      m1._stateCallback = m._stateCallback ∧ e1.trace = e.trace ++ t ∧
      ∀ x ∈ observerCalls t, some x.1 = m._stateCallback := by
  induction cs generalizing m e with
  | nil => exact ⟨[], m, e, [], rfl, h, rfl, by simp, by simp [observerCalls]⟩
  | cons c cs ih =>
    have hc : ∀ cb, c ≠ Call.setStateCallback cb := by
      intro cb hcc
      rw [hcc] at hk
      simp [keepsObserver] at hk
    have hk1 : keepsObserver cs = true := by
      cases c with
      | setStateCallback cb => exact absurd rfl (hc cb)
      | reset => simpa [keepsObserver] using hk
      | add a => simpa [keepsObserver] using hk
      | undo => simpa [keepsObserver] using hk
      | redo => simpa [keepsObserver] using hk
    obtain ⟨r, m1, e1, t1, hcall, hinv1, hcb1, htr1, hobs1⟩ := h.callWith hb rt e c hc
    obtain ⟨rs, m2, e2, t2, hrun, hinv2, hcb2, htr2, hobs2⟩ := ih hk1 hinv1 e1
    refine ⟨r :: rs, m2, e2, t1 ++ t2, ?_, hinv2, hcb2.trans hcb1, ?_, ?_⟩
    · rw [runWith_cons, hcall]
      simp only [hrun]
    · rw [htr2, htr1, List.append_assoc]
    · intro x hx
      rw [observerCalls_append] at hx
      rcases List.mem_append.1 hx with hx | hx
      · exact hobs1 x hx
      · rw [← hcb1]
        exact hobs2 x hx

end HistoryManager

open HistoryManager

variable {α κ W : Type}

/-- Claim C13. `setStateCallback(cb)` leaves the action sequence and the cursor
as they are and stores `cb` in the observer slot; the call changes neither the
outside world nor the trace, so neither the observer installed before nor `cb`
is called. After `setStateCallback(cb1)` and then `setStateCallback(cb2)` on a
manager, every script without a further `setStateCallback` runs to its end and
all its observer calls go to `cb2`. -/
theorem setStateCallback_single_slot (rt : Runtime α κ W) (m : HistoryManager α κ)
    (e : Exec α κ W) (cb1 cb2 : Option κ) (cs : List (Call α κ)) :
    (m.setStateCallback cb1)._actions = m._actions ∧
      (m.setStateCallback cb1)._lastActionId = m._lastActionId ∧
      (m.setStateCallback cb1)._stateCallback = cb1 ∧
      callWith maxActions rt m e (Call.setStateCallback cb1) =
        some (none, m.setStateCallback cb1, e) ∧
      (m.Invariant maxActions → keepsObserver cs = true →
        ∃ rs m1 e1 t,
          run rt cs ((m.setStateCallback cb1).setStateCallback cb2) e = some (rs, m1, e1) ∧
          e1.trace = e.trace ++ t ∧ ∀ x ∈ observerCalls t, some x.1 = cb2) := by
  refine ⟨rfl, rfl, rfl, rfl, ?_⟩
  intro h hk
  have h2 : ((m.setStateCallback cb1).setStateCallback cb2).Invariant maxActions := h
  obtain ⟨rs, m1, e1, t, hrun, _, _, htr, hobs⟩ :=
    h2.runWith_keepsObserver maxActions_lt_sizeModulus rt cs hk e
  exact ⟨rs, m1, e1, t, hrun, htr, hobs⟩

theorem setStateCallback_single_slot_witness :
    sampleManager.Invariant maxActions ∧
      keepsObserver ([Call.undo, Call.add 5, Call.reset] : List (Call Nat Nat)) = true ∧
      ∃ rs m1 e1 t,
        run sampleRuntime [Call.undo, Call.add 5, Call.reset]
          ((sampleManager.setStateCallback (some 1)).setStateCallback (some 2)) sampleExec =
            some (rs, m1, e1) ∧
        e1.trace = sampleExec.trace ++ t ∧ ∀ x ∈ observerCalls t, some x.1 = some 2 :=
  ⟨sampleManager_invariant, rfl,
    (setStateCallback_single_slot sampleRuntime sampleManager sampleExec (some 1) (some 2)
      [Call.undo, Call.add 5, Call.reset]).2.2.2.2 sampleManager_invariant rfl⟩

end fheroes2

namespace fheroes2

namespace HistoryManager

variable {α κ W : Type}

/-! ## Documents under a script -/

/-- An observer that leaves the document alone makes the notification invisible
in the document. -/
theorem notify_world (rt : Runtime α κ W) (m : HistoryManager α κ) (e : Exec α κ W)
    (hobs : ObserverNeutral rt m._stateCallback) : (m.notify rt e).world = e.world := by
  unfold notify fire
  cases hcb : m._stateCallback with
  | none => rfl
  | some k => exact hobs k (by rw [hcb]; rfl) _ _ _

theorem notify_world_mk (rt : Runtime α κ W) (s : List (Option α)) (c : Nat) (cb : Option κ)
    (e : Exec α κ W) (hobs : ObserverNeutral rt cb) :
    (notify rt ⟨s, c, cb⟩ e).world = e.world :=
  notify_world rt ⟨s, c, cb⟩ e hobs

end HistoryManager

open HistoryManager

variable {α κ W : Type}

/-- Claim C14. For actions `A` and `B` whose `undo` and `redo` are mutually
inverse on documents, any initial document and an empty manager (whose observer,
if one is installed, leaves the document alone), the script `add(A); add(B);
undo(); undo(); redo()`, each action being applied to the document when it is
added, runs to its end and leaves the document in the state it had right after
`add(A)`, with cursor 1 and `B` still stored at the cursor, ready to be redone. -/
theorem add_add_undo_undo_redo (rt : Runtime α κ W) (A B : α) (cb : Option κ)
    (e : Exec α κ W) (hA : MutuallyInverse rt A) (hB : MutuallyInverse rt B)
    (hobs : ObserverNeutral rt cb) :
    ∃ m1 e1 m2 e2 b3 m3 e3 b4 m4 e4 b5 m5 e5,
      applyAndAddWith maxActions rt ⟨[], 0, cb⟩ A e = some (m1, e1) ∧
      applyAndAddWith maxActions rt m1 B e1 = some (m2, e2) ∧
      m2.undo rt e2 = some (b3, m3, e3) ∧
      m3.undo rt e3 = some (b4, m4, e4) ∧
      m4.redo rt e4 = some (b5, m5, e5) ∧
      e5.world = e1.world ∧
      m5._actions = [some A, some B] ∧ m5._lastActionId = 1 ∧
      m5.isRedoAvailable = true ∧ m5._actions[m5._lastActionId]? = some (some B) := by
  have hb := maxActions_lt_sizeModulus
  have hmax : 2 < maxActions := by decide
  have hs : (2 : Nat) ≤ sizeModulus := by
    have := maxActions_lt_sizeModulus
    omega
  have s1 := addWith_of_lt hb rt (⟨[], 0, cb⟩ : HistoryManager α κ) (some A)
    ⟨(rt.redo A e.world).2, e.trace⟩ (le_refl _) (by show 0 < maxActions; omega)
  have s2 := addWith_of_lt hb rt (⟨[some A], 1, cb⟩ : HistoryManager α κ) (some B)
    ⟨(rt.redo B (notify rt ⟨[some A], 1, cb⟩ ⟨(rt.redo A e.world).2, e.trace⟩).world).2,
      (notify rt ⟨[some A], 1, cb⟩ ⟨(rt.redo A e.world).2, e.trace⟩).trace⟩
    (le_refl _) (by show 1 < maxActions; omega)
  have s3 := fun x => undo_of_available rt (⟨[some A, some B], 2, cb⟩ : HistoryManager α κ) x B
    (by show 0 < 2; omega) hs rfl
  have s4 := fun x => undo_of_available rt (⟨[some A, some B], 1, cb⟩ : HistoryManager α κ) x A
    (by show 0 < 1; omega) (by show 1 ≤ sizeModulus; omega) rfl
  have s5 := fun x => redo_of_available rt (⟨[some A, some B], 0, cb⟩ : HistoryManager α κ) x A
    (by show 0 + 1 < sizeModulus; omega) rfl
  refine ⟨_, _, _, _, _, _, _, _, _, _, _, _, _, s1, s2, s3 _, s4 _, s5 _, ?_, rfl, rfl, rfl,
    rfl⟩
  simp only [notify_world_mk rt _ _ cb _ hobs, (hB _).1, (hA _).1]

theorem add_add_undo_undo_redo_witness :
    MutuallyInverse sampleRuntime 1 ∧ MutuallyInverse sampleRuntime 2 ∧
      ObserverNeutral sampleRuntime (some 9) ∧
      ∃ m1 e1 m2 e2 b3 m3 e3 b4 m4 e4 b5 m5 e5,
        applyAndAddWith maxActions sampleRuntime ⟨[], 0, some 9⟩ 1 sampleExec =
          some (m1, e1) ∧
        applyAndAddWith maxActions sampleRuntime m1 2 e1 = some (m2, e2) ∧
        m2.undo sampleRuntime e2 = some (b3, m3, e3) ∧
        m3.undo sampleRuntime e3 = some (b4, m4, e4) ∧
        m4.redo sampleRuntime e4 = some (b5, m5, e5) ∧
        e5.world = e1.world ∧
        m5._actions = [some 1, some 2] ∧ m5._lastActionId = 1 ∧
        m5.isRedoAvailable = true ∧ m5._actions[m5._lastActionId]? = some (some 2) :=
  ⟨fun w => by simp [sampleRuntime], fun w => by simp [sampleRuntime],
    fun _ _ _ _ _ => rfl,
    add_add_undo_undo_redo sampleRuntime 1 2 (some 9) sampleExec
      (fun w => by simp [sampleRuntime]) (fun w => by simp [sampleRuntime])
      (fun _ _ _ _ _ => rfl)⟩

end fheroes2

namespace fheroes2

open HistoryManager

variable {α κ W : Type}

theorem three_lt_sizeModulus : 3 + 1 < sizeModulus := by
  unfold sizeModulus
  norm_num

/-- Claim C15. With the bound 3 in place of `maxActions` and an empty manager,
`add(A); add(B); add(C); add(D)` runs to its end and leaves the sequence
`[B, C, D]` of length 3 with cursor 3 and undo available; three calls of `undo()`
then leave the cursors 2, 1 and 0, with undo unavailable at the end; a following
`add(E)` leaves exactly `[E]`, of length 1, with cursor 1. -/
theorem capacity_three_scenario (rt : Runtime α κ W) (A B C D E : α) (cb : Option κ)
    (e : Exec α κ W) :
    ∃ rs m4 e4 b5 m5 e5 b6 m6 e6 b7 m7 e7 m8 e8,
      runWith 3 rt [Call.add A, Call.add B, Call.add C, Call.add D] ⟨[], 0, cb⟩ e =
        some (rs, m4, e4) ∧
      m4._actions = [some B, some C, some D] ∧ m4._actions.length = 3 ∧
      m4._lastActionId = 3 ∧ m4.isUndoAvailable = true ∧
      m4.undo rt e4 = some (b5, m5, e5) ∧ m5._lastActionId = 2 ∧
      m5.undo rt e5 = some (b6, m6, e6) ∧ m6._lastActionId = 1 ∧
      m6.undo rt e6 = some (b7, m7, e7) ∧ m7._lastActionId = 0 ∧
      m7.isUndoAvailable = false ∧
      addWith 3 rt m7 (some E) e7 = some (m8, e8) ∧
      m8._actions = [some E] ∧ m8._actions.length = 1 ∧ m8._lastActionId = 1 := by
  have hb := three_lt_sizeModulus
  have hs : (3 : Nat) ≤ sizeModulus := by omega
  obtain ⟨rs, e3, hrun⟩ := runWith_adds hb rt [A, B, C] [] cb e (le_refl 3)
  have hfull := fun x => addWith_of_full hb rt
    (⟨[some A, some B, some C], 3, cb⟩ : HistoryManager α κ) (some D) x rfl rfl
  have hrun4 : runWith 3 rt ([Call.add A, Call.add B, Call.add C] ++ [Call.add D])
      ⟨[], 0, cb⟩ e =
        some (rs ++ [none], ⟨[some B, some C, some D], 3, cb⟩,
          notify rt ⟨[some B, some C, some D], 3, cb⟩ e3) := by
    rw [runWith_append]
    have hrun1 : runWith 3 rt [Call.add A, Call.add B, Call.add C] ⟨[], 0, cb⟩ e =
        some (rs, ⟨[some A, some B, some C], 3, cb⟩, e3) := hrun
    rw [hrun1]
    simp only [runWith, callWith, hfull]
    rfl
  have u5 := fun x => undo_of_available rt
    (⟨[some B, some C, some D], 3, cb⟩ : HistoryManager α κ) x D
    (by show 0 < 3; omega) hs rfl
  have u6 := fun x => undo_of_available rt
    (⟨[some B, some C, some D], 2, cb⟩ : HistoryManager α κ) x C
    (by show 0 < 2; omega) (by show 2 ≤ sizeModulus; omega) rfl
  have u7 := fun x => undo_of_available rt
    (⟨[some B, some C, some D], 1, cb⟩ : HistoryManager α κ) x B
    (by show 0 < 1; omega) (by show 1 ≤ sizeModulus; omega) rfl
  have a8 := fun x => addWith_of_lt hb rt
    (⟨[some B, some C, some D], 0, cb⟩ : HistoryManager α κ) (some E) x
    (by show 0 ≤ 3; omega) (by show 0 < 3; omega)
  exact ⟨_, _, _, _, _, _, _, _, _, _, _, _, _, _, hrun4, rfl, rfl, rfl, rfl, u5 _, rfl, u6 _, rfl,
    u7 _, rfl, rfl, a8 _, rfl, rfl, rfl⟩

/-! ## The document in the scenario with bound 3 -/

/-- Counterexample to claim C16 as stated. With the actions 1, 2, 3, 4 (adding
and subtracting their number, so mutually inverse) applied to the document `0`
and added under the bound 3, the first `undo()` moves the cursor to 2 and leaves
the document `6`, the state right after the action 3 was applied; the state right
after the action 2 was applied was `3`. -/
theorem first_undo_not_state_after_second :
    MutuallyInverse sampleRuntime 1 ∧ MutuallyInverse sampleRuntime 2 ∧
      MutuallyInverse sampleRuntime 3 ∧ MutuallyInverse sampleRuntime 4 ∧
      ∃ m1 e1 m2 e2 m3 e3 m4 e4 b m5 e5,
        applyAndAddWith 3 sampleRuntime initial 1 sampleExec = some (m1, e1) ∧
        applyAndAddWith 3 sampleRuntime m1 2 e1 = some (m2, e2) ∧
        applyAndAddWith 3 sampleRuntime m2 3 e2 = some (m3, e3) ∧
        applyAndAddWith 3 sampleRuntime m3 4 e3 = some (m4, e4) ∧
        m4.undo sampleRuntime e4 = some (b, m5, e5) ∧
        m5._lastActionId = 2 ∧ e2.world = 3 ∧ e3.world = 6 ∧ e5.world = 6 ∧
        e5.world ≠ e2.world :=
  ⟨fun w => by simp [sampleRuntime], fun w => by simp [sampleRuntime],
    fun w => by simp [sampleRuntime], fun w => by simp [sampleRuntime],
    ⟨[some 1], 1, none⟩, ⟨1, []⟩, ⟨[some 1, some 2], 2, none⟩, ⟨3, []⟩,
    ⟨[some 1, some 2, some 3], 3, none⟩, ⟨6, []⟩,
    ⟨[some 2, some 3, some 4], 3, none⟩, ⟨10, []⟩, true,
    ⟨[some 2, some 3, some 4], 2, none⟩, ⟨6, [Event.undo 4]⟩,
    by decide, by decide, by decide, by decide, by decide, rfl, rfl, rfl, rfl, by decide⟩

/-- Claim C16, amended. In the scenario with bound 3 (`A`, `B`, `C`, `D` applied
to a document and added in this order to an empty manager whose observer, if one
is installed, leaves the document alone; `undo` of `D` reverses its `redo`), all
calls run to their end and the first `undo()` moves the cursor to 2 and leaves
the document in the state it had right after `C` was applied. -/
theorem first_undo_state_after_third (rt : Runtime α κ W) (A B C D : α) (cb : Option κ)
    (e : Exec α κ W) (hD : MutuallyInverse rt D) (hobs : ObserverNeutral rt cb) :
    ∃ m1 e1 m2 e2 m3 e3 m4 e4 b m5 e5,
      applyAndAddWith 3 rt ⟨[], 0, cb⟩ A e = some (m1, e1) ∧
      applyAndAddWith 3 rt m1 B e1 = some (m2, e2) ∧
      applyAndAddWith 3 rt m2 C e2 = some (m3, e3) ∧
      applyAndAddWith 3 rt m3 D e3 = some (m4, e4) ∧
      m4.undo rt e4 = some (b, m5, e5) ∧
      m5._lastActionId = 2 ∧ m5._actions = [some B, some C, some D] ∧
      e5.world = (rt.redo C e2.world).2 ∧ e5.world = e3.world := by
  have hb := three_lt_sizeModulus
  have hs : (3 : Nat) ≤ sizeModulus := by omega
  have s1 := fun x => addWith_of_lt hb rt (⟨[], 0, cb⟩ : HistoryManager α κ) (some A) x
    (le_refl _) (by show 0 < 3; omega)
  have s2 := fun x => addWith_of_lt hb rt (⟨[some A], 1, cb⟩ : HistoryManager α κ) (some B) x
    (le_refl _) (by show 1 < 3; omega)
  have s3 := fun x => addWith_of_lt hb rt
    (⟨[some A, some B], 2, cb⟩ : HistoryManager α κ) (some C) x
    (le_refl _) (by show 2 < 3; omega)
  have s4 := fun x => addWith_of_full hb rt
    (⟨[some A, some B, some C], 3, cb⟩ : HistoryManager α κ) (some D) x rfl rfl
  have u5 := fun x => undo_of_available rt
    (⟨[some B, some C, some D], 3, cb⟩ : HistoryManager α κ) x D
    (by show 0 < 3; omega) hs rfl
  refine ⟨_, _, _, _, _, _, _, _, _, _, _, s1 _, s2 _, s3 _, s4 _, u5 _, rfl, rfl, ?_, ?_⟩
  · simp only [notify_world_mk rt _ _ cb _ hobs, (hD _).1]
  · simp only [notify_world_mk rt _ _ cb _ hobs, (hD _).1]

theorem first_undo_state_after_third_witness :
    MutuallyInverse sampleRuntime 4 ∧ ObserverNeutral sampleRuntime (some 9) ∧
      ∃ m1 e1 m2 e2 m3 e3 m4 e4 b m5 e5,
        applyAndAddWith 3 sampleRuntime ⟨[], 0, some 9⟩ 1 sampleExec = some (m1, e1) ∧
        applyAndAddWith 3 sampleRuntime m1 2 e1 = some (m2, e2) ∧
        applyAndAddWith 3 sampleRuntime m2 3 e2 = some (m3, e3) ∧
        applyAndAddWith 3 sampleRuntime m3 4 e3 = some (m4, e4) ∧
        m4.undo sampleRuntime e4 = some (b, m5, e5) ∧
        m5._lastActionId = 2 ∧ m5._actions = [some 2, some 3, some 4] ∧
        e5.world = (sampleRuntime.redo 3 e2.world).2 ∧ e5.world = e3.world :=
  ⟨fun w => by simp [sampleRuntime], fun _ _ _ _ _ => rfl,
    first_undo_state_after_third sampleRuntime 1 2 3 4 (some 9) sampleExec
      (fun w => by simp [sampleRuntime]) (fun _ _ _ _ _ => rfl)⟩

end fheroes2

namespace fheroes2

open HistoryManager

variable {α κ W : Type}

/-! ## ActionCreator -/

/-- Claim C17. When an `ActionCreator` that still holds a pending action `a` is
destroyed, its destructor calls `undo()` on `a` once and makes no other call; the
manager (sequence, cursor, observer slot) is left as it is, and if `undo` of `a`
takes the mutated document back to the state `w0` it had before the mutation,
the document is `w0` afterwards. When no pending action is held the destructor
changes nothing at all. -/
theorem destructor_reverts_pending (rt : Runtime α κ W) (ac : ActionCreator α)
    (m : HistoryManager α κ) (e : Exec α κ W) :
    (∀ a, ac._action = some a →
      ac.destructor rt m e = (m, ⟨(rt.undo a e.world).2, e.trace ++ [Event.undo a]⟩) ∧
      (ac.destructor rt m e).1._actions.length = m._actions.length ∧
      (ac.destructor rt m e).1._lastActionId = m._lastActionId ∧
      ∀ w0, (rt.undo a e.world).2 = w0 → (ac.destructor rt m e).2.world = w0) ∧
    (ac._action = none → ac.destructor rt m e = (m, e)) := by
  constructor
  · intro a ha
    have hd : ac.destructor rt m e =
        (m, ⟨(rt.undo a e.world).2, e.trace ++ [Event.undo a]⟩) := by
      unfold ActionCreator.destructor
      rw [ha]
    refine ⟨hd, by rw [hd], by rw [hd], ?_⟩
    intro w0 hw
    rw [hd]
    exact hw
  · intro ha
    unfold ActionCreator.destructor
    rw [ha]

theorem destructor_reverts_pending_witness :
    (({ _action := some 5 } : ActionCreator Nat).destructor sampleRuntime sampleManager
        ⟨5, []⟩ = (sampleManager, ⟨(sampleRuntime.undo 5 5).2, [] ++ [Event.undo 5]⟩) ∧
      (({ _action := some 5 } : ActionCreator Nat).destructor sampleRuntime sampleManager
        ⟨5, []⟩).1._actions.length = sampleManager._actions.length ∧
      (({ _action := some 5 } : ActionCreator Nat).destructor sampleRuntime sampleManager
        ⟨5, []⟩).1._lastActionId = sampleManager._lastActionId ∧
      ∀ w0, (sampleRuntime.undo 5 (5 : Int)).2 = w0 →
        (({ _action := some 5 } : ActionCreator Nat).destructor sampleRuntime sampleManager
          ⟨5, []⟩).2.world = w0) ∧
    (({ _action := none } : ActionCreator Nat).destructor sampleRuntime sampleManager
      sampleExec = (sampleManager, sampleExec)) :=
  ⟨(destructor_reverts_pending sampleRuntime { _action := some 5 } sampleManager ⟨5, []⟩).1 5
      rfl,
    (destructor_reverts_pending sampleRuntime { _action := none } sampleManager sampleExec).2
      rfl⟩

/-- Claim C18. On a manager, `commit()` with a pending action `a` and a document
that differs from the snapshot hands `a` to `add` (the manager and the outside
world afterwards are exactly those `add(a)` leaves) and clears the pending slot,
so that the destructor afterwards changes nothing and calls no `undo()`; with a
document equal to the snapshot, or without a pending action, `commit()` leaves
creator, manager and outside world as they are, so no entry is added. -/
theorem commit_effect [DecidableEq W] (rt : Runtime α κ W) (snapshot : W)
    (ac : ActionCreator α) (m : HistoryManager α κ) (e : Exec α κ W)
    (h : m.Invariant maxActions) :
    (∀ a, ac._action = some a → e.world ≠ snapshot →
      ∃ m1 e1, m.add rt (some a) e = some (m1, e1) ∧
        ac.commit rt snapshot m e = some ({ _action := none }, m1, e1) ∧
        ({ _action := none } : ActionCreator α).destructor rt m1 e1 = (m1, e1)) ∧
    (e.world = snapshot → ac.commit rt snapshot m e = some (ac, m, e)) ∧
    (ac._action = none → ac.commit rt snapshot m e = some (ac, m, e)) := by
  refine ⟨?_, ?_, ?_⟩
  · intro a ha hw
    obtain ⟨m1, e1, hadd, _⟩ := h.addWith maxActions_lt_sizeModulus rt a e
    have hadd1 : m.add rt (some a) e = some (m1, e1) := hadd
    refine ⟨m1, e1, hadd1, ?_, rfl⟩
    unfold ActionCreator.commit
    rw [ha]
    simp only [hw, ne_eq, not_false_eq_true, if_true, hadd1]
  · intro hw
    unfold ActionCreator.commit
    cases ac._action with
    | none => rfl
    | some a => simp [hw]
  · intro ha
    unfold ActionCreator.commit
    rw [ha]

theorem commit_effect_witness :
    sampleManager.Invariant maxActions ∧
      (∃ m1 e1, sampleManager.add sampleRuntime (some 5) ⟨5, []⟩ = some (m1, e1) ∧
        ({ _action := some 5 } : ActionCreator Nat).commit sampleRuntime 0 sampleManager
          ⟨5, []⟩ = some ({ _action := none }, m1, e1) ∧
        ({ _action := none } : ActionCreator Nat).destructor sampleRuntime m1 e1 = (m1, e1)) ∧
      (({ _action := some 5 } : ActionCreator Nat).commit sampleRuntime 0 sampleManager
        sampleExec = some ({ _action := some 5 }, sampleManager, sampleExec)) ∧
      (({ _action := none } : ActionCreator Nat).commit sampleRuntime 0 sampleManager
        ⟨5, []⟩ = some ({ _action := none }, sampleManager, ⟨5, []⟩)) :=
  ⟨sampleManager_invariant,
    (commit_effect sampleRuntime 0 { _action := some 5 } sampleManager ⟨5, []⟩
      sampleManager_invariant).1 5 rfl (by decide),
    (commit_effect sampleRuntime 0 { _action := some 5 } sampleManager sampleExec
      sampleManager_invariant).2.1 rfl,
    (commit_effect sampleRuntime 0 { _action := none } sampleManager ⟨5, []⟩
      sampleManager_invariant).2.2 rfl⟩

end fheroes2

namespace fheroes2

/-! ## Arithmetic on `int32_t` -/

theorem int32_of_range {v : Int} (h1 : -2147483648 ≤ v) (h2 : v ≤ 2147483647) :
    int32 v = some v := by
  unfold int32
  rw [if_pos ⟨h1, h2⟩]

theorem int32_eq_some {v r : Int} (h : int32 v = some r) :
    r = v ∧ -2147483648 ≤ v ∧ v ≤ 2147483647 := by
  unfold int32 at h
  by_cases hr : -2147483648 ≤ v ∧ v ≤ 2147483647
  · rw [if_pos hr] at h
    exact ⟨(Option.some.inj h).symm, hr⟩
  · rw [if_neg hr] at h
    exact Option.noConfusion h

theorem addInt32_of_range {a b : Int} (h1 : -2147483648 ≤ a + b) (h2 : a + b ≤ 2147483647) :
    addInt32 a b = some (a + b) := int32_of_range h1 h2

theorem subInt32_of_range {a b : Int} (h1 : -2147483648 ≤ a - b) (h2 : a - b ≤ 2147483647) :
    subInt32 a b = some (a - b) := int32_of_range h1 h2

theorem mulInt32_of_range {a b : Int} (h1 : -2147483648 ≤ a * b) (h2 : a * b ≤ 2147483647) :
    mulInt32 a b = some (a * b) := int32_of_range h1 h2

theorem castInt32_of_le {n : Nat} (h : n ≤ 2147483647) : castInt32 n = (n : Int) := by
  unfold castInt32
  omega

namespace StandardWindow

/-- Without overflow the member initialisers grow the active area by the border
on all sides, and the window area by the border to the left and at the bottom. -/
theorem withActiveArea_of_range (b x y w h : Int) (hb : 0 ≤ b) (hw : 0 ≤ w) (hh : 0 ≤ h)
    (hx : -2147483648 ≤ x - 2 * b) (hx2 : x ≤ 2147483647)
    (hy : -2147483648 ≤ y - b) (hy2 : y ≤ 2147483647)
    (hw2 : w + 3 * b ≤ 2147483647) (hh2 : h + 3 * b ≤ 2147483647) :
    withActiveArea b ⟨x, y, w, h⟩ =
      some ⟨⟨x, y, w, h⟩, ⟨x - b, y - b, w + 2 * b, h + 2 * b⟩,
        ⟨x - b - b, y - b, w + 2 * b + b, h + 2 * b + b⟩⟩ := by
  unfold withActiveArea
  have e1 : subInt32 x b = some (x - b) := subInt32_of_range (by omega) (by omega)
  have e2 : subInt32 y b = some (y - b) := subInt32_of_range (by omega) (by omega)
  have e3 : mulInt32 2 b = some (2 * b) := mulInt32_of_range (by omega) (by omega)
  have e4 : addInt32 w (2 * b) = some (w + 2 * b) := addInt32_of_range (by omega) (by omega)
  have e5 : addInt32 h (2 * b) = some (h + 2 * b) := addInt32_of_range (by omega) (by omega)
  have e6 : subInt32 (x - b) b = some (x - b - b) := subInt32_of_range (by omega) (by omega)
  have e7 : addInt32 (w + 2 * b) b = some (w + 2 * b + b) :=
    addInt32_of_range (by omega) (by omega)
  have e8 : addInt32 (h + 2 * b) b = some (h + 2 * b + b) :=
    addInt32_of_range (by omega) (by omega)
  simp only [e1, e2, e3, e4, e5, e6, e7, e8, Option.bind_eq_bind, Option.some_bind]

/-- When the member initialisers run without overflow, the window area is the
active area grown by the border on all sides and the total area is the window
area extended by the border to the left and at the bottom. -/
theorem withActiveArea_eq_some {b : Int} {a : Rect} {win : StandardWindow}
    (h : withActiveArea b a = some win) :
    win = ⟨a, ⟨a.x - b, a.y - b, a.width + 2 * b, a.height + 2 * b⟩,
      ⟨a.x - b - b, a.y - b, a.width + 2 * b + b, a.height + 2 * b + b⟩⟩ := by
  unfold withActiveArea at h
  simp only [Option.bind_eq_bind, Option.bind_eq_some] at h
  obtain ⟨wx, h1, wy, h2, m1, h3, ww, h4, m2, h5, wh, h6, tx, h7, tw, h8, th, h9, h10⟩ := h
  have e1 := (int32_eq_some h1).1
  have e2 := (int32_eq_some h2).1
  have e3 := (int32_eq_some h3).1
  have e5 := (int32_eq_some h5).1
  subst e1 e2 e3 e5
  have e4 := (int32_eq_some h4).1
  have e6 := (int32_eq_some h6).1
  have e7 := (int32_eq_some h7).1
  subst e4 e6 e7
  have e8 := (int32_eq_some h8).1
  have e9 := (int32_eq_some h9).1
  subst e8 e9
  exact (Option.some.inj h10).symm


/-! ## The arithmetic of `render()` -/

theorem Checked.bind_eq {α β : Type} (x : Option α) (f : α → Checked β) :
    (@Bind.bind Checked _ α β x f) = Option.bind x f := by
  cases x <;> rfl

theorem isSome_bind_int32 {β : Type} (v : Int) (f : Int → Option β) :
    ((int32 v).bind f).isSome = true ↔
      (-2147483648 ≤ v ∧ v ≤ 2147483647) ∧ (f v).isSome = true := by
  unfold int32
  by_cases hr : -2147483648 ≤ v ∧ v ≤ 2147483647
  · rw [if_pos hr]
    simp [hr]
  · rw [if_neg hr]
    simp [hr]

theorem isSome_bind_addInt32 {β : Type} (a b : Int) (f : Int → Option β) :
    ((addInt32 a b).bind f).isSome = true ↔
      (-2147483648 ≤ a + b ∧ a + b ≤ 2147483647) ∧ (f (a + b)).isSome = true :=
  isSome_bind_int32 (a + b) f

theorem isSome_bind_subInt32 {β : Type} (a b : Int) (f : Int → Option β) :
    ((subInt32 a b).bind f).isSome = true ↔
      (-2147483648 ≤ a - b ∧ a - b ≤ 2147483647) ∧ (f (a - b)).isSome = true :=
  isSome_bind_int32 (a - b) f

theorem isSome_bind_mulInt32 {β : Type} (a b : Int) (f : Int → Option β) :
    ((mulInt32 a b).bind f).isSome = true ↔
      (-2147483648 ≤ a * b ∧ a * b ≤ 2147483647) ∧ (f (a * b)).isSome = true :=
  isSome_bind_int32 (a * b) f

theorem isSome_bind_divInt32 {β : Type} (a b : Int) (f : Int → Option β) :
    ((divInt32 a b).bind f).isSome = true ↔
      (b ≠ 0 ∧ -2147483648 ≤ a.tdiv b ∧ a.tdiv b ≤ 2147483647) ∧
        (f (a.tdiv b)).isSome = true := by
  unfold divInt32
  by_cases hb : b = 0
  · rw [if_pos hb]
    simp [hb]
  · rw [if_neg hb]
    have := isSome_bind_int32 (a.tdiv b) f
    rw [this]
    simp [hb]

theorem isSome_bind_unit {β : Type} (x : Option Unit) (f : Unit → Option β) :
    (x.bind f).isSome = true ↔ x.isSome = true ∧ (f ()).isSome = true := by
  cases x with
  | none => simp
  | some u => simp

theorem draw_eq (l : List Int) : draw l = some () := rfl

/-- The quotient of `int32_t` values by a positive divisor is a value of
`int32_t`. -/
theorem tdiv_range {a d : Int} (hd : 0 < d) (h1 : -2147483648 ≤ a) (h2 : a ≤ 2147483647) :
    -2147483648 ≤ a.tdiv d ∧ a.tdiv d ≤ 2147483647 := by
  by_cases ha : 0 ≤ a
  · rw [Int.tdiv_eq_ediv ha (le_of_lt hd)]
    have h3 : 0 ≤ a / d := Int.ediv_nonneg ha (le_of_lt hd)
    have h4 : a / d ≤ a := Int.ediv_le_self d ha
    omega
  · have hneg : a.tdiv d = -((-a) / d) := by
      have h := Int.neg_tdiv (-a) d
      rw [neg_neg] at h
      rw [h, Int.tdiv_eq_ediv (by omega) (le_of_lt hd)]
    rw [hneg]
    have h3 : 0 ≤ (-a) / d := Int.ediv_nonneg (by omega) (le_of_lt hd)
    have h4 : (-a) / d ≤ -a := Int.ediv_le_self d (by omega)
    omega

/-- A positive quotient by a positive divisor: that many steps of the divisor
fit into the dividend. -/
theorem tdiv_pos_mul_le {a d : Int} (hd : 0 < d) (hq : 0 < a.tdiv d) :
    d ≤ a ∧ ((a.tdiv d).toNat : Int) * d ≤ a := by
  have ha : 0 ≤ a := by
    by_contra hneg
    have hneg2 : a.tdiv d = -((-a) / d) := by
      have h := Int.neg_tdiv (-a) d
      rw [neg_neg] at h
      rw [h, Int.tdiv_eq_ediv (by omega) (le_of_lt hd)]
    have h3 : 0 ≤ (-a) / d := Int.ediv_nonneg (by omega) (le_of_lt hd)
    omega
  rw [Int.tdiv_eq_ediv ha (le_of_lt hd)] at hq ⊢
  have hmul : a / d * d ≤ a := Int.ediv_mul_le a (by omega)
  have hcast : ((a / d).toNat : Int) = a / d := Int.toNat_of_nonneg (le_of_lt hq)
  rw [hcast]
  refine ⟨?_, hmul⟩
  by_contra hlt
  have : a / d = 0 := Int.ediv_eq_zero_of_lt ha (by omega)
  omega

theorem isSome_of_eq {x : Option Unit} (h : x = some ()) : x.isSome = true := by
  rw [h]
  rfl

/-- The horizontal loop of `renderBackgroundImage` runs to its end when the
offsets it reaches stay small. -/
theorem renderBackgroundColumns_defined (roi : Rect) (bo bsw bch boY step fromX : Int)
    (hx1 : -1000000000 ≤ roi.x) (hx2 : roi.x ≤ 1000000000)
    (hw1 : 0 ≤ roi.width) (hw2 : roi.width ≤ 1000000000)
    (hbo1 : 0 ≤ bo) (hbo2 : bo ≤ 100000) (hf1 : 0 ≤ fromX) (hf2 : fromX ≤ 1000000)
    (hstep : 0 ≤ step) (n : Nat) (t : Int) (ht : 0 ≤ t)
    (hR : t + (n : Int) * step ≤ 1100000000) :
    renderBackgroundColumns roi bo bsw bch boY step fromX n t = some () := by
  induction n generalizing t with
  | zero => rfl
  | succ n ih =>
    have hns : 0 ≤ (n : Int) * step := mul_nonneg (Int.ofNat_nonneg n) hstep
    have hexp : ((n + 1 : Nat) : Int) * step = (n : Int) * step + step := by
      push_cast
      ring
    rw [hexp] at hR
    have hrec := ih (t + step) (by omega) (by omega)
    simp (disch := omega) only [renderBackgroundColumns, Checked.bind_eq, addInt32_of_range,
      subInt32_of_range, Option.some_bind, draw_eq]
    exact hrec

/-- The vertical loop of `renderBackgroundImage` runs to its end when the
offsets it reaches stay small. -/
theorem renderBackgroundRows_defined (roi : Rect) (bo bsh bw boX step fromY : Int)
    (hy1 : -1000000000 ≤ roi.y) (hy2 : roi.y ≤ 1000000000)
    (hh1 : 0 ≤ roi.height) (hh2 : roi.height ≤ 1000000000)
    (hbo1 : 0 ≤ bo) (hbo2 : bo ≤ 100000) (hf1 : 0 ≤ fromY) (hf2 : fromY ≤ 1000000)
    (hstep : 0 ≤ step) (n : Nat) (t : Int) (ht : 0 ≤ t)
    (hR : t + (n : Int) * step ≤ 1100000000) :
    renderBackgroundRows roi bo bsh bw boX step fromY n t = some () := by
  induction n generalizing t with
  | zero => rfl
  | succ n ih =>
    have hns : 0 ≤ (n : Int) * step := mul_nonneg (Int.ofNat_nonneg n) hstep
    have hexp : ((n + 1 : Nat) : Int) * step = (n : Int) * step + step := by
      push_cast
      ring
    rw [hexp] at hR
    have hrec := ih (t + step) (by omega) (by omega)
    simp (disch := omega) only [renderBackgroundRows, Checked.bind_eq, addInt32_of_range,
      subInt32_of_range, Option.some_bind, draw_eq]
    exact hrec

theorem Checked.pure_eq {α : Type} (a : α) : (pure a : Checked α) = (some a : Option α) := rfl

theorem divInt32_of_pos {a d : Int} (hd : 0 < d) (h1 : -2147483648 ≤ a)
    (h2 : a ≤ 2147483647) : divInt32 a d = some (a.tdiv d) := by
  unfold divInt32
  rw [if_neg (by omega)]
  exact int32_of_range (tdiv_range hd h1 h2).1 (tdiv_range hd h1 h2).2

/-- The vertical loop of `render()` runs to its end when the offsets it reaches
stay small. -/
theorem renderVerticalCopies_defined (wa : Rect) (bg : Bool)
    (c rcsox rcox cox vsch step fromY : Int)
    (hy1 : -1000000000 ≤ wa.y) (hy2 : wa.y ≤ 1000000000)
    (hh1 : 0 ≤ wa.height) (hh2 : wa.height ≤ 1000000000)
    (hs1 : -2000000000 ≤ rcsox) (hs2 : rcsox ≤ 2000000000)
    (ho1 : -2000000000 ≤ rcox) (ho2 : rcox ≤ 2000000000)
    (hstep : 0 ≤ step) (n : Nat) (t : Int) (ht : 0 ≤ t)
    (hR : t + (n : Int) * step ≤ 1100000000) :
    renderVerticalCopies wa bg c rcsox rcox cox vsch step fromY n t = some () := by
  induction n generalizing t with
  | zero => rfl
  | succ n ih =>
    have hns : 0 ≤ (n : Int) * step := mul_nonneg (Int.ofNat_nonneg n) hstep
    have hexp : ((n + 1 : Nat) : Int) * step = (n : Int) * step + step := by
      push_cast
      ring
    rw [hexp] at hR
    have hrec := ih (t + step) (by omega) (by omega)
    cases bg with
    | true =>
      simp (disch := omega) only [renderVerticalCopies, Checked.bind_eq, Checked.pure_eq,
        addInt32_of_range, subInt32_of_range, Option.some_bind, draw_eq, borderEdgeOffset,
        transitionSize, if_true]
      exact hrec
    | false =>
      simp (disch := omega) only [renderVerticalCopies, Checked.bind_eq, Checked.pure_eq,
        addInt32_of_range, subInt32_of_range, Option.some_bind, draw_eq, borderEdgeOffset,
        transitionSize, Bool.false_eq_true, if_false]
      exact hrec

/-- The horizontal loop of `render()` runs to its end when the offsets it
reaches stay small. -/
theorem renderHorizontalCopies_defined (wa : Rect) (bg : Bool)
    (c bbsoy bcoy coy hscw step fromX : Int)
    (hx1 : -1000000000 ≤ wa.x) (hx2 : wa.x ≤ 1000000000)
    (hw1 : 0 ≤ wa.width) (hw2 : wa.width ≤ 1000000000)
    (hs1 : -2000000000 ≤ bbsoy) (hs2 : bbsoy ≤ 2000000000)
    (ho1 : -2000000000 ≤ bcoy) (ho2 : bcoy ≤ 2000000000)
    (hstep : 0 ≤ step) (n : Nat) (t : Int) (ht : 0 ≤ t)
    (hR : t + (n : Int) * step ≤ 1100000000) :
    renderHorizontalCopies wa bg c bbsoy bcoy coy hscw step fromX n t = some () := by
  induction n generalizing t with
  | zero => rfl
  | succ n ih =>
    have hns : 0 ≤ (n : Int) * step := mul_nonneg (Int.ofNat_nonneg n) hstep
    have hexp : ((n + 1 : Nat) : Int) * step = (n : Int) * step + step := by
      push_cast
      ring
    rw [hexp] at hR
    have hrec := ih (t + step) (by omega) (by omega)
    cases bg with
    | true =>
      simp (disch := omega) only [renderHorizontalCopies, Checked.bind_eq, Checked.pure_eq,
        addInt32_of_range, subInt32_of_range, Option.some_bind, draw_eq, borderEdgeOffset,
        transitionSize, if_true]
      exact hrec
    | false =>
      simp (disch := omega) only [renderHorizontalCopies, Checked.bind_eq, Checked.pure_eq,
        addInt32_of_range, subInt32_of_range, Option.some_bind, draw_eq, borderEdgeOffset,
        transitionSize, Bool.false_eq_true, if_false]
      exact hrec

/-- The block of `renderBackgroundImage` that repeats the background to the
right runs to its end. -/
theorem renderBackgroundHorizontally_defined (roi : Rect) (bo bsw bch boY copies : Int)
    (hx1 : -1000000000 ≤ roi.x) (hx2 : roi.x ≤ 1000000000)
    (hw1 : 0 ≤ roi.width) (hw2 : roi.width ≤ 1000000000)
    (hbo1 : 0 ≤ bo) (hbo2 : bo ≤ 100) (hs1 : 200 ≤ bsw) (hs2 : bsw ≤ 100000)
    (hc : 0 < copies → (copies.toNat : Int) * (bsw - 10) ≤ roi.width) :
    renderBackgroundHorizontally roi bo bsw bch boY copies = some () := by
  unfold renderBackgroundHorizontally
  by_cases hpos : copies > 0
  · rw [if_pos hpos]
    have hn := hc hpos
    simp (disch := omega) only [Checked.bind_eq, addInt32_of_range, subInt32_of_range,
      Option.some_bind, draw_eq, transitionSize]
    exact renderBackgroundColumns_defined roi bo bsw bch boY (bsw - 10) (bo + 10) hx1 hx2 hw1 hw2
      hbo1 (by omega) (by omega) (by omega) (by omega) copies.toNat (bo + bsw) (by omega)
      (by omega)
  · rw [if_neg hpos]

/-- The block of `renderBackgroundImage` that repeats the background downwards
runs to its end. -/
theorem renderBackgroundVertically_defined (roi : Rect) (bo bsh bw boX boY copies : Int)
    (hy1 : -1000000000 ≤ roi.y) (hy2 : roi.y ≤ 1000000000)
    (hh1 : 0 ≤ roi.height) (hh2 : roi.height ≤ 1000000000)
    (hbo1 : 0 ≤ bo) (hbo2 : bo ≤ 100) (hs1 : 200 ≤ bsh) (hs2 : bsh ≤ 100000)
    (hc : 0 < copies → (copies.toNat : Int) * (bsh - 10) ≤ roi.height) :
    renderBackgroundVertically roi bo bsh bw boX boY copies = some () := by
  unfold renderBackgroundVertically
  by_cases hpos : copies > 0
  · rw [if_pos hpos]
    have hn := hc hpos
    simp (disch := omega) only [Checked.bind_eq, addInt32_of_range, subInt32_of_range,
      Option.some_bind, draw_eq, transitionSize]
    exact renderBackgroundRows_defined roi bo bsh bw boX (bsh - 10) (bo + 10) hy1 hy2 hh1 hh2
      hbo1 (by omega) (by omega) (by omega) (by omega) copies.toNat (bo + bsh) (by omega)
      (by omega)
  · rw [if_neg hpos]

theorem eq_some_of_isSome {x : Option Unit} (h : x.isSome = true) : x = some () := by
  cases x with
  | none => exact absurd h (by simp)
  | some u => rfl

/-- For a region of moderate size and a background sprite of moderate size
`renderBackgroundImage` runs to its end. -/
theorem renderBackgroundImage_defined (sprites : WindowSprites) (roi : Rect) (bo : Int)
    (hx1 : -1000000000 ≤ roi.x) (hx2 : roi.x ≤ 1000000000)
    (hy1 : -1000000000 ≤ roi.y) (hy2 : roi.y ≤ 1000000000)
    (hw1 : 0 ≤ roi.width) (hw2 : roi.width ≤ 1000000000)
    (hh1 : 0 ≤ roi.height) (hh2 : roi.height ≤ 1000000000)
    (hbo1 : 0 ≤ bo) (hbo2 : bo ≤ 100)
    (hsw1 : 200 ≤ sprites.backgroundSprite.width)
    (hsw2 : sprites.backgroundSprite.width ≤ 100000)
    (hsh1 : 200 ≤ sprites.backgroundSprite.height)
    (hsh2 : sprites.backgroundSprite.height ≤ 100000) :
    renderBackgroundImage sprites roi bo = some () := by
  apply eq_some_of_isSome
  unfold renderBackgroundImage
  simp only [Checked.bind_eq, transitionSize, isSome_bind_addInt32, isSome_bind_subInt32,
    isSome_bind_mulInt32, isSome_bind_divInt32, isSome_bind_unit, draw_eq, Option.isSome_some,
    true_and]
  have hd1 := tdiv_range (a := roi.width - bo * 2 - 1 - 10)
    (d := sprites.backgroundSprite.width - 10) (by omega) (by omega) (by omega)
  have hd2 := tdiv_range (a := roi.height - bo * 2 - 1 - 10)
    (d := sprites.backgroundSprite.height - 10) (by omega) (by omega) (by omega)
  refine ⟨by omega, by omega, by omega, by omega, by omega, by omega, by omega,
    ⟨by omega, hd1⟩, by omega, by omega, by omega, ⟨by omega, hd2⟩, by omega, by omega, ?_, ?_⟩
  · apply isSome_of_eq
    apply renderBackgroundHorizontally_defined roi bo _ _ _ _ hx1 hx2 hw1 hw2 hbo1 hbo2 hsw1 hsw2
    intro hpos
    have := (tdiv_pos_mul_le (by omega) hpos).2
    omega
  · apply isSome_of_eq
    apply renderBackgroundVertically_defined roi bo _ _ _ _ _ hy1 hy2 hh1 hh2 hbo1 hbo2 hsh1 hsh2
    intro hpos
    have := (tdiv_pos_mul_le (by omega) hpos).2
    omega

/-- The block of `render()` that repeats the vertical borders runs to its end. -/
theorem renderVerticalBorderCopies_defined (wa : Rect) (bg : Bool)
    (c rcsox rcox cox vsch copies : Int)
    (hy1 : -1000000000 ≤ wa.y) (hy2 : wa.y ≤ 1000000000)
    (hh1 : 0 ≤ wa.height) (hh2 : wa.height ≤ 1000000000)
    (hs1 : -2000000000 ≤ rcsox) (hs2 : rcsox ≤ 2000000000)
    (ho1 : -2000000000 ≤ rcox) (ho2 : rcox ≤ 2000000000)
    (hv1 : -1000000 ≤ vsch) (hv2 : vsch ≤ 1000000)
    (hc : 0 < copies → 10 ≤ vsch ∧ (copies.toNat : Int) * (vsch - 10) ≤ wa.height) :
    renderVerticalBorderCopies wa bg c rcsox rcox cox vsch copies = some () := by
  unfold renderVerticalBorderCopies
  by_cases hpos : copies > 0
  · rw [if_pos hpos]
    have hn := hc hpos
    simp (disch := omega) only [Checked.bind_eq, addInt32_of_range, subInt32_of_range,
      Option.some_bind, draw_eq, transitionSize, borderEdgeOffset]
    exact renderVerticalCopies_defined wa bg c rcsox rcox cox vsch (vsch - 10) (43 + 10)
      hy1 hy2 hh1 hh2 hs1 hs2 ho1 ho2 (by omega) copies.toNat (43 + vsch) (by omega) (by omega)
  · rw [if_neg hpos]

/-- The block of `render()` that repeats the horizontal borders runs to its
end. -/
theorem renderHorizontalBorderCopies_defined (wa : Rect) (bg : Bool)
    (c bbsoy bcoy coy startX hscw copies : Int)
    (hx1 : -1000000000 ≤ wa.x) (hx2 : wa.x ≤ 1000000000)
    (hw1 : 0 ≤ wa.width) (hw2 : wa.width ≤ 1000000000)
    (hs1 : -2000000000 ≤ bbsoy) (hs2 : bbsoy ≤ 2000000000)
    (ho1 : -2000000000 ≤ bcoy) (ho2 : bcoy ≤ 2000000000)
    (hst1 : -1000000 ≤ startX) (hst2 : startX ≤ 1000000)
    (hv1 : -1000000 ≤ hscw) (hv2 : hscw ≤ 1000000)
    (hc : 0 < copies → 10 ≤ hscw ∧ (copies.toNat : Int) * (hscw - 10) ≤ wa.width) :
    renderHorizontalBorderCopies wa bg c bbsoy bcoy coy startX hscw copies = some () := by
  unfold renderHorizontalBorderCopies
  by_cases hpos : copies > 0
  · rw [if_pos hpos]
    have hn := hc hpos
    simp (disch := omega) only [Checked.bind_eq, addInt32_of_range, subInt32_of_range,
      Option.some_bind, draw_eq, transitionSize, borderEdgeOffset]
    exact renderHorizontalCopies_defined wa bg c bbsoy bcoy coy hscw (hscw - 10) (startX + 10)
      hx1 hx2 hw1 hw2 hs1 hs2 ho1 ho2 (by omega) copies.toNat (43 + hscw) (by omega) (by omega)
  · rw [if_neg hpos]

/-- The transitions beside the vertical borders are drawn without overflow. -/
theorem renderVerticalTransitions_defined (bg : Bool) (c cox tbeo vsch rcsox rcox : Int)
    (hs1 : -2000000000 ≤ rcsox) (hs2 : rcsox ≤ 2000000000)
    (ho1 : -2000000000 ≤ rcox) (ho2 : rcox ≤ 2000000000) :
    renderVerticalTransitions bg c cox tbeo vsch rcsox rcox = some () := by
  unfold renderVerticalTransitions
  cases bg with
  | true =>
    simp (disch := omega) only [Checked.bind_eq, subInt32_of_range, Option.some_bind, draw_eq,
      transitionSize, if_true]
  | false => simp only [Bool.false_eq_true, if_false]

/-- The transitions beside the horizontal borders are drawn without overflow. -/
theorem renderHorizontalTransitions_defined (bg : Bool)
    (c coy startX lbeo hscw bbsoy bcoy : Int)
    (hs1 : -2000000000 ≤ bbsoy) (hs2 : bbsoy ≤ 2000000000)
    (ho1 : -2000000000 ≤ bcoy) (ho2 : bcoy ≤ 2000000000) :
    renderHorizontalTransitions bg c coy startX lbeo hscw bbsoy bcoy = some () := by
  unfold renderHorizontalTransitions
  cases bg with
  | true =>
    simp (disch := omega) only [Checked.bind_eq, subInt32_of_range, Option.some_bind, draw_eq,
      transitionSize, if_true]
  | false => simp only [Bool.false_eq_true, if_false]

/-- The background and the transitions in the corners are drawn without
overflow on a window area of moderate size. -/
theorem renderCornerTransitions_defined (sprites : WindowSprites) (wa : Rect) (bg : Bool)
    (c ec cox coy rbeo bbeo rcox bcoy rcsox bcsoy : Int)
    (hx1 : -1000000000 ≤ wa.x) (hx2 : wa.x ≤ 1000000000)
    (hy1 : -1000000000 ≤ wa.y) (hy2 : wa.y ≤ 1000000000)
    (hw1 : 0 ≤ wa.width) (hw2 : wa.width ≤ 1000000000)
    (hh1 : 0 ≤ wa.height) (hh2 : wa.height ≤ 1000000000)
    (hsw1 : 200 ≤ sprites.backgroundSprite.width)
    (hsw2 : sprites.backgroundSprite.width ≤ 100000)
    (hsh1 : 200 ≤ sprites.backgroundSprite.height)
    (hsh2 : sprites.backgroundSprite.height ≤ 100000)
    (he1 : -1000 ≤ ec) (he2 : ec ≤ 1000)
    (h1 : -2000000000 ≤ rcox) (h2 : rcox ≤ 2000000000)
    (h3 : -2000000000 ≤ bcoy) (h4 : bcoy ≤ 2000000000)
    (h5 : -2000000000 ≤ rcsox) (h6 : rcsox ≤ 2000000000)
    (h7 : -2000000000 ≤ bcsoy) (h8 : bcsoy ≤ 2000000000) :
    renderCornerTransitions sprites wa bg c ec cox coy rbeo bbeo rcox bcoy rcsox bcsoy
      = some () := by
  unfold renderCornerTransitions
  cases bg with
  | true =>
    have hbg := renderBackgroundImage_defined sprites wa backgroundOffset hx1 hx2 hy1 hy2
      hw1 hw2 hh1 hh2 (by decide) (by decide) hsw1 hsw2 hsh1 hsh2
    simp (disch := omega) only [Checked.bind_eq, hbg, subInt32_of_range, Option.some_bind,
      draw_eq, transitionSize, if_true]
  | false => simp only [Bool.false_eq_true, if_false]

theorem checked_int32 {β : Type} (v : Int) (f : Int → Checked β)
    (h1 : -2147483648 ≤ v) (h2 : v ≤ 2147483647) (hk : @Option.isSome β (f v) = true) :
    @Option.isSome β (@Bind.bind Checked _ Int β (int32 v) f) = true := by
  rw [Checked.bind_eq, int32_of_range h1 h2]
  exact hk

theorem checked_sub {β : Type} (a b : Int) (f : Int → Checked β)
    (h1 : -2147483648 ≤ a - b) (h2 : a - b ≤ 2147483647)
    (hk : @Option.isSome β (f (a - b)) = true) :
    @Option.isSome β (@Bind.bind Checked _ Int β (subInt32 a b) f) = true :=
  checked_int32 (a - b) f h1 h2 hk

theorem checked_add {β : Type} (a b : Int) (f : Int → Checked β)
    (h1 : -2147483648 ≤ a + b) (h2 : a + b ≤ 2147483647)
    (hk : @Option.isSome β (f (a + b)) = true) :
    @Option.isSome β (@Bind.bind Checked _ Int β (addInt32 a b) f) = true :=
  checked_int32 (a + b) f h1 h2 hk

theorem checked_mul {β : Type} (a b : Int) (f : Int → Checked β)
    (h1 : -2147483648 ≤ a * b) (h2 : a * b ≤ 2147483647)
    (hk : @Option.isSome β (f (a * b)) = true) :
    @Option.isSome β (@Bind.bind Checked _ Int β (mulInt32 a b) f) = true :=
  checked_int32 (a * b) f h1 h2 hk

theorem checked_div {β : Type} (a d : Int) (f : Int → Checked β)
    (hd : 0 < d) (h1 : -2147483648 ≤ a) (h2 : a ≤ 2147483647)
    (hk : @Option.isSome β (f (a.tdiv d)) = true) :
    @Option.isSome β (@Bind.bind Checked _ Int β (divInt32 a d) f) = true := by
  rw [Checked.bind_eq, divInt32_of_pos hd h1 h2]
  exact hk

theorem checked_block {β : Type} (x : Checked Unit) (f : Unit → Checked β)
    (hx : x = some ()) (hk : @Option.isSome β (f ()) = true) :
    @Option.isSome β (@Bind.bind Checked _ Unit β x f) = true := by
  rw [hx]
  exact hk

theorem checked_draw {β : Type} (l : List Int) (f : Unit → Checked β)
    (hk : @Option.isSome β (f ()) = true) :
    @Option.isSome β (@Bind.bind Checked _ Unit β (draw l) f) = true :=
  hk

/-- For a window area of moderate size and sprites of moderate size `render()`
runs to its end: none of its `int32_t` operations overflows and no divisor is
zero. -/
theorem render_defined (sprites : WindowSprites) (b : Int) (w : StandardWindow) (bg : Bool)
    (hx1 : -1000000000 ≤ w._windowArea.x) (hx2 : w._windowArea.x ≤ 1000000000)
    (hy1 : -1000000000 ≤ w._windowArea.y) (hy2 : w._windowArea.y ≤ 1000000000)
    (hw1 : 0 ≤ w._windowArea.width) (hw2 : w._windowArea.width ≤ 1000000000)
    (hh1 : 0 ≤ w._windowArea.height) (hh2 : w._windowArea.height ≤ 1000000000)
    (hb1 : 0 ≤ b) (hb2 : b ≤ 100)
    (hhw1 : 200 ≤ sprites.horizontalSprite.width)
    (hhw2 : sprites.horizontalSprite.width ≤ 100000)
    (hhh1 : 200 ≤ sprites.horizontalSprite.height)
    (hhh2 : sprites.horizontalSprite.height ≤ 100000)
    (hvw1 : 200 ≤ sprites.verticalSprite.width)
    (hvw2 : sprites.verticalSprite.width ≤ 100000)
    (hvh1 : 200 ≤ sprites.verticalSprite.height)
    (hvh2 : sprites.verticalSprite.height ≤ 100000)
    (hsw1 : 200 ≤ sprites.backgroundSprite.width)
    (hsw2 : sprites.backgroundSprite.width ≤ 100000)
    (hsh1 : 200 ≤ sprites.backgroundSprite.height)
    (hsh2 : sprites.backgroundSprite.height ≤ 100000) :
    render sprites b w bg = some () := by
  apply eq_some_of_isSome
  unfold render
  dsimp only
  have hc1 : 0 ≤ (if bg = true then backgroundOffset else b) := by
    cases bg
    · simpa using hb1
    · simp [backgroundOffset]
  have hc2 : (if bg = true then backgroundOffset else b) ≤ 100 := by
    cases bg
    · simpa using hb2
    · simp [backgroundOffset]
  generalize (if bg = true then backgroundOffset else b) = c at hc1 hc2 ⊢
  have e1 : borderEdgeOffset = 43 := rfl
  have e2 : transitionSize = 10 := rfl
  repeat first
    | refine checked_sub _ _ _ (by omega) (by omega) ?_
    | refine checked_add _ _ _ (by omega) (by omega) ?_
    | refine checked_draw _ _ ?_
  refine checked_block _ _ (renderCornerTransitions_defined sprites w._windowArea bg _ _ _ _ _ _
    _ _ _ _ hx1 hx2 hy1 hy2 hw1 hw2 hh1 hh2 hsw1 hsw2 hsh1 hsh2 (by omega) (by omega) (by omega)
    (by omega) (by omega) (by omega) (by omega) (by omega) (by omega) (by omega)) ?_
  refine checked_mul _ _ _ (by omega) (by omega) ?_
  repeat first
    | refine checked_sub _ _ _ (by omega) (by omega) ?_
    | refine checked_add _ _ _ (by omega) (by omega) ?_
    | refine checked_div _ _ _ (by omega) (by omega) (by omega) ?_
    | refine checked_draw _ _ ?_
  refine checked_block _ _ (renderVerticalTransitions_defined bg _ _ _ _ _ _ (by omega) (by omega)
    (by omega) (by omega)) ?_
  refine checked_block _ _ (renderVerticalBorderCopies_defined w._windowArea bg _ _ _ _ _ _
    hy1 hy2 hh1 hh2 (by omega) (by omega) (by omega) (by omega) (by omega) (by omega) ?_) ?_
  · intro hpos
    have hq := tdiv_pos_mul_le (by omega) hpos
    have hstep : w._windowArea.height ⊓ sprites.verticalSprite.height - borderEdgeOffset * 2 - 10
        = sprites.verticalSprite.height - borderEdgeOffset - borderEdgeOffset - transitionSize := by
      omega
    rw [hstep]
    exact ⟨by omega, by omega⟩
  repeat first
    | refine checked_sub _ _ _ (by omega) (by omega) ?_
    | refine checked_add _ _ _ (by omega) (by omega) ?_
    | refine checked_div _ _ _ (by omega) (by omega) (by omega) ?_
    | refine checked_draw _ _ ?_
  refine checked_block _ _ (renderHorizontalTransitions_defined bg _ _ _ _ _ _ _ (by omega)
    (by omega) (by omega) (by omega)) ?_
  refine checked_block _ _ (renderHorizontalBorderCopies_defined w._windowArea bg _ _ _ _ _ _ _
    hx1 hx2 hw1 hw2 (by omega) (by omega) (by omega) (by omega) (by omega) (by omega) (by omega)
    (by omega) ?_) ?_
  · intro hpos
    have hq := tdiv_pos_mul_le (by omega) hpos
    have hstep : w._windowArea.width ⊓ (sprites.horizontalSprite.width - b) - borderEdgeOffset * 2
        - 10 = sprites.horizontalSprite.width - b - borderEdgeOffset * 2 - transitionSize := by
      omega
    rw [hstep]
    exact ⟨by omega, by omega⟩
  repeat first
    | refine checked_sub _ _ _ (by omega) (by omega) ?_
    | refine checked_add _ _ _ (by omega) (by omega) ?_
    | refine checked_draw _ _ ?_
  rfl

/-! ## Overflow in the loops of `render()` -/

theorem checked_int32_none {β : Type} (v : Int) (f : Int → Checked β)
    (hk : -2147483648 ≤ v → v ≤ 2147483647 → f v = (none : Option β)) :
    @Bind.bind Checked _ Int β (int32 v) f = (none : Option β) := by
  rw [Checked.bind_eq]
  unfold int32
  by_cases hr : -2147483648 ≤ v ∧ v ≤ 2147483647
  · rw [if_pos hr]
    exact hk hr.1 hr.2
  · rw [if_neg hr]
    rfl

theorem checked_sub_none {β : Type} (a b : Int) (f : Int → Checked β)
    (hk : -2147483648 ≤ a - b → a - b ≤ 2147483647 → f (a - b) = (none : Option β)) :
    @Bind.bind Checked _ Int β (subInt32 a b) f = (none : Option β) :=
  checked_int32_none (a - b) f hk

theorem checked_add_none {β : Type} (a b : Int) (f : Int → Checked β)
    (hk : -2147483648 ≤ a + b → a + b ≤ 2147483647 → f (a + b) = (none : Option β)) :
    @Bind.bind Checked _ Int β (addInt32 a b) f = (none : Option β) :=
  checked_int32_none (a + b) f hk

theorem checked_mul_none {β : Type} (a b : Int) (f : Int → Checked β)
    (hk : -2147483648 ≤ a * b → a * b ≤ 2147483647 → f (a * b) = (none : Option β)) :
    @Bind.bind Checked _ Int β (mulInt32 a b) f = (none : Option β) :=
  checked_int32_none (a * b) f hk

theorem checked_div_none {β : Type} (a d : Int) (f : Int → Checked β)
    (hk : f (a.tdiv d) = (none : Option β)) :
    @Bind.bind Checked _ Int β (divInt32 a d) f = (none : Option β) := by
  unfold divInt32
  by_cases hd : d = 0
  · rw [if_pos hd]
    rfl
  · rw [if_neg hd]
    exact checked_int32_none (a.tdiv d) f (fun _ _ => hk)

theorem checked_unit_none {β : Type} (x : Checked Unit) (f : Unit → Checked β)
    (hk : f () = (none : Option β)) :
    @Bind.bind Checked _ Unit β x f = (none : Option β) := by
  rw [Checked.bind_eq]
  cases x with
  | none => rfl
  | some u => exact hk

theorem checked_draw_none {β : Type} (l : List Int) (f : Unit → Checked β)
    (hk : f () = (none : Option β)) :
    @Bind.bind Checked _ Unit β (draw l) f = (none : Option β) :=
  hk

theorem checked_none {α β : Type} (x : Checked α) (f : α → Checked β)
    (hx : x = (none : Option α)) :
    @Bind.bind Checked _ α β x f = (none : Option β) := by
  rw [Checked.bind_eq, hx]
  rfl

/-- The horizontal loop of `render()` overflows in `toOffsetX += stepX` when the
offset it reaches is not a value of `int32_t`. -/
theorem renderHorizontalCopies_overflow (wa : Rect) (bg : Bool)
    (c bbsoy bcoy coy hscw step fromX : Int) (n : Nat) (t : Int)
    (hn : 0 < n) (hover : 2147483647 < t + (n : Int) * step) :
    renderHorizontalCopies wa bg c bbsoy bcoy coy hscw step fromX n t = (none : Option Unit) := by
  induction n generalizing t with
  | zero => omega
  | succ n ih =>
    have hexp : ((n + 1 : Nat) : Int) * step = (n : Int) * step + step := by
      push_cast
      ring
    rw [hexp] at hover
    rw [renderHorizontalCopies]
    refine checked_sub_none _ _ _ (fun _ _ => ?_)
    refine checked_sub_none _ _ _ (fun _ _ => ?_)
    refine checked_add_none _ _ _ (fun _ _ => ?_)
    refine checked_draw_none _ _ ?_
    refine checked_draw_none _ _ ?_
    have hrest : @Bind.bind Checked _ Int Unit (addInt32 t step)
        (fun t2 => renderHorizontalCopies wa bg c bbsoy bcoy coy hscw step fromX n t2)
          = (none : Option Unit) := by
      refine checked_add_none _ _ _ (fun h1 h2 => ?_)
      rcases n with _ | m
      · simp only [Nat.cast_zero, zero_mul, zero_add] at hover
        omega
      · exact ih (t + step) (Nat.succ_pos m) (by omega)
    cases bg with
    | true =>
      simp only [if_true]
      refine checked_draw_none _ _ ?_
      refine checked_sub_none _ _ _ (fun _ _ => ?_)
      refine checked_sub_none _ _ _ (fun _ _ => ?_)
      refine checked_draw_none _ _ ?_
      exact hrest
    | false =>
      simp only [Bool.false_eq_true, if_false]
      refine checked_unit_none _ _ ?_
      exact hrest

/-- The block of `render()` that repeats the horizontal borders overflows when
the offset its loop reaches is not a value of `int32_t`. -/
theorem renderHorizontalBorderCopies_overflow (wa : Rect) (bg : Bool)
    (c bbsoy bcoy coy startX hscw copies : Int) (hpos : 0 < copies)
    (hover : 2147483647 < 43 + hscw + (copies.toNat : Int) * (hscw - 10)) :
    renderHorizontalBorderCopies wa bg c bbsoy bcoy coy startX hscw copies
      = (none : Option Unit) := by
  unfold renderHorizontalBorderCopies
  rw [if_pos hpos]
  refine checked_add_none _ _ _ (fun _ _ => ?_)
  refine checked_add_none _ _ _ (fun _ _ => ?_)
  refine checked_sub_none _ _ _ (fun _ _ => ?_)
  refine checked_unit_none _ _ ?_
  refine checked_unit_none _ _ ?_
  refine checked_sub_none _ _ _ (fun _ _ => ?_)
  refine checked_add_none _ _ _ (fun _ _ => ?_)
  exact renderHorizontalCopies_overflow wa bg c bbsoy bcoy coy hscw (hscw - transitionSize)
    (startX + transitionSize) copies.toNat (borderEdgeOffset + hscw) (by omega)
    (by simp only [transitionSize, borderEdgeOffset]; omega)

/-- When the horizontal loop of `render()` is entered and the offset it reaches
is not a value of `int32_t`, `render()` has undefined behaviour. -/
theorem render_horizontal_overflow (sprites : WindowSprites) (b : Int) (w : StandardWindow)
    (bg : Bool)
    (hc : 0 < (w._windowArea.width - borderEdgeOffset * 2 - 1 - transitionSize).tdiv
      (sprites.horizontalSprite.width - b - borderEdgeOffset * 2 - transitionSize))
    (hover : 2147483647 < 43 + (min w._windowArea.width (sprites.horizontalSprite.width - b)
        - borderEdgeOffset * 2)
      + (((w._windowArea.width - borderEdgeOffset * 2 - 1 - transitionSize).tdiv
          (sprites.horizontalSprite.width - b - borderEdgeOffset * 2 - transitionSize)).toNat
            : Int)
        * (min w._windowArea.width (sprites.horizontalSprite.width - b)
          - borderEdgeOffset * 2 - 10)) :
    render sprites b w bg = (none : Option Unit) := by
  unfold render
  dsimp only
  generalize (if bg = true then backgroundOffset else b) = c
  repeat first
    | refine checked_sub_none _ _ _ (fun _ _ => ?_)
    | refine checked_add_none _ _ _ (fun _ _ => ?_)
    | refine checked_draw_none _ _ ?_
  refine checked_unit_none _ _ ?_
  refine checked_mul_none _ _ _ (fun _ _ => ?_)
  repeat first
    | refine checked_sub_none _ _ _ (fun _ _ => ?_)
    | refine checked_add_none _ _ _ (fun _ _ => ?_)
    | refine checked_div_none _ _ _ ?_
    | refine checked_draw_none _ _ ?_
  refine checked_unit_none _ _ ?_
  refine checked_unit_none _ _ ?_
  repeat first
    | refine checked_sub_none _ _ _ (fun _ _ => ?_)
    | refine checked_add_none _ _ _ (fun _ _ => ?_)
    | refine checked_div_none _ _ _ ?_
    | refine checked_draw_none _ _ ?_
  refine checked_unit_none _ _ ?_
  refine checked_none _ _ ?_
  exact renderHorizontalBorderCopies_overflow _ _ _ _ _ _ _ _ _ hc hover

theorem placed_of_render_none (sprites : WindowSprites) (b x y width height : Int) (bg : Bool)
    (w : StandardWindow) (hwin : withActiveArea b ⟨x, y, width, height⟩ = some w)
    (hrender : render sprites b w bg = (none : Option Unit)) :
    placed sprites b x y width height bg = none := by
  unfold placed
  rw [hwin]
  simp only [Option.bind_eq_bind, Option.some_bind]
  rw [hrender]
  rfl

/-- A window almost as wide as `int32_t` allows: the member initialisers run,
and `render()` overflows in `toOffsetX += stepX` after some four million
iterations of its horizontal loop. -/
theorem placed_wide_overflow :
    withActiveArea 16 ⟨0, 0, 2147483599, 100⟩ =
      some ⟨⟨0, 0, 2147483599, 100⟩, ⟨-16, -16, 2147483631, 132⟩,
        ⟨-32, -16, 2147483647, 148⟩⟩ ∧
      placed sampleSprites 16 0 0 2147483599 100 false = none := by
  have hwin : withActiveArea 16 ⟨0, 0, 2147483599, 100⟩ =
      some ⟨⟨0, 0, 2147483599, 100⟩, ⟨-16, -16, 2147483631, 132⟩,
        ⟨-32, -16, 2147483647, 148⟩⟩ := by
    decide
  exact ⟨hwin, placed_of_render_none sampleSprites 16 0 0 2147483599 100 false _ hwin
    (render_horizontal_overflow sampleSprites 16 _ false (by decide) (by decide))⟩

end StandardWindow

/-! ## The areas of a window -/

/-- Counterexample to claim C19 as stated. For `x = 0`, `y = 0`, the
non-negative `width = 2147483647`, `height = 0` and the border 16 the sum
`_activeArea.width + 2 * borderSize` of the member initialisers is not a value
of `int32_t`. For `x = 2147483647`, `y = 0`, `width = 100`, `height = 100` the
member initialisers run, but `render()`, called by the body of the constructor,
overflows in `_windowArea.x + _windowArea.width`. In both cases the constructor
gives no window whose window area is the active area grown by the border. -/
theorem window_width_overflow :
    (0 : Int) ≤ 2147483647 ∧ (0 : Int) ≤ 100 ∧ (0 : Int) ≤ 16 ∧
      StandardWindow.placed sampleSprites 16 0 0 2147483647 0 true = none ∧
      StandardWindow.withActiveArea 16 ⟨2147483647, 0, 100, 100⟩ =
        some ⟨⟨2147483647, 0, 100, 100⟩, ⟨2147483631, -16, 132, 132⟩,
          ⟨2147483615, -16, 148, 148⟩⟩ ∧
      addInt32 2147483631 132 = none ∧
      StandardWindow.placed sampleSprites 16 2147483647 0 100 100 true = none ∧
      StandardWindow.placed sampleSprites 16 2147483647 0 100 100 false = none := by
  decide

/-- A window of 1500 by 1200 pixels, for which both loops of `render()` and both
loops of `renderBackgroundImage` are entered, is built without overflow. -/
theorem placed_sample :
    StandardWindow.placed sampleSprites 16 210 120 1500 1200 true =
      some ⟨⟨210, 120, 1500, 1200⟩, ⟨194, 104, 1532, 1232⟩, ⟨178, 104, 1548, 1248⟩⟩ := by
  decide

/-- Claim C19, amended. Let the border be `b ≥ 0` and the size `width ≥ 0`,
`height ≥ 0`. Whenever the constructor for a position `x`, `y` (member
initialisers, then `render()`) runs without signed overflow and without a
division by zero, the window it gives has the active area `x, y, width, height`,
its window area is the active area grown by `b` on all four sides and its total
area is the window area extended by `b` to the left and by `b` at the bottom, so
that the window area contains the active area and the total area contains the
window area. The same holds of the centring constructor, whose active area has
`x = (outputWidth - width) / 2` and `y = (outputHeight - height) / 2`, the
division rounding towards zero. And the constructors do run to their end at
least when `b ≤ 100`, every side of the three sprites lies between 200 and
100000, `x` and `y` lie between -900000000 and 900000000 and `width`, `height`
are at most 900000000 (for the centring constructor: the differences
`outputWidth - width` and `outputHeight - height` are values of `int32_t` and
`x`, `y` are the halves above). -/
theorem window_areas (sprites : WindowSprites) (b x y w h : Int) (bg : Bool)
    (hb : 0 ≤ b) (hw : 0 ≤ w) (hh : 0 ≤ h) :
    (∀ win, StandardWindow.placed sprites b x y w h bg = some win →
      win.activeArea = ⟨x, y, w, h⟩ ∧
      win.windowArea = ⟨win.activeArea.x - b, win.activeArea.y - b,
        win.activeArea.width + 2 * b, win.activeArea.height + 2 * b⟩ ∧
      win.totalArea = ⟨win.windowArea.x - b, win.windowArea.y,
        win.windowArea.width + b, win.windowArea.height + b⟩ ∧
      win.windowArea.includes win.activeArea ∧
      win.totalArea.includes win.windowArea) ∧
    (∀ outputWidth outputHeight win,
      StandardWindow.centred sprites b outputWidth outputHeight w h bg = some win →
      win.activeArea = ⟨(outputWidth - w).tdiv 2, (outputHeight - h).tdiv 2, w, h⟩ ∧
      win.windowArea = ⟨win.activeArea.x - b, win.activeArea.y - b,
        win.activeArea.width + 2 * b, win.activeArea.height + 2 * b⟩ ∧
      win.totalArea = ⟨win.windowArea.x - b, win.windowArea.y,
        win.windowArea.width + b, win.windowArea.height + b⟩ ∧
      win.windowArea.includes win.activeArea ∧
      win.totalArea.includes win.windowArea) ∧
    (b ≤ 100 →
      (∀ s ∈ [sprites.horizontalSprite, sprites.verticalSprite, sprites.backgroundSprite],
        200 ≤ s.width ∧ s.width ≤ 100000 ∧ 200 ≤ s.height ∧ s.height ≤ 100000) →
      -900000000 ≤ x → x ≤ 900000000 → -900000000 ≤ y → y ≤ 900000000 →
      w ≤ 900000000 → h ≤ 900000000 →
      ∃ win, StandardWindow.placed sprites b x y w h bg = some win ∧
        ∀ outputWidth outputHeight : Int,
          -2147483648 ≤ outputWidth - w → outputWidth - w ≤ 2147483647 →
          -2147483648 ≤ outputHeight - h → outputHeight - h ≤ 2147483647 →
          x = (outputWidth - w).tdiv 2 → y = (outputHeight - h).tdiv 2 →
          StandardWindow.centred sprites b outputWidth outputHeight w h bg = some win) := by
  have hareas : ∀ (a : Rect) (win : StandardWindow), a.width = w → a.height = h →
      (StandardWindow.withActiveArea b a).bind
        (fun v => (StandardWindow.render sprites b v bg).bind fun _ => some v) = some win →
      win.activeArea = a ∧
      win.windowArea = ⟨win.activeArea.x - b, win.activeArea.y - b,
        win.activeArea.width + 2 * b, win.activeArea.height + 2 * b⟩ ∧
      win.totalArea = ⟨win.windowArea.x - b, win.windowArea.y,
        win.windowArea.width + b, win.windowArea.height + b⟩ ∧
      win.windowArea.includes win.activeArea ∧
      win.totalArea.includes win.windowArea := by
    intro a win haw hah hsome
    obtain ⟨v, hv, hrest⟩ := Option.bind_eq_some.1 hsome
    obtain ⟨u, _, hu⟩ := Option.bind_eq_some.1 hrest
    have hvw : v = win := Option.some.inj hu
    subst hvw
    have hshape := StandardWindow.withActiveArea_eq_some hv
    rw [hshape]
    refine ⟨rfl, rfl, rfl, ?_, ?_⟩
    · simp only [StandardWindow.windowArea, StandardWindow.activeArea, Rect.includes]
      omega
    · simp only [StandardWindow.windowArea, StandardWindow.totalArea, Rect.includes]
      omega
  refine ⟨?_, ?_, ?_⟩
  · intro win hsome
    exact hareas ⟨x, y, w, h⟩ win rfl rfl hsome
  · intro ow oh win hsome
    unfold StandardWindow.centred at hsome
    obtain ⟨dx, hdx, hsome⟩ := Option.bind_eq_some.1 hsome
    obtain ⟨dy, hdy, hsome⟩ := Option.bind_eq_some.1 hsome
    have ex := (int32_eq_some hdx).1
    have ey := (int32_eq_some hdy).1
    subst ex ey
    exact hareas ⟨(ow - w).tdiv 2, (oh - h).tdiv 2, w, h⟩ win rfl rfl hsome
  · intro hb2 hs hx1 hx2 hy1 hy2 hw2 hh2
    have hH := hs sprites.horizontalSprite (by simp)
    have hV := hs sprites.verticalSprite (by simp)
    have hB := hs sprites.backgroundSprite (by simp)
    have hwin := StandardWindow.withActiveArea_of_range b x y w h hb hw hh (by omega) (by omega)
      (by omega) (by omega) (by omega) (by omega)
    have hrender := StandardWindow.render_defined sprites b
      ⟨⟨x, y, w, h⟩, ⟨x - b, y - b, w + 2 * b, h + 2 * b⟩,
        ⟨x - b - b, y - b, w + 2 * b + b, h + 2 * b + b⟩⟩ bg
      (by show -1000000000 ≤ x - b; omega) (by show x - b ≤ 1000000000; omega)
      (by show -1000000000 ≤ y - b; omega) (by show y - b ≤ 1000000000; omega)
      (by show 0 ≤ w + 2 * b; omega) (by show w + 2 * b ≤ 1000000000; omega)
      (by show 0 ≤ h + 2 * b; omega) (by show h + 2 * b ≤ 1000000000; omega)
      hb hb2 hH.1 hH.2.1 hH.2.2.1 hH.2.2.2 hV.1 hV.2.1 hV.2.2.1 hV.2.2.2
      hB.1 hB.2.1 hB.2.2.1 hB.2.2.2
    have hplaced : StandardWindow.placed sprites b x y w h bg =
        some ⟨⟨x, y, w, h⟩, ⟨x - b, y - b, w + 2 * b, h + 2 * b⟩,
          ⟨x - b - b, y - b, w + 2 * b + b, h + 2 * b + b⟩⟩ := by
      unfold StandardWindow.placed
      rw [hwin]
      simp only [Option.bind_eq_bind, Option.some_bind]
      rw [hrender]
      rfl
    refine ⟨_, hplaced, ?_⟩
    intro ow oh h1 h2 h3 h4 hxe hye
    unfold StandardWindow.centred
    rw [subInt32_of_range h1 h2, subInt32_of_range h3 h4]
    simp only [Option.bind_eq_bind, Option.some_bind]
    rw [← hxe, ← hye]
    exact hplaced

theorem window_areas_witness :
    ∃ win, StandardWindow.placed sampleSprites 16 170 140 300 200 true = some win ∧
      win.activeArea = ⟨170, 140, 300, 200⟩ ∧
      win.windowArea = ⟨154, 124, 332, 232⟩ ∧
      win.totalArea = ⟨138, 124, 348, 248⟩ ∧
      win.windowArea.includes win.activeArea ∧
      win.totalArea.includes win.windowArea ∧
      StandardWindow.centred sampleSprites 16 640 480 300 200 true = some win :=
  have hall := window_areas sampleSprites 16 170 140 300 200 true (by decide) (by decide)
    (by decide)
  (hall.2.2 (by decide) (by decide) (by decide) (by decide) (by decide) (by decide) (by decide)
    (by decide)).imp
    (fun win h =>
      have hp := hall.1 win h.1
      ⟨h.1, hp.1, by rw [hp.2.1, hp.1]; rfl, by rw [hp.2.2.1, hp.2.1, hp.1]; rfl,
        hp.2.2.2.1, hp.2.2.2.2,
        h.2 640 480 (by decide) (by decide) (by decide) (by decide) (by decide) (by decide)⟩)

end fheroes2

namespace fheroes2

/-! ## The loops of `renderSymmetricButtons` -/

theorem addInt32_eq_some {a b r : Int} (h : addInt32 a b = some r) : r = a + b :=
  (int32_eq_some h).1

theorem subInt32_eq_some {a b r : Int} (h : subInt32 a b = some r) : r = a - b :=
  (int32_eq_some h).1

theorem mulInt32_eq_some {a b r : Int} (h : mulInt32 a b = some r) : r = a * b :=
  (int32_eq_some h).1

/-- A cell of the grid that is rendered without overflow moves the button
`buttonId`, which exists, to the position of the cell and increments `buttonId`. -/
theorem renderSymmetricCell_eq_some {area : Rect} {bw bh : Int} {grid : SymmetricGrid}
    {offY vgap row col : Int} {bs : List Rect} {id : Nat} {st : List Rect × Nat}
    (h : renderSymmetricCell area bw bh grid offY vgap row col (bs, id) = some st) :
    ∃ r, bs[id]? = some r ∧
      st = (bs.set id
        { r with
          x := area.x + col * bw + grid.offsetX + col * grid.horizontalGapBetweenButtons
          y := area.y + row * (bh + vgap) + offY }, sizeIncrement id) := by
  unfold renderSymmetricCell at h
  simp only [Option.bind_eq_bind, Option.bind_eq_some] at h
  obtain ⟨t4, h4, t3, h3, t2, h2, t5, h5, t1, h1, u4, g4, u3, g3, u2, g2, u1, g1,
    bs1, hset, hst⟩ := h
  have e4 := mulInt32_eq_some h4
  have e3 := addInt32_eq_some h3
  have e2 := addInt32_eq_some h2
  have e5 := mulInt32_eq_some h5
  have e1 := addInt32_eq_some h1
  have f4 := addInt32_eq_some g4
  have f3 := mulInt32_eq_some g3
  have f2 := addInt32_eq_some g2
  have f1 := addInt32_eq_some g1
  unfold setButtonPosition at hset
  cases hb : bs[id]? with
  | none =>
    rw [hb] at hset
    exact Option.noConfusion hset
  | some r =>
    rw [hb] at hset
    refine ⟨r, rfl, ?_⟩
    have hbs : bs1 = bs.set id { r with x := t1, y := u1 } := (Option.some.inj hset).symm
    have hst1 : st = (bs1, sizeIncrement id) := (Option.some.inj hst).symm
    rw [hst1, hbs, e1, e2, e3, e4, e5, f1, f2, f3, f4]

/-- Invariant of the loops: the group has `n` buttons, all of width `bw` and
height `bh`, and those before `buttonId` satisfy `Q`. -/
theorem renderSymmetricColumns_invariant {area : Rect} {bw bh : Int} {grid : SymmetricGrid}
    {offY vgap row : Int} (Q : Rect → Prop) (n : Nat) (hn : n + 1 < sizeModulus)
    (cols : List Int) (bs : List Rect) (id : Nat) (st : List Rect × Nat)
    (h : renderSymmetricColumns area bw bh grid offY vgap row cols (bs, id) = some st)
    (hQ : ∀ col ∈ cols,
      Q ⟨area.x + col * bw + grid.offsetX + col * grid.horizontalGapBetweenButtons,
        area.y + row * (bh + vgap) + offY, bw, bh⟩)
    (hlen : bs.length = n)
    (hinv : ∀ i r, bs[i]? = some r → r.width = bw ∧ r.height = bh ∧ (i < id → Q r)) :
    st.2 = id + cols.length ∧ st.1.length = n ∧
      ∀ i r, st.1[i]? = some r → r.width = bw ∧ r.height = bh ∧ (i < st.2 → Q r) := by
  induction cols generalizing bs id with
  | nil =>
    simp only [renderSymmetricColumns, Option.some.injEq] at h
    subst h
    exact ⟨rfl, hlen, hinv⟩
  | cons col rest ih =>
    simp only [renderSymmetricColumns] at h
    cases hcell : renderSymmetricCell area bw bh grid offY vgap row col (bs, id) with
    | none =>
      rw [hcell] at h
      exact Option.noConfusion h
    | some st1 =>
      rw [hcell] at h
      obtain ⟨r0, hr0, hst1⟩ := renderSymmetricCell_eq_some hcell
      have hid : id < bs.length := by
        obtain ⟨hlt, _⟩ := List.getElem?_eq_some.1 hr0
        exact hlt
      have hinc : sizeIncrement id = id + 1 := sizeIncrement_eq (by omega)
      rw [hst1, hinc] at h
      have hr0s := hinv id r0 hr0
      have := ih _ (id + 1) h (fun c hc => hQ c (List.mem_cons_of_mem _ hc))
        (by rw [List.length_set]; exact hlen)
        (by
          intro i r hir
          rw [List.getElem?_set] at hir
          by_cases hi : id = i
          · rw [if_pos hi, if_pos hid] at hir
            have hr : r = _ := (Option.some.inj hir).symm
            subst hr
            refine ⟨hr0s.1, hr0s.2.1, fun _ => ?_⟩
            have hq := hQ col (List.mem_cons_self _ _)
            show Q ⟨_, _, r0.width, r0.height⟩
            rw [hr0s.1, hr0s.2.1]
            exact hq
          · rw [if_neg hi] at hir
            obtain ⟨hw, hh, hq⟩ := hinv i r hir
            exact ⟨hw, hh, fun hlt => hq (by omega)⟩)
      refine ⟨?_, this.2⟩
      rw [this.1, List.length_cons]
      omega

theorem renderSymmetricRows_invariant {area : Rect} {bw bh : Int} {grid : SymmetricGrid}
    {offY vgap : Int} (Q : Rect → Prop) (n : Nat) (hn : n + 1 < sizeModulus)
    (rows : List Int) (bs : List Rect) (id : Nat) (st : List Rect × Nat)
    (h : renderSymmetricRows area bw bh grid offY vgap rows (bs, id) = some st)
    (hQ : ∀ row ∈ rows, ∀ col ∈ loopRange grid.columns,
      Q ⟨area.x + col * bw + grid.offsetX + col * grid.horizontalGapBetweenButtons,
        area.y + row * (bh + vgap) + offY, bw, bh⟩)
    (hlen : bs.length = n)
    (hinv : ∀ i r, bs[i]? = some r → r.width = bw ∧ r.height = bh ∧ (i < id → Q r)) :
    st.2 = id + rows.length * (loopRange grid.columns).length ∧ st.1.length = n ∧
      ∀ i r, st.1[i]? = some r → r.width = bw ∧ r.height = bh ∧ (i < st.2 → Q r) := by
  induction rows generalizing bs id with
  | nil =>
    simp only [renderSymmetricRows, Option.some.injEq] at h
    subst h
    exact ⟨by simp, hlen, hinv⟩
  | cons row rest ih =>
    simp only [renderSymmetricRows] at h
    cases hrow : renderSymmetricColumns area bw bh grid offY vgap row
        (loopRange grid.columns) (bs, id) with
    | none =>
      rw [hrow] at h
      exact Option.noConfusion h
    | some st1 =>
      rw [hrow] at h
      obtain ⟨s1, s2, s3⟩ := renderSymmetricColumns_invariant Q n hn _ bs id st1 hrow
        (hQ row (List.mem_cons_self _ _)) hlen hinv
      obtain ⟨bs1, id1⟩ := st1
      have := ih bs1 id1 h (fun r hr => hQ r (List.mem_cons_of_mem _ hr)) s2 s3
      refine ⟨?_, this.2⟩
      rw [this.1]
      simp only at s1
      rw [s1, List.length_cons, Nat.succ_mul]
      omega

theorem length_loopRange {n : Int} (h : 0 ≤ n) : ((loopRange n).length : Int) = n := by
  unfold loopRange
  rw [List.length_map, List.length_range]
  exact Int.toNat_of_nonneg h

theorem mem_loopRange {n i : Int} (h : i ∈ loopRange n) : 0 ≤ i ∧ i < n := by
  unfold loopRange at h
  obtain ⟨k, hk, rfl⟩ := List.mem_map.1 h
  have hk1 := List.mem_range.1 hk
  have : (k : Int) < n := Int.lt_toNat.1 hk1
  exact ⟨Int.ofNat_nonneg k, this⟩

end fheroes2

namespace fheroes2

/-! ## The symmetric dialog -/

theorem int32_bind_eq_some {β : Type} (v : Int) (f : Int → Option β) (r : β) :
    (int32 v).bind f = some r ↔ (-2147483648 ≤ v ∧ v ≤ 2147483647) ∧ f v = some r := by
  unfold int32
  by_cases hr : -2147483648 ≤ v ∧ v ≤ 2147483647
  · rw [if_pos hr]
    simp [hr]
  · rw [if_neg hr]
    simp [hr]

theorem addInt32_bind_eq_some {β : Type} (a b : Int) (f : Int → Option β) (r : β) :
    (addInt32 a b).bind f = some r ↔
      (-2147483648 ≤ a + b ∧ a + b ≤ 2147483647) ∧ f (a + b) = some r :=
  int32_bind_eq_some (a + b) f r

theorem subInt32_bind_eq_some {β : Type} (a b : Int) (f : Int → Option β) (r : β) :
    (subInt32 a b).bind f = some r ↔
      (-2147483648 ≤ a - b ∧ a - b ≤ 2147483647) ∧ f (a - b) = some r :=
  int32_bind_eq_some (a - b) f r

theorem mulInt32_bind_eq_some {β : Type} (a b : Int) (f : Int → Option β) (r : β) :
    (mulInt32 a b).bind f = some r ↔
      (-2147483648 ≤ a * b ∧ a * b ≤ 2147483647) ∧ f (a * b) = some r :=
  int32_bind_eq_some (a * b) f r

theorem StandardWindow.withActiveArea_activeArea {b : Int} {a : Rect} {w : StandardWindow}
    (h : StandardWindow.withActiveArea b a = some w) : w._activeArea = a := by
  unfold StandardWindow.withActiveArea at h
  simp only [Option.bind_eq_bind, Option.bind_eq_some] at h
  obtain ⟨_, _, _, _, _, _, _, _, _, _, _, _, _, _, _, _, _, _, hw⟩ := h
  rw [← Option.some.inj hw]

/-- The size of the active area that `getSymmetricDialogActiveArea` computes
without overflow for a group of `n ≥ 1` buttons of width `bw` and height `bh`. -/
theorem getSymmetricDialogActiveArea_size {border menuX menuY extra ow oh : Int}
    {first : Rect} {rest : List Rect} {single : Bool} {area : Rect}
    (hn : (first :: rest).length ≤ 2147483647)
    (h : getSymmetricDialogActiveArea border menuX menuY (first :: rest) single extra ow oh =
      some area) :
    (single = true →
      area.width = 52 + first.width ∧
      area.height = 0 + 43 + extra +
        (first.height * ((first :: rest).length : Int) +
          (((first :: rest).length : Int) - 1) * 10)) ∧
    (single = false → ((first :: rest).length : Int) % 2 = 1 →
      area.width = 60 + first.width ∧
      area.height = 46 + 26 + extra +
        (first.height * ((first :: rest).length : Int) +
          (((first :: rest).length : Int) - 1) * 10)) ∧
    (single = false → ((first :: rest).length : Int) = 2 →
      area.width = 60 + (first.width * 2 + 37) ∧
      area.height = 46 + 26 + extra + first.height) ∧
    (single = false → ((first :: rest).length : Int) % 2 = 0 →
      ((first :: rest).length : Int) ≠ 2 →
      area.width = 60 + (((first :: rest).length : Int) / 2 * first.width +
        (((first :: rest).length : Int) / 2 - 1) * 20) ∧
      area.height = 46 + 26 + extra + (first.height * 2 + 20)) := by
  have hcast := castInt32_of_le hn
  unfold getSymmetricDialogActiveArea at h
  rw [if_neg (by simp)] at h
  simp only [hcast] at h
  have hn0 : (0 : Int) ≤ ((first :: rest).length : Int) := Int.ofNat_nonneg _
  have htmod : ((first :: rest).length : Int).tmod 2 = ((first :: rest).length : Int) % 2 :=
    Int.tmod_eq_emod hn0 (by decide)
  have htdiv : ((first :: rest).length : Int).tdiv 2 = ((first :: rest).length : Int) / 2 :=
    Int.tdiv_eq_ediv hn0 (by decide)
  refine ⟨?_, ?_, ?_, ?_⟩
  · intro hs
    subst hs
    simp only [Bool.true_or, if_true, Option.bind_eq_bind, Option.bind_assoc, Option.some_bind,
      addInt32_bind_eq_some, subInt32_bind_eq_some, mulInt32_bind_eq_some,
      List.getElem?_cons_zero] at h
    obtain ⟨_, _, _, _, _, _, _, _, _, _, _, _, _, _, harea⟩ := h
    rw [← Option.some.inj harea]
    exact ⟨rfl, rfl⟩
  · intro hs hodd
    subst hs
    have hcond : (false || ((first :: rest).length : Int).tmod 2 != 0) = true := by
      rw [htmod, hodd]
      decide
    simp only [hcond, if_true, Bool.false_eq_true, if_false, Option.bind_eq_bind,
      Option.bind_assoc, Option.some_bind,
      addInt32_bind_eq_some, subInt32_bind_eq_some, mulInt32_bind_eq_some,
      List.getElem?_cons_zero] at h
    obtain ⟨_, _, _, _, _, _, _, _, _, _, harea⟩ := h
    rw [← Option.some.inj harea]
    exact ⟨rfl, rfl⟩
  · intro hs htwo
    subst hs
    have hcond : (false || ((first :: rest).length : Int).tmod 2 != 0) = false := by
      rw [htmod, htwo]
      decide
    simp only [hcond, Bool.false_eq_true, if_false, eq_true htwo, if_true] at h
    simp only [Option.bind_eq_bind,
      Option.bind_assoc, Option.some_bind,
      addInt32_bind_eq_some, subInt32_bind_eq_some, mulInt32_bind_eq_some,
      List.getElem?_cons_zero] at h
    obtain ⟨_, _, _, _, _, _, _, _, harea⟩ := h
    rw [← Option.some.inj harea]
    exact ⟨rfl, rfl⟩
  · intro hs heven hne2
    subst hs
    have hcond : (false || ((first :: rest).length : Int).tmod 2 != 0) = false := by
      rw [htmod, heven]
      decide
    simp only [hcond, Bool.false_eq_true, if_false, eq_false hne2] at h
    simp only [htdiv, Option.bind_eq_bind,
      Option.bind_assoc, Option.some_bind,
      addInt32_bind_eq_some, subInt32_bind_eq_some, mulInt32_bind_eq_some,
      List.getElem?_cons_zero] at h
    obtain ⟨_, _, _, _, _, _, _, _, _, _, _, _, harea⟩ := h
    rw [← Option.some.inj harea]
    exact ⟨rfl, rfl⟩

end fheroes2

namespace fheroes2

/-- The grid chosen by `renderSymmetricButtons` for `n ≥ 0` buttons. -/
theorem symmetricGrid_cases (n : Int) (hn : 0 ≤ n) (single : Bool) :
    (single = true → symmetricGrid n single = ⟨n, 1, 25, 22, 37⟩) ∧
    (single = false → n % 2 = 1 → symmetricGrid n single = ⟨n, 1, 25, 22, 37⟩) ∧
    (single = false → n = 2 → symmetricGrid n single = ⟨1, 2, 30, 15, 37⟩) ∧
    (single = false → n % 2 = 0 → n ≠ 2 → symmetricGrid n single = ⟨2, n / 2, 30, 15, 20⟩) := by
  have htmod : n.tmod 2 = n % 2 := Int.tmod_eq_emod hn (by decide)
  have htdiv : n.tdiv 2 = n / 2 := Int.tdiv_eq_ediv hn (by decide)
  unfold symmetricGrid
  refine ⟨?_, ?_, ?_, ?_⟩
  · intro hs
    subst hs
    rfl
  · intro hs hodd
    subst hs
    have hcond : (false || n.tmod 2 != 0) = true := by
      rw [htmod, hodd]
      decide
    rw [if_pos hcond]
    rfl
  · intro hs htwo
    subst hs
    subst htwo
    rfl
  · intro hs heven hne2
    subst hs
    have hcond : ¬ ((false || n.tmod 2 != 0) = true) := by
      rw [htmod, heven]
      decide
    rw [if_neg hcond, if_neg hne2, htdiv]
    rfl

/-- Cells of a grid whose last column and last row end inside the area lie
inside the area. -/
theorem cells_inside (area : Rect) (grid : SymmetricGrid) (bw bh offY vgap : Int)
    (hbw : 0 ≤ bw) (hbh : 0 ≤ bh) (hox : 0 ≤ grid.offsetX) (hoy : 0 ≤ offY)
    (hhg : 0 ≤ grid.horizontalGapBetweenButtons) (hvg : 0 ≤ vgap)
    (hright : (grid.columns - 1) * (bw + grid.horizontalGapBetweenButtons) + grid.offsetX + bw ≤
      area.width)
    (hbottom : (grid.rows - 1) * (bh + vgap) + offY + bh ≤ area.height) :
    ∀ row ∈ loopRange grid.rows, ∀ col ∈ loopRange grid.columns,
      area.includes
        ⟨area.x + col * bw + grid.offsetX + col * grid.horizontalGapBetweenButtons,
          area.y + row * (bh + vgap) + offY, bw, bh⟩ := by
  intro row hrow col hcol
  obtain ⟨hr0, hr1⟩ := mem_loopRange hrow
  obtain ⟨hc0, hc1⟩ := mem_loopRange hcol
  have h1 : col * (bw + grid.horizontalGapBetweenButtons) ≤
      (grid.columns - 1) * (bw + grid.horizontalGapBetweenButtons) :=
    mul_le_mul_of_nonneg_right (by omega) (by omega)
  have h2 : row * (bh + vgap) ≤ (grid.rows - 1) * (bh + vgap) :=
    mul_le_mul_of_nonneg_right (by omega) (by omega)
  have h3 : 0 ≤ col * (bw + grid.horizontalGapBetweenButtons) := mul_nonneg hc0 (by omega)
  have h4 : 0 ≤ row * (bh + vgap) := mul_nonneg hr0 (by omega)
  have h5 : col * (bw + grid.horizontalGapBetweenButtons) =
      col * bw + col * grid.horizontalGapBetweenButtons := by ring
  unfold Rect.includes
  simp only
  refine ⟨?_, ?_, ?_, ?_⟩ <;> linarith

end fheroes2

namespace fheroes2

theorem length_loopRange_mul {r c : Int} {n : Nat} (hr : 0 ≤ r) (hc : 0 ≤ c)
    (h : r * c = (n : Int)) : (loopRange r).length * (loopRange c).length = n := by
  have h1 := length_loopRange hr
  have h2 := length_loopRange hc
  have h3 : (((loopRange r).length * (loopRange c).length : Nat) : Int) = (n : Int) := by
    rw [Nat.cast_mul, h1, h2, h]
  exact Int.ofNat.inj h3

/-- In the cases in which the dialog is sized for the rendering (single column
requested, an even count, or at most 5 buttons), the grid has as many cells as
there are buttons, and its last column and last row end inside the active area. -/
theorem symmetric_grid_fits {border menuX menuY extra ow oh : Int}
    {first : Rect} {rest : List Rect} {single : Bool} {area : Rect}
    (hn : (first :: rest).length ≤ 2147483647)
    (hbh : 0 ≤ first.height) (hextra : 0 ≤ extra)
    (hcase : single = true ∨ (first :: rest).length % 2 = 0 ∨ (first :: rest).length ≤ 5)
    (harea : getSymmetricDialogActiveArea border menuX menuY (first :: rest) single extra
      ow oh = some area) :
    ∃ grid : SymmetricGrid, ∃ vgap : Int,
      symmetricGrid ((first :: rest).length : Int) single = grid ∧
      (if single = true then buttonsVerticalGap else 2 * buttonsVerticalGap) = vgap ∧
      1 ≤ grid.rows ∧ 1 ≤ grid.columns ∧
      grid.rows * grid.columns = ((first :: rest).length : Int) ∧
      0 ≤ grid.offsetX ∧ 0 ≤ grid.offsetY ∧ 0 ≤ grid.horizontalGapBetweenButtons ∧ 0 ≤ vgap ∧
      (grid.columns - 1) * (first.width + grid.horizontalGapBetweenButtons) + grid.offsetX +
        first.width ≤ area.width ∧
      (grid.rows - 1) * (first.height + vgap) + (grid.offsetY + extra) + first.height ≤
        area.height ∧
      first.height + vgap ≤ area.height := by
  have hsz := getSymmetricDialogActiveArea_size hn harea
  have hn0 : (0 : Int) ≤ ((first :: rest).length : Int) := Int.ofNat_nonneg _
  have hn1 : (1 : Int) ≤ ((first :: rest).length : Int) := by
    simp only [List.length_cons, Nat.cast_add, Nat.cast_one]
    omega
  have hg := symmetricGrid_cases ((first :: rest).length : Int) hn0 single
  have hN5 : (first :: rest).length ≤ 5 → ((first :: rest).length : Int) ≤ 5 := by
    intro h
    exact_mod_cast h
  have hNe : (first :: rest).length % 2 = 0 → ((first :: rest).length : Int) % 2 = 0 := by
    intro h
    omega
  generalize ((first :: rest).length : Int) = N at *
  generalize (first :: rest).length = n at *
  have hv : buttonsVerticalGap = 10 := rfl
  cases single with
  | true =>
    obtain ⟨hw, hh⟩ := hsz.1 rfl
    refine ⟨⟨N, 1, 25, 22, 37⟩, 10, hg.1 rfl, rfl, hn1, by norm_num, by simp, by norm_num,
      by norm_num, by norm_num, by norm_num, ?_, ?_, ?_⟩
    · simp only [sub_self, zero_mul, zero_add]
      omega
    · simp only
      nlinarith
    · nlinarith
  | false =>
    by_cases hodd : N % 2 = 1
    · obtain ⟨hw, hh⟩ := hsz.2.1 rfl hodd
      have hle : N ≤ 5 := by
        rcases hcase with hc | hc | hc
        · exact absurd hc (by decide)
        · have := hNe hc
          omega
        · exact hN5 hc
      refine ⟨⟨N, 1, 25, 22, 37⟩, 20, hg.2.1 rfl hodd, rfl, hn1, by norm_num, by simp,
        by norm_num, by norm_num, by norm_num, by norm_num, ?_, ?_, ?_⟩
      · simp only [sub_self, zero_mul, zero_add]
        omega
      · simp only
        nlinarith
      · nlinarith
    · have heven : N % 2 = 0 := by omega
      by_cases htwo : N = 2
      · obtain ⟨hw, hh⟩ := hsz.2.2.1 rfl htwo
        refine ⟨⟨1, 2, 30, 15, 37⟩, 20, hg.2.2.1 rfl htwo, rfl, by norm_num, by norm_num,
          by rw [htwo]; rfl, by norm_num, by norm_num, by norm_num, by norm_num, ?_, ?_, ?_⟩
        · simp only
          omega
        · simp only [sub_self, zero_mul, zero_add]
          omega
        · omega
      · obtain ⟨hw, hh⟩ := hsz.2.2.2 rfl heven htwo
        refine ⟨⟨2, N / 2, 30, 15, 20⟩, 20, hg.2.2.2 rfl heven htwo, rfl, by norm_num,
          by show (1 : Int) ≤ N / 2; omega, by show (2 : Int) * (N / 2) = N; omega,
          by norm_num, by norm_num, by norm_num, by norm_num, ?_, ?_, ?_⟩
        · simp only
          nlinarith
        · simp only
          omega
        · omega

end fheroes2

namespace fheroes2

/-! ## The rendering runs without overflow -/

theorem tdiv_two_range {v : Int} (h1 : -2147483648 ≤ v) (h2 : v ≤ 2147483647) :
    -2147483648 ≤ v.tdiv 2 ∧ v.tdiv 2 ≤ 2147483647 := by
  by_cases hv : 0 ≤ v
  · rw [Int.tdiv_eq_ediv hv (by decide)]
    omega
  · have hneg : v.tdiv 2 = -((-v) / 2) := by
      have h := Int.neg_tdiv (-v) 2
      rw [neg_neg] at h
      rw [h, Int.tdiv_eq_ediv (by omega) (by decide)]
    rw [hneg]
    omega

/-- The fields of an active area computed without overflow are values of
`int32_t`. -/
theorem getSymmetricDialogActiveArea_range {border menuX menuY extra ow oh : Int}
    {first : Rect} {rest : List Rect} {single : Bool} {area : Rect}
    (hn : (first :: rest).length ≤ 2147483647)
    (h : getSymmetricDialogActiveArea border menuX menuY (first :: rest) single extra ow oh =
      some area) :
    -2147483648 ≤ area.x ∧ -2147483648 ≤ area.y ∧ area.width ≤ 2147483647 ∧
      area.height ≤ 2147483647 := by
  have hcast := castInt32_of_le hn
  unfold getSymmetricDialogActiveArea at h
  rw [if_neg (by simp)] at h
  simp only [hcast] at h
  cases single with
  | true =>
    simp only [Bool.true_or, if_true, Option.bind_eq_bind, Option.bind_assoc, Option.some_bind,
      addInt32_bind_eq_some, subInt32_bind_eq_some, mulInt32_bind_eq_some,
      List.getElem?_cons_zero] at h
    obtain ⟨_, _, hw, _, _, _, _, hh, _, _, _, hx, _, hy, harea⟩ := h
    rw [← Option.some.inj harea]
    exact ⟨hx.1, hy.1, hw.2, hh.2⟩
  | false =>
    by_cases hc1 : (false || ((first :: rest).length : Int).tmod 2 != 0) = true
    · simp only [hc1, if_true, Bool.false_eq_true, if_false, Option.bind_eq_bind,
        Option.bind_assoc, Option.some_bind,
        addInt32_bind_eq_some, subInt32_bind_eq_some, mulInt32_bind_eq_some,
        List.getElem?_cons_zero] at h
      obtain ⟨_, _, hw, _, _, _, _, hh, hx, hy, harea⟩ := h
      rw [← Option.some.inj harea]
      exact ⟨(tdiv_two_range hx.1 hx.2).1, (tdiv_two_range hy.1 hy.2).1, hw.2, hh.2⟩
    · by_cases hc2 : ((first :: rest).length : Int) = 2
      · simp only [hc1, Bool.false_eq_true, if_false, eq_true hc2, if_true,
          Option.bind_eq_bind, Option.bind_assoc, Option.some_bind,
          addInt32_bind_eq_some, subInt32_bind_eq_some, mulInt32_bind_eq_some,
          List.getElem?_cons_zero] at h
        obtain ⟨_, _, _, _, hw, hh, hx, hy, harea⟩ := h
        rw [← Option.some.inj harea]
        exact ⟨(tdiv_two_range hx.1 hx.2).1, (tdiv_two_range hy.1 hy.2).1, hw.2, hh.2⟩
      · simp only [hc1, Bool.false_eq_true, if_false, eq_false hc2,
          Option.bind_eq_bind, Option.bind_assoc, Option.some_bind,
          addInt32_bind_eq_some, subInt32_bind_eq_some, mulInt32_bind_eq_some,
          List.getElem?_cons_zero] at h
        obtain ⟨_, _, _, _, _, _, hw, _, _, hh, hx, hy, harea⟩ := h
        rw [← Option.some.inj harea]
        exact ⟨(tdiv_two_range hx.1 hx.2).1, (tdiv_two_range hy.1 hy.2).1, hw.2, hh.2⟩

/-- A cell whose coordinates are computed within `int32_t` and whose button
exists is rendered. -/
theorem renderSymmetricCell_defined (area : Rect) (grid : SymmetricGrid)
    (bw bh offY vgap row col : Int) (bs : List Rect) (id : Nat)
    (hbw : 0 ≤ bw) (hbh : 0 ≤ bh) (hox : 0 ≤ grid.offsetX) (hoy : 0 ≤ offY)
    (hhg : 0 ≤ grid.horizontalGapBetweenButtons) (hvg : 0 ≤ vgap)
    (hc0 : 0 ≤ col) (hc1 : col < grid.columns) (hr0 : 0 ≤ row) (hr1 : row < grid.rows)
    (hright : (grid.columns - 1) * (bw + grid.horizontalGapBetweenButtons) + grid.offsetX + bw ≤
      area.width)
    (hbottom : (grid.rows - 1) * (bh + vgap) + offY + bh ≤ area.height)
    (hvfit : bh + vgap ≤ area.height)
    (hx : -2147483648 ≤ area.x) (hy : -2147483648 ≤ area.y)
    (hw : area.width ≤ 2147483647) (hh : area.height ≤ 2147483647)
    (hxe : area.x + area.width ≤ 2147483647) (hye : area.y + area.height ≤ 2147483647)
    (hid : id < bs.length) :
    ∃ bs1, renderSymmetricCell area bw bh grid offY vgap row col (bs, id) =
        some (bs1, sizeIncrement id) ∧ bs1.length = bs.length := by
  have h1 : col * (bw + grid.horizontalGapBetweenButtons) ≤
      (grid.columns - 1) * (bw + grid.horizontalGapBetweenButtons) :=
    mul_le_mul_of_nonneg_right (by omega) (by omega)
  have h2 : row * (bh + vgap) ≤ (grid.rows - 1) * (bh + vgap) :=
    mul_le_mul_of_nonneg_right (by omega) (by omega)
  have h3 : 0 ≤ col * bw := mul_nonneg hc0 hbw
  have h4 : 0 ≤ col * grid.horizontalGapBetweenButtons := mul_nonneg hc0 hhg
  have h5 : col * (bw + grid.horizontalGapBetweenButtons) =
      col * bw + col * grid.horizontalGapBetweenButtons := by ring
  have h6 : 0 ≤ row * (bh + vgap) := mul_nonneg hr0 (by omega)
  have e1 : mulInt32 col bw = some (col * bw) :=
    mulInt32_of_range (by linarith) (by linarith)
  have e2 : addInt32 area.x (col * bw) = some (area.x + col * bw) :=
    addInt32_of_range (by linarith) (by linarith)
  have e3 : addInt32 (area.x + col * bw) grid.offsetX = some (area.x + col * bw + grid.offsetX) :=
    addInt32_of_range (by linarith) (by linarith)
  have e4 : mulInt32 col grid.horizontalGapBetweenButtons =
      some (col * grid.horizontalGapBetweenButtons) :=
    mulInt32_of_range (by linarith) (by linarith)
  have e5 : addInt32 (area.x + col * bw + grid.offsetX)
      (col * grid.horizontalGapBetweenButtons) =
        some (area.x + col * bw + grid.offsetX + col * grid.horizontalGapBetweenButtons) :=
    addInt32_of_range (by linarith) (by linarith)
  have f1 : addInt32 bh vgap = some (bh + vgap) :=
    addInt32_of_range (by linarith) (by linarith)
  have f2 : mulInt32 row (bh + vgap) = some (row * (bh + vgap)) :=
    mulInt32_of_range (by linarith) (by linarith)
  have f3 : addInt32 area.y (row * (bh + vgap)) = some (area.y + row * (bh + vgap)) :=
    addInt32_of_range (by linarith) (by linarith)
  have f4 : addInt32 (area.y + row * (bh + vgap)) offY =
      some (area.y + row * (bh + vgap) + offY) :=
    addInt32_of_range (by linarith) (by linarith)
  obtain ⟨r, hr⟩ : ∃ r, bs[id]? = some r := ⟨bs[id], List.getElem?_eq_getElem hid⟩
  refine ⟨bs.set id { r with
      x := area.x + col * bw + grid.offsetX + col * grid.horizontalGapBetweenButtons
      y := area.y + row * (bh + vgap) + offY }, ?_, List.length_set _ _ _⟩
  unfold renderSymmetricCell
  simp only [e1, e2, e3, e4, e5, f1, f2, f3, f4, Option.bind_eq_bind, Option.some_bind,
    setButtonPosition, hr]

theorem renderSymmetricColumns_defined {area : Rect} {bw bh : Int} {grid : SymmetricGrid}
    {offY vgap row : Int} (cols : List Int) (bs : List Rect) (id : Nat)
    (hsm : bs.length + 1 < sizeModulus) (hfit : id + cols.length ≤ bs.length)
    (hdef : ∀ col ∈ cols, ∀ (bs1 : List Rect) (id1 : Nat), id1 < bs1.length →
      ∃ bs2, renderSymmetricCell area bw bh grid offY vgap row col (bs1, id1) =
        some (bs2, sizeIncrement id1) ∧ bs2.length = bs1.length) :
    ∃ bs2, renderSymmetricColumns area bw bh grid offY vgap row cols (bs, id) =
      some (bs2, id + cols.length) ∧ bs2.length = bs.length := by
  induction cols generalizing bs id with
  | nil => exact ⟨bs, rfl, rfl⟩
  | cons col rest ih =>
    simp only [List.length_cons] at hfit
    obtain ⟨bs1, hcell, hlen1⟩ := hdef col (List.mem_cons_self _ _) bs id (by omega)
    rw [sizeIncrement_eq (by omega)] at hcell
    obtain ⟨bs2, hrest, hlen2⟩ := ih bs1 (id + 1) (by rw [hlen1]; exact hsm)
      (by rw [hlen1]; omega) (fun c hc => hdef c (List.mem_cons_of_mem _ hc))
    refine ⟨bs2, ?_, by rw [hlen2, hlen1]⟩
    simp only [renderSymmetricColumns, hcell, hrest, List.length_cons]
    have : id + 1 + rest.length = id + (rest.length + 1) := by omega
    rw [this]

theorem renderSymmetricRows_defined {area : Rect} {bw bh : Int} {grid : SymmetricGrid}
    {offY vgap : Int} (rows : List Int) (bs : List Rect) (id : Nat)
    (hsm : bs.length + 1 < sizeModulus)
    (hfit : id + rows.length * (loopRange grid.columns).length ≤ bs.length)
    (hdef : ∀ row ∈ rows, ∀ col ∈ loopRange grid.columns, ∀ (bs1 : List Rect) (id1 : Nat),
      id1 < bs1.length →
      ∃ bs2, renderSymmetricCell area bw bh grid offY vgap row col (bs1, id1) =
        some (bs2, sizeIncrement id1) ∧ bs2.length = bs1.length) :
    ∃ st, renderSymmetricRows area bw bh grid offY vgap rows (bs, id) = some st := by
  induction rows generalizing bs id with
  | nil => exact ⟨(bs, id), rfl⟩
  | cons row rest ih =>
    simp only [List.length_cons, Nat.succ_mul] at hfit
    obtain ⟨bs1, hcols, hlen1⟩ := renderSymmetricColumns_defined (loopRange grid.columns) bs id
      hsm (by omega) (hdef row (List.mem_cons_self _ _))
    obtain ⟨st, hrest⟩ := ih bs1 (id + (loopRange grid.columns).length)
      (by rw [hlen1]; exact hsm) (by rw [hlen1]; omega)
      (fun r hr => hdef r (List.mem_cons_of_mem _ hr))
    exact ⟨st, by simp only [renderSymmetricRows, hcols, hrest]⟩

end fheroes2

namespace fheroes2

/-- Counterexample to claim C20 as stated. Seven buttons of 100 by 25 pixels,
no single column requested, no extra height, an output of 640 by 480: the dialog
and the positions are computed without overflow, the active area ends at
`y = 393`, and the seventh button, placed at `y = 378`, ends at `y = 403`. And a
single button with the extra height 2147483647 makes the dialog height overflow,
so that there is no dialog at all. -/
theorem symmetric_buttons_outside :
    (∃ win positioned last,
      StandardWindow.symmetric 16 0 0 (List.replicate 7 ⟨0, 0, 100, 25⟩) false 0 640 480 =
        some win ∧
      win.renderSymmetricButtons (List.replicate 7 ⟨0, 0, 100, 25⟩) 0 false =
        some positioned ∧
      positioned[6]? = some last ∧
      win.activeArea.y + win.activeArea.height = 393 ∧ last.y + last.height = 403 ∧
      ¬ win.activeArea.includes last) ∧
    StandardWindow.symmetric 16 0 0 [⟨0, 0, 100, 25⟩] false 2147483647 640 480 = none := by
  refine ⟨⟨⟨⟨240, 86, 160, 307⟩, ⟨224, 70, 192, 339⟩, ⟨208, 70, 208, 355⟩⟩,
    [⟨265, 108, 100, 25⟩, ⟨265, 153, 100, 25⟩, ⟨265, 198, 100, 25⟩, ⟨265, 243, 100, 25⟩,
      ⟨265, 288, 100, 25⟩, ⟨265, 333, 100, 25⟩, ⟨265, 378, 100, 25⟩],
    ⟨265, 378, 100, 25⟩, ?_, ?_, rfl, rfl, rfl, ?_⟩, ?_⟩
  · decide
  · decide
  · decide
  · decide

/-- Claim C20, amended. For a non-empty group of at most 2147483647 buttons,
all of one width `bw ≥ 0` and one height `bh ≥ 0`, an extra height `≥ 0`, and a
single column requested or an even number of buttons or at most 5 buttons, and
for a dialog that `StandardWindow( buttons, isSingleColumn, extraHeight )` builds
without signed overflow: whenever the right and the bottom edge of its active
area are values of `int32_t`, `renderSymmetricButtons( buttons, extraHeight,
isSingleColumn )` runs without overflow; and whenever it runs without overflow,
every button is positioned, keeps its size, and lies entirely inside the active
area. -/
theorem symmetric_buttons_inside (border menuX menuY extra ow oh bw bh : Int)
    (buttons : List Rect) (single : Bool) (win : StandardWindow)
    (hne : buttons ≠ []) (hn : buttons.length ≤ 2147483647)
    (hsize : ∀ r ∈ buttons, r.width = bw ∧ r.height = bh)
    (hbw : 0 ≤ bw) (hbh : 0 ≤ bh) (hextra : 0 ≤ extra)
    (hcase : single = true ∨ buttons.length % 2 = 0 ∨ buttons.length ≤ 5)
    (hwin : StandardWindow.symmetric border menuX menuY buttons single extra ow oh =
      some win) :
    (win.activeArea.x + win.activeArea.width ≤ 2147483647 →
      win.activeArea.y + win.activeArea.height ≤ 2147483647 →
      ∃ positioned, win.renderSymmetricButtons buttons extra single = some positioned) ∧
    (∀ positioned, win.renderSymmetricButtons buttons extra single = some positioned →
      positioned.length = buttons.length ∧
      ∀ r ∈ positioned, win.activeArea.includes r ∧ r.width = bw ∧ r.height = bh) := by
  obtain ⟨first, rest, rfl⟩ := List.exists_cons_of_ne_nil hne
  obtain ⟨hfw, hfh⟩ := hsize first (List.mem_cons_self _ _)
  unfold StandardWindow.symmetric at hwin
  simp only [Option.bind_eq_bind, Option.bind_eq_some] at hwin
  obtain ⟨area, harea, w, hw, hif⟩ := hwin
  rw [if_neg (by simp)] at hif
  have hww : w = win := Option.some.inj hif
  subst hww
  have hact : w._activeArea = area := StandardWindow.withActiveArea_activeArea hw
  obtain ⟨grid, vgap, hgrid, hvgap, hrows1, hcols1, hcount, hox, hoy, hhg, hvg, hright, hbottom,
    hvfit⟩ := symmetric_grid_fits hn (by rw [hfh]; exact hbh) hextra hcase harea
  obtain ⟨hx, hy, hwd, hht⟩ := getSymmetricDialogActiveArea_range hn harea
  have hcnt : (loopRange grid.rows).length * (loopRange grid.columns).length =
      (first :: rest).length := length_loopRange_mul (by omega) (by omega) hcount
  have hsm : (first :: rest).length + 1 < sizeModulus := by
    unfold sizeModulus
    omega
  have hrowsnn : 0 ≤ (grid.rows - 1) * (first.height + vgap) :=
    mul_nonneg (by omega) (by rw [hfh]; omega)
  have hoff : addInt32 grid.offsetY extra = some (grid.offsetY + extra) :=
    addInt32_of_range (by omega) (by rw [hfh] at hbottom hrowsnn; omega)
  have hunfold : ∀ positioned, w.renderSymmetricButtons (first :: rest) extra single =
      some positioned ↔
      ∃ st, renderSymmetricRows area first.width first.height grid (grid.offsetY + extra) vgap
        (loopRange grid.rows) (first :: rest, 0) = some st ∧ st.1 = positioned := by
    intro positioned
    unfold StandardWindow.renderSymmetricButtons
    simp only [List.getElem?_cons_zero, Option.bind_eq_bind, Option.some_bind,
      castInt32_of_le hn, hact, hgrid, hvgap, hoff, Option.bind_eq_some, Option.some.injEq]
  constructor
  · intro hxe hye
    have hxe1 : area.x + area.width ≤ 2147483647 := by rw [← hact]; exact hxe
    have hye1 : area.y + area.height ≤ 2147483647 := by rw [← hact]; exact hye
    obtain ⟨st, hst⟩ := @renderSymmetricRows_defined area first.width first.height grid
      (grid.offsetY + extra) vgap
      (loopRange grid.rows) (first :: rest) 0 hsm (by rw [hcnt]; omega)
      (by
        intro row hrow col hcol bs1 id1 hid1
        obtain ⟨hr0, hr1⟩ := mem_loopRange hrow
        obtain ⟨hc0, hc1⟩ := mem_loopRange hcol
        exact renderSymmetricCell_defined area grid first.width first.height
          (grid.offsetY + extra) vgap row col bs1 id1 (by rw [hfw]; exact hbw)
          (by rw [hfh]; exact hbh) hox (by omega) hhg hvg hc0 hc1 hr0 hr1 hright hbottom hvfit
          hx hy hwd hht hxe1 hye1 hid1)
    exact ⟨st.1, (hunfold st.1).2 ⟨st, hst, rfl⟩⟩
  · intro positioned hrender
    obtain ⟨st, hrows, hpos⟩ := (hunfold positioned).1 hrender
    have hcells := cells_inside area grid first.width first.height (grid.offsetY + extra) vgap
      (by rw [hfw]; exact hbw) (by rw [hfh]; exact hbh) hox (by omega) hhg hvg hright hbottom
    obtain ⟨hid, hlen, hall⟩ := renderSymmetricRows_invariant (fun r => area.includes r)
      (first :: rest).length hsm _ (first :: rest) 0 st hrows hcells rfl
      (by
        intro i r hir
        have hmem : r ∈ first :: rest := List.mem_iff_getElem?.2 ⟨i, hir⟩
        obtain ⟨h1, h2⟩ := hsize r hmem
        exact ⟨by rw [h1, hfw], by rw [h2, hfh], fun hlt => absurd hlt (Nat.not_lt_zero _)⟩)
    rw [hcnt, Nat.zero_add] at hid
    rw [← hpos]
    refine ⟨hlen, ?_⟩
    intro r hr
    obtain ⟨i, hir⟩ := List.mem_iff_getElem?.1 hr
    obtain ⟨hlt, _⟩ := List.getElem?_eq_some.1 hir
    obtain ⟨h1, h2, h3⟩ := hall i r hir
    refine ⟨?_, by rw [h1, hfw], by rw [h2, hfh]⟩
    show w._activeArea.includes r
    rw [hact]
    exact h3 (by rw [hid, ← hlen]; exact hlt)

theorem symmetric_buttons_inside_witness :
    (List.replicate 6 (⟨0, 0, 100, 25⟩ : Rect)) ≠ [] ∧
      StandardWindow.symmetric 16 0 0 (List.replicate 6 ⟨0, 0, 100, 25⟩) false 7 640 480 =
        some ⟨⟨120, 165, 400, 149⟩, ⟨104, 149, 432, 181⟩, ⟨88, 149, 448, 197⟩⟩ ∧
      ∃ positioned,
        StandardWindow.renderSymmetricButtons
          ⟨⟨120, 165, 400, 149⟩, ⟨104, 149, 432, 181⟩, ⟨88, 149, 448, 197⟩⟩
          (List.replicate 6 ⟨0, 0, 100, 25⟩) 7 false = some positioned ∧
        positioned.length = (List.replicate 6 (⟨0, 0, 100, 25⟩ : Rect)).length ∧
        ∀ r ∈ positioned,
          (⟨120, 165, 400, 149⟩ : Rect).includes r ∧ r.width = 100 ∧ r.height = 25 :=
  ⟨by decide, by decide,
    ((symmetric_buttons_inside 16 0 0 7 640 480 100 25 (List.replicate 6 ⟨0, 0, 100, 25⟩) false
      ⟨⟨120, 165, 400, 149⟩, ⟨104, 149, 432, 181⟩, ⟨88, 149, 448, 197⟩⟩
      (by decide) (by decide) (by decide) (by decide) (by decide) (by decide) (by decide)
      (by decide)).1 (by decide) (by decide)).imp
      (fun positioned h =>
        ⟨h, (symmetric_buttons_inside 16 0 0 7 640 480 100 25
          (List.replicate 6 ⟨0, 0, 100, 25⟩) false
          ⟨⟨120, 165, 400, 149⟩, ⟨104, 149, 432, 181⟩, ⟨88, 149, 448, 197⟩⟩
          (by decide) (by decide) (by decide) (by decide) (by decide) (by decide) (by decide)
          (by decide)).2 positioned h⟩)⟩

end fheroes2

namespace fheroes2

/-! ## The grid of `renderSymmetricButtons` -/

/-- The body of the inner loop computes the position and then moves the button. -/
theorem renderSymmetricCell_eq_position (area : Rect) (bw bh : Int) (grid : SymmetricGrid)
    (offY vgap row col : Int) (bs : List Rect) (id : Nat) :
    renderSymmetricCell area bw bh grid offY vgap row col (bs, id) =
      (symmetricCellPosition area bw bh grid offY vgap row col).bind (fun p =>
        (setButtonPosition bs id p.1 p.2).bind (fun bs1 => some (bs1, sizeIncrement id))) := by
  unfold renderSymmetricCell symmetricCellPosition
  simp only [Option.bind_eq_bind, Option.bind_assoc, Option.some_bind]

theorem setButtonPosition_defined (bs : List Rect) (id : Nat) (x y : Int)
    (h : id < bs.length) :
    ∃ bs1, setButtonPosition bs id x y = some bs1 ∧ bs1.length = bs.length := by
  unfold setButtonPosition
  rw [List.getElem?_eq_getElem h]
  exact ⟨_, rfl, List.length_set _ _ _⟩

/-- When the position of a cell is defined, the body of the inner loop is
defined on every button of the group. -/
theorem renderSymmetricCell_of_position (area : Rect) (bw bh : Int) (grid : SymmetricGrid)
    (offY vgap row col : Int)
    (hpos : (symmetricCellPosition area bw bh grid offY vgap row col).isSome = true)
    (bs : List Rect) (id : Nat) (h : id < bs.length) :
    ∃ bs1, renderSymmetricCell area bw bh grid offY vgap row col (bs, id) =
      some (bs1, sizeIncrement id) ∧ bs1.length = bs.length := by
  obtain ⟨p, hp⟩ := Option.isSome_iff_exists.1 hpos
  obtain ⟨bs1, hset, hlen⟩ := setButtonPosition_defined bs id p.1 p.2 h
  refine ⟨bs1, ?_, hlen⟩
  rw [renderSymmetricCell_eq_position, hp, Option.some_bind, hset, Option.some_bind]

theorem mod_div_of_cell (rowN c0 C : Nat) (h : c0 < C) :
    (rowN * C + c0) % C = c0 ∧ (rowN * C + c0) / C = rowN := by
  constructor
  · rw [Nat.add_comm, Nat.add_mul_mod_self_right, Nat.mod_eq_of_lt h]
  · rw [Nat.add_comm, Nat.add_mul_div_right _ _ (by omega), Nat.div_eq_of_lt h, Nat.zero_add]

/-- The inner loop on the columns `c0, ..., c0 + len - 1` of row `rowN` extends a
row-major layout by `len` buttons. -/
theorem renderSymmetricColumns_layout {area : Rect} {bw bh : Int} {grid : SymmetricGrid}
    {offY vgap : Int} (bs0 : List Rect) (hsm : bs0.length + 1 < sizeModulus) (C rowN : Nat)
    (len c0 : Nat) (hC : c0 + len ≤ C) (bs : List Rect) (st : List Rect × Nat)
    (h : renderSymmetricColumns area bw bh grid offY vgap (rowN : Int)
      ((List.range' c0 len).map Int.ofNat) (bs, rowN * C + c0) = some st)
    (hinv : RowMajorLayout area bw bh grid offY vgap C bs0 (rowN * C + c0) bs) :
    st.2 = rowN * C + c0 + len ∧ RowMajorLayout area bw bh grid offY vgap C bs0 st.2 st.1 := by
  induction len generalizing c0 bs with
  | zero =>
    simp only [List.range'_zero, List.map_nil, renderSymmetricColumns, Option.some.injEq] at h
    subst h
    exact ⟨rfl, hinv⟩
  | succ len ih =>
    rw [List.range'_succ, List.map_cons] at h
    simp only [renderSymmetricColumns] at h
    cases hcell : renderSymmetricCell area bw bh grid offY vgap (rowN : Int) (Int.ofNat c0)
        (bs, rowN * C + c0) with
    | none =>
      rw [hcell] at h
      exact Option.noConfusion h
    | some st1 =>
      rw [hcell] at h
      simp only at h
      obtain ⟨r, hr, hst1⟩ := renderSymmetricCell_eq_some hcell
      have hid : rowN * C + c0 < bs.length := by
        by_contra hge
        rw [List.getElem?_eq_none (by omega)] at hr
        exact Option.noConfusion hr
      have hlen0 : bs.length = bs0.length := hinv.1
      rw [sizeIncrement_eq (by omega)] at hst1
      obtain ⟨hmod, hdiv⟩ := mod_div_of_cell rowN c0 C (by omega)
      have hr0 : bs0[rowN * C + c0]? = some r := by
        have := hinv.2 (rowN * C + c0)
        rw [if_neg (Nat.lt_irrefl _)] at this
        rw [← this]
        exact hr
      have hinv1 : RowMajorLayout area bw bh grid offY vgap C bs0 (rowN * C + (c0 + 1))
          (bs.set (rowN * C + c0)
            { r with
              x := area.x + Int.ofNat c0 * bw + grid.offsetX +
                Int.ofNat c0 * grid.horizontalGapBetweenButtons
              y := area.y + (rowN : Int) * (bh + vgap) + offY }) := by
        refine ⟨by rw [List.length_set]; exact hlen0, ?_⟩
        intro i
        by_cases hi : i = rowN * C + c0
        · subst hi
          rw [List.getElem?_set_self hid, if_pos (by omega), hr0]
          simp only [Option.map_some', rowMajorPlaced, hmod, hdiv]
          rfl
        · rw [List.getElem?_set_ne (Ne.symm hi), hinv.2 i]
          by_cases hlt : i < rowN * C + c0
          · rw [if_pos hlt, if_pos (by omega)]
          · rw [if_neg hlt, if_neg (by omega)]
      subst hst1
      have hnext : rowN * C + c0 + 1 = rowN * C + (c0 + 1) := by omega
      rw [hnext] at h
      obtain ⟨h1, h2⟩ := ih (c0 + 1) (by omega) _ h hinv1
      exact ⟨by rw [h1]; omega, h2⟩

/-- The outer loop on the rows `r0, ..., r0 + len - 1` extends a row-major layout
by `len` rows. -/
theorem renderSymmetricRows_layout {area : Rect} {bw bh : Int} {grid : SymmetricGrid}
    {offY vgap : Int} (bs0 : List Rect) (hsm : bs0.length + 1 < sizeModulus) (C : Nat)
    (hC : loopRange grid.columns = (List.range' 0 C).map Int.ofNat)
    (len r0 : Nat) (bs : List Rect) (st : List Rect × Nat)
    (h : renderSymmetricRows area bw bh grid offY vgap
      ((List.range' r0 len).map Int.ofNat) (bs, r0 * C) = some st)
    (hinv : RowMajorLayout area bw bh grid offY vgap C bs0 (r0 * C) bs) :
    st.2 = (r0 + len) * C ∧ RowMajorLayout area bw bh grid offY vgap C bs0 st.2 st.1 := by
  induction len generalizing r0 bs with
  | zero =>
    simp only [List.range'_zero, List.map_nil, renderSymmetricRows, Option.some.injEq] at h
    subst h
    exact ⟨rfl, hinv⟩
  | succ len ih =>
    rw [List.range'_succ, List.map_cons] at h
    simp only [renderSymmetricRows] at h
    rw [hC] at h
    cases hrow : renderSymmetricColumns area bw bh grid offY vgap (Int.ofNat r0)
        ((List.range' 0 C).map Int.ofNat) (bs, r0 * C) with
    | none =>
      rw [hrow] at h
      exact Option.noConfusion h
    | some st1 =>
      rw [hrow] at h
      simp only at h
      obtain ⟨bs1, id1⟩ := st1
      obtain ⟨h1, h2⟩ := renderSymmetricColumns_layout bs0 hsm C r0 C 0 (by omega) bs
        (bs1, id1) hrow hinv
      simp only at h1 h2
      have hid : id1 = (r0 + 1) * C := by
        rw [h1, Nat.add_mul, Nat.one_mul]
        omega
      subst hid
      obtain ⟨h3, h4⟩ := ih (r0 + 1) bs1 h h2
      exact ⟨by rw [h3]; congr 1; omega, h4⟩

/-- Two intervals of length `w` that start at different multiples of the stride
`w + g` with `g > 0` do not overlap. -/
theorem stride_disjoint (A s w g p q x1 x2 : Int) (hs : s = w + g) (hg : 0 < g)
    (hpq : p ≠ q) (h1 : x1 = A + p * s) (h2 : x2 = A + q * s) :
    ¬ (x1 < x2 + w ∧ x2 < x1 + w) := by
  rintro ⟨ha, hb⟩
  subst h1 h2 hs
  have hw : 0 < w := by linarith
  rcases lt_or_gt_of_ne hpq with h | h
  · have := mul_le_mul_of_nonneg_right (show p + 1 ≤ q by omega) (show 0 ≤ w + g by omega)
    nlinarith
  · have := mul_le_mul_of_nonneg_right (show q + 1 ≤ p by omega) (show 0 ≤ w + g by omega)
    nlinarith

end fheroes2

namespace fheroes2

/-- What the grid that `renderSymmetricButtons` chooses for `n ≥ 1` buttons looks
like: as many cells as buttons, at least one row and one column, positive gaps,
one column for an odd count or on request, one row for two buttons, two rows
otherwise. -/
theorem symmetricGrid_shape (n : Nat) (hn : 1 ≤ n) (single : Bool) :
    ∃ grid vgap, symmetricGrid (n : Int) single = grid ∧
      (if single = true then buttonsVerticalGap else 2 * buttonsVerticalGap) = vgap ∧
      grid.rows * grid.columns = (n : Int) ∧ 1 ≤ grid.rows ∧ 1 ≤ grid.columns ∧
      0 < grid.horizontalGapBetweenButtons ∧ 0 < vgap ∧
      (single = true ∨ n % 2 = 1 → grid.rows = (n : Int) ∧ grid.columns = 1) ∧
      (single = false → n = 2 → grid.rows = 1 ∧ grid.columns = 2) ∧
      (single = false → n % 2 = 0 → 4 ≤ n →
        grid.rows = 2 ∧ grid.columns = ((n / 2 : Nat) : Int)) := by
  obtain ⟨c1, c2, c3, c4⟩ := symmetricGrid_cases (n : Int) (Int.ofNat_nonneg _) single
  have hv : buttonsVerticalGap = 10 := rfl
  cases single with
  | true =>
    refine ⟨_, 10, c1 rfl, by simp [hv], by simp, by simp; omega, by simp, by simp,
      by norm_num, fun _ => ⟨rfl, rfl⟩, fun h => absurd h (by decide),
      fun h => absurd h (by decide)⟩
  | false =>
    by_cases hodd : (n : Int) % 2 = 1
    · refine ⟨_, 20, c2 rfl hodd, by simp [hv], by simp, by simp; omega, by simp, by simp,
        by norm_num, fun _ => ⟨rfl, rfl⟩, ?_, ?_⟩
      · intro _ h2
        omega
      · intro _ h2
        omega
    · have heven : (n : Int) % 2 = 0 := by omega
      by_cases htwo : (n : Int) = 2
      · refine ⟨_, 20, c3 rfl htwo, by simp [hv], by simp [htwo], by simp, by simp, by simp,
          by norm_num, ?_, fun _ _ => ⟨rfl, rfl⟩, ?_⟩
        · intro h
          rcases h with h | h
          · exact absurd h (by decide)
          · omega
        · intro _ _ h4
          omega
      · refine ⟨_, 20, c4 rfl heven htwo, by simp [hv], ?_, by simp, ?_, by simp,
          by norm_num, ?_, ?_, ?_⟩
        · show (2 : Int) * ((n : Int) / 2) = n
          omega
        · show (1 : Int) ≤ (n : Int) / 2
          omega
        · intro h
          rcases h with h | h
          · exact absurd h (by decide)
          · omega
        · intro _ h2
          omega
        · intro _ _ _
          refine ⟨rfl, ?_⟩
          show (n : Int) / 2 = ((n / 2 : Nat) : Int)
          omega

/-- Counterexample to claim C21 as stated. A single button of height 2147483647:
the row height `buttonsHeight + verticalGapOffset` overflows, no position is
set. Three buttons of which the second is larger than the first: all three are
positioned, and the second one overlaps the third. A count of 4294967298 buttons:
the cast to `int32_t` gives 2, the grid has 1 row and 2 columns. -/
theorem symmetric_layout_fails :
    sampleWindow.renderSymmetricButtons [⟨0, 0, 100, 2147483647⟩] 0 false = none ∧
    (∃ positioned second third,
      sampleWindow.renderSymmetricButtons
        [⟨0, 0, 10, 10⟩, ⟨0, 0, 100, 100⟩, ⟨0, 0, 10, 10⟩] 0 false = some positioned ∧
      positioned[1]? = some second ∧ positioned[2]? = some third ∧
      second.overlaps third) ∧
    (symmetricGrid (castInt32 4294967298) false).rows *
      (symmetricGrid (castInt32 4294967298) false).columns = 2 := by
  refine ⟨by decide, ⟨[⟨25, 22, 10, 10⟩, ⟨25, 52, 100, 100⟩, ⟨25, 82, 10, 10⟩],
    ⟨25, 52, 100, 100⟩, ⟨25, 82, 10, 10⟩, by decide, rfl, rfl, by decide⟩, by decide⟩

/-- Claim C21, amended. For a group of `n` buttons with `1 ≤ n ≤ 2147483647` and
both values of `isSingleColumn`: the grid that `renderSymmetricButtons` chooses
has `rows * columns = n`, a single column when `isSingleColumn` is set or `n` is
odd, otherwise one row of two for `n = 2` and two rows of `n / 2` for an even
`n ≥ 4`. When no position computation overflows `int32_t`, the function runs to
its end, so no index outside the group is used. When it runs to its end, the
loops have made `n` steps (`buttonId` ends at `n`), the
button with index `i` has been moved to the cell in row `i / columns` and
column `i % columns` and has kept its size; with one column all buttons have
the same `x`, with one row the same `y`; and when all buttons have the size of
the first one, no two of them overlap. -/
theorem symmetric_buttons_layout (win : StandardWindow) (buttons : List Rect) (offsetY : Int)
    (single : Bool) (first : Rect) (hfirst : buttons[0]? = some first)
    (hn : buttons.length ≤ 2147483647) :
    ∃ grid vgap, symmetricGrid (castInt32 buttons.length) single = grid ∧
      (if single = true then buttonsVerticalGap else 2 * buttonsVerticalGap) = vgap ∧
      grid.rows * grid.columns = (buttons.length : Int) ∧
      (single = true ∨ buttons.length % 2 = 1 →
        grid.rows = (buttons.length : Int) ∧ grid.columns = 1) ∧
      (single = false → buttons.length = 2 → grid.rows = 1 ∧ grid.columns = 2) ∧
      (single = false → buttons.length % 2 = 0 → 4 ≤ buttons.length →
        grid.rows = 2 ∧ grid.columns = ((buttons.length / 2 : Nat) : Int)) ∧
      (∀ offY, addInt32 grid.offsetY offsetY = some offY →
        (∀ row ∈ loopRange grid.rows, ∀ col ∈ loopRange grid.columns,
          (symmetricCellPosition win.activeArea first.width first.height grid offY vgap
            row col).isSome = true) →
        ∃ positioned, win.renderSymmetricButtons buttons offsetY single = some positioned) ∧
      ∀ positioned, win.renderSymmetricButtons buttons offsetY single = some positioned →
        renderSymmetricRows win.activeArea first.width first.height grid
          (grid.offsetY + offsetY) vgap (loopRange grid.rows) (buttons, 0) =
            some (positioned, buttons.length) ∧
        positioned.length = buttons.length ∧
        (∀ i r, buttons[i]? = some r →
          positioned[i]? = some (rowMajorPlaced win.activeArea first.width first.height grid
            (grid.offsetY + offsetY) vgap grid.columns.toNat i r)) ∧
        (grid.columns = 1 → ∀ a ∈ positioned, a.x = win.activeArea.x + grid.offsetX) ∧
        (grid.rows = 1 → ∀ a ∈ positioned,
          a.y = win.activeArea.y + (grid.offsetY + offsetY)) ∧
        ((∀ r ∈ buttons, r.width = first.width ∧ r.height = first.height) →
          ∀ (i j : Nat) (a b : Rect), i ≠ j → positioned[i]? = some a →
            positioned[j]? = some b →
            ¬ a.overlaps b) := by
  have hpos : 1 ≤ buttons.length := by
    cases buttons with
    | nil => exact Option.noConfusion hfirst
    | cons b rest => simp
  have hcast := castInt32_of_le hn
  obtain ⟨grid, vgap, hgrid, hvgap, hprod, hr1, hc1, hhg, hvg, hs1, hs2, hs3⟩ :=
    symmetricGrid_shape buttons.length hpos single
  have hsm : buttons.length + 1 < sizeModulus := by
    unfold sizeModulus
    omega
  have hcnt : (loopRange grid.rows).length * (loopRange grid.columns).length =
      buttons.length := length_loopRange_mul (by omega) (by omega) hprod
  have hR : loopRange grid.rows = (List.range' 0 grid.rows.toNat).map Int.ofNat := by
    unfold loopRange
    rw [List.range_eq_range']
  have hC : loopRange grid.columns = (List.range' 0 grid.columns.toNat).map Int.ofNat := by
    unfold loopRange
    rw [List.range_eq_range']
  have hRC : grid.rows.toNat * grid.columns.toNat = buttons.length := by
    have := hcnt
    rw [hR, hC] at this
    simpa using this
  have hCpos : 0 < grid.columns.toNat := by omega
  have hunfold : ∀ positioned, win.renderSymmetricButtons buttons offsetY single =
      some positioned ↔
      ∃ offY, addInt32 grid.offsetY offsetY = some offY ∧
        ∃ st, renderSymmetricRows win.activeArea first.width first.height grid offY vgap
          (loopRange grid.rows) (buttons, 0) = some st ∧ st.1 = positioned := by
    intro positioned
    unfold StandardWindow.renderSymmetricButtons StandardWindow.activeArea
    simp only [hfirst, Option.bind_eq_bind, Option.some_bind, hcast, hgrid, hvgap,
      Option.bind_eq_some, Option.some.injEq]
  refine ⟨grid, vgap, by rw [hcast]; exact hgrid, hvgap, hprod, hs1, hs2, hs3, ?_, ?_⟩
  · intro offY hoff hdef
    obtain ⟨st, hst⟩ := @renderSymmetricRows_defined win.activeArea first.width first.height
      grid offY vgap (loopRange grid.rows) buttons 0 hsm (by rw [hcnt]; omega)
      (by
        intro row hrow col hcol bs1 id1 hid1
        exact renderSymmetricCell_of_position _ _ _ _ _ _ _ _ (hdef row hrow col hcol)
          bs1 id1 hid1)
    exact ⟨st.1, (hunfold st.1).2 ⟨offY, hoff, st, hst, rfl⟩⟩
  · intro positioned hrender
    obtain ⟨offY, hoff, st, hrows, hst⟩ := (hunfold positioned).1 hrender
    have hoffY : offY = grid.offsetY + offsetY := addInt32_eq_some hoff
    subst hoffY
    have hrowsLoop := hrows
    rw [hR] at hrows
    have hinit : RowMajorLayout win.activeArea first.width first.height grid
        (grid.offsetY + offsetY) vgap grid.columns.toNat buttons (0 * grid.columns.toNat)
        buttons := by
      refine ⟨rfl, ?_⟩
      intro i
      rw [if_neg (by omega)]
    have hrows0 : renderSymmetricRows win.activeArea first.width first.height grid
        (grid.offsetY + offsetY) vgap ((List.range' 0 grid.rows.toNat).map Int.ofNat)
        (buttons, 0 * grid.columns.toNat) = some st := by
      rw [Nat.zero_mul]
      exact hrows
    obtain ⟨hdone, hlayout⟩ := renderSymmetricRows_layout buttons hsm grid.columns.toNat hC
      grid.rows.toNat 0 buttons st hrows0 hinit
    rw [Nat.zero_add, hRC] at hdone
    have hstate : st = (positioned, buttons.length) := Prod.ext hst hdone
    rw [hstate] at hlayout hrowsLoop
    simp only at hlayout
    obtain ⟨hlen, hall⟩ := hlayout
    have hplaced : ∀ i r, buttons[i]? = some r →
        positioned[i]? = some (rowMajorPlaced win.activeArea first.width first.height grid
          (grid.offsetY + offsetY) vgap grid.columns.toNat i r) := by
      intro i r hi
      have hlt : i < buttons.length := by
        by_contra hge
        rw [List.getElem?_eq_none (by omega)] at hi
        exact Option.noConfusion hi
      rw [hall i, if_pos hlt, hi]
      rfl
    have hback : ∀ i a, positioned[i]? = some a → ∃ r, buttons[i]? = some r ∧
        a = rowMajorPlaced win.activeArea first.width first.height grid
          (grid.offsetY + offsetY) vgap grid.columns.toNat i r := by
      intro i a hi
      have hlt : i < buttons.length := by
        by_contra hge
        rw [List.getElem?_eq_none (by omega)] at hi
        exact Option.noConfusion hi
      refine ⟨buttons[i], List.getElem?_eq_getElem hlt, ?_⟩
      have := hplaced i buttons[i] (List.getElem?_eq_getElem hlt)
      rw [hi] at this
      exact Option.some.inj this
    refine ⟨hrowsLoop, hlen, hplaced, ?_, ?_, ?_⟩
    · intro hone a ha
      obtain ⟨i, hi⟩ := List.mem_iff_getElem?.1 ha
      obtain ⟨r, _, rfl⟩ := hback i a hi
      simp [rowMajorPlaced, hone, Nat.mod_one]
    · intro hone a ha
      obtain ⟨i, hi⟩ := List.mem_iff_getElem?.1 ha
      obtain ⟨r, hr, rfl⟩ := hback i a hi
      have hlt : i < buttons.length := by
        by_contra hge
        rw [List.getElem?_eq_none (by omega)] at hr
        exact Option.noConfusion hr
      have hrows1 : grid.rows.toNat = 1 := by omega
      have hdiv : i / grid.columns.toNat = 0 := by
        apply Nat.div_eq_of_lt
        rw [hrows1, Nat.one_mul] at hRC
        omega
      simp [rowMajorPlaced, hdiv]
    · intro hsize i j a b hij hia hjb
      obtain ⟨ri, hri, rfl⟩ := hback i a hia
      obtain ⟨rj, hrj, rfl⟩ := hback j b hjb
      obtain ⟨hwi, hhi⟩ := hsize ri (List.getElem?_mem hri)
      obtain ⟨hwj, hhj⟩ := hsize rj (List.getElem?_mem hrj)
      have hsplit : i % grid.columns.toNat ≠ j % grid.columns.toNat ∨
          i / grid.columns.toNat ≠ j / grid.columns.toNat := by
        by_contra hcon
        push_neg at hcon
        have e1 := Nat.div_add_mod i grid.columns.toNat
        have e2 := Nat.div_add_mod j grid.columns.toNat
        rw [hcon.1, hcon.2] at e1
        exact hij (e1.symm.trans e2)
      unfold Rect.overlaps
      simp only [rowMajorPlaced, hwi, hwj, hhi, hhj]
      rintro ⟨hx1, hx2, hy1, hy2⟩
      rcases hsplit with hne | hne
      · exact stride_disjoint (win.activeArea.x + grid.offsetX)
          (first.width + grid.horizontalGapBetweenButtons) first.width
          grid.horizontalGapBetweenButtons ((i % grid.columns.toNat : Nat) : Int)
          ((j % grid.columns.toNat : Nat) : Int) _ _ rfl hhg
          (by exact_mod_cast hne) (by ring) (by ring) ⟨hx1, hx2⟩
      · exact stride_disjoint (win.activeArea.y + (grid.offsetY + offsetY))
          (first.height + vgap) first.height vgap ((i / grid.columns.toNat : Nat) : Int)
          ((j / grid.columns.toNat : Nat) : Int) _ _ rfl hvg
          (by exact_mod_cast hne) (by ring) (by ring) ⟨hy1, hy2⟩

theorem symmetric_buttons_layout_witness :
    sampleButtons[0]? = some ⟨0, 0, 100, 25⟩ ∧ sampleButtons.length ≤ 2147483647 ∧
    ∃ grid vgap, symmetricGrid (castInt32 sampleButtons.length) false = grid ∧
      (if false = true then buttonsVerticalGap else 2 * buttonsVerticalGap) = vgap ∧
      grid.rows * grid.columns = (sampleButtons.length : Int) ∧
      (false = true ∨ sampleButtons.length % 2 = 1 →
        grid.rows = (sampleButtons.length : Int) ∧ grid.columns = 1) ∧
      (false = false → sampleButtons.length = 2 → grid.rows = 1 ∧ grid.columns = 2) ∧
      (false = false → sampleButtons.length % 2 = 0 → 4 ≤ sampleButtons.length →
        grid.rows = 2 ∧ grid.columns = ((sampleButtons.length / 2 : Nat) : Int)) ∧
      (∀ offY, addInt32 grid.offsetY 0 = some offY →
        (∀ row ∈ loopRange grid.rows, ∀ col ∈ loopRange grid.columns,
          (symmetricCellPosition sampleWindow.activeArea (⟨0, 0, 100, 25⟩ : Rect).width
            (⟨0, 0, 100, 25⟩ : Rect).height grid offY vgap row col).isSome = true) →
        ∃ positioned, sampleWindow.renderSymmetricButtons sampleButtons 0 false =
          some positioned) ∧
      ∀ positioned, sampleWindow.renderSymmetricButtons sampleButtons 0 false =
          some positioned →
        renderSymmetricRows sampleWindow.activeArea (⟨0, 0, 100, 25⟩ : Rect).width
          (⟨0, 0, 100, 25⟩ : Rect).height grid (grid.offsetY + 0) vgap (loopRange grid.rows)
          (sampleButtons, 0) = some (positioned, sampleButtons.length) ∧
        positioned.length = sampleButtons.length ∧
        (∀ i r, sampleButtons[i]? = some r →
          positioned[i]? = some (rowMajorPlaced sampleWindow.activeArea
            (⟨0, 0, 100, 25⟩ : Rect).width (⟨0, 0, 100, 25⟩ : Rect).height grid
            (grid.offsetY + 0) vgap grid.columns.toNat i r)) ∧
        (grid.columns = 1 → ∀ a ∈ positioned, a.x = sampleWindow.activeArea.x + grid.offsetX) ∧
        (grid.rows = 1 → ∀ a ∈ positioned,
          a.y = sampleWindow.activeArea.y + (grid.offsetY + 0)) ∧
        ((∀ r ∈ sampleButtons, r.width = (⟨0, 0, 100, 25⟩ : Rect).width ∧
            r.height = (⟨0, 0, 100, 25⟩ : Rect).height) →
          ∀ (i j : Nat) (a b : Rect), i ≠ j → positioned[i]? = some a →
            positioned[j]? = some b → ¬ a.overlaps b) :=
  ⟨rfl, by decide,
    symmetric_buttons_layout sampleWindow sampleButtons 0 false ⟨0, 0, 100, 25⟩ rfl
      (by decide)⟩

/-- The positions of the four buttons of the sample group: two rows of two. -/
theorem renderSymmetricButtons_sample :
    sampleWindow.renderSymmetricButtons sampleButtons 0 false =
      some [⟨30, 15, 100, 25⟩, ⟨150, 15, 100, 25⟩, ⟨30, 60, 100, 25⟩, ⟨150, 60, 100, 25⟩] := by
  decide

end fheroes2

namespace fheroes2

/-! ## Language abbreviations -/

theorem length_StringLower (s : String) : (StringLower s).length = s.length := by
  show (s.data.map Char.toLower).length = s.data.length
  rw [List.length_map]

/-- Claim C22. `getLanguageFromAbbreviation` returns English for the empty string
and for every string whose lower-cased form is not a key of `languageName`; for
a string that is not empty and whose lower-cased form is a key it returns the
entry of that key; two strings with the same lower-cased form give the same
language; `"PL"`, `"Pl"`, `"pl"`, `"polish"` and `"POLISH"` all give Polish, and
the unsupported `"en"` and `"Klingon"` give English. -/
theorem language_from_abbreviation (abbreviation : String) :
    getLanguageFromAbbreviation "" = SupportedLanguage.English ∧
    (languageName.lookup (StringLower abbreviation) = none →
      getLanguageFromAbbreviation abbreviation = SupportedLanguage.English) ∧
    (∀ language, abbreviation ≠ "" →
      languageName.lookup (StringLower abbreviation) = some language →
      getLanguageFromAbbreviation abbreviation = language) ∧
    (∀ other : String, StringLower other = StringLower abbreviation →
      getLanguageFromAbbreviation other = getLanguageFromAbbreviation abbreviation) ∧
    getLanguageFromAbbreviation "PL" = SupportedLanguage.Polish ∧
    getLanguageFromAbbreviation "Pl" = SupportedLanguage.Polish ∧
    getLanguageFromAbbreviation "pl" = SupportedLanguage.Polish ∧
    getLanguageFromAbbreviation "polish" = SupportedLanguage.Polish ∧
    getLanguageFromAbbreviation "POLISH" = SupportedLanguage.Polish ∧
    getLanguageFromAbbreviation "en" = SupportedLanguage.English ∧
    getLanguageFromAbbreviation "Klingon" = SupportedLanguage.English := by
  refine ⟨by decide, ?_, ?_, ?_, by decide, by decide, by decide, by decide, by decide,
    by decide, by decide⟩
  · intro hnone
    unfold getLanguageFromAbbreviation
    split
    · rfl
    · simp only [hnone]
  · intro language hne hsome
    have hlen : ¬ abbreviation.length = 0 := by
      intro h0
      apply hne
      have hd : abbreviation.data = [] := List.length_eq_zero.1 h0
      exact String.ext hd
    unfold getLanguageFromAbbreviation
    rw [if_neg hlen]
    simp only [hsome]
  · intro other hsame
    have hlen : other.length = abbreviation.length := by
      rw [← length_StringLower other, ← length_StringLower abbreviation, hsame]
    unfold getLanguageFromAbbreviation
    rw [hlen, hsame]

end fheroes2

namespace fheroes2

/-! ## The list of supported languages -/

theorem getCodePage_eq_ASCII {language : SupportedLanguage}
    (h : getCodePage language = CodePage.ASCII) : language = SupportedLanguage.English := by
  cases language <;> first | rfl | exact CodePage.noConfusion h

/-- The vector under a key after the first loop of `getSupportedLanguages`: what
was there before, followed by the visited languages that pass the test and
belong to the key, in the order of the visit. -/
theorem foldl_emplaceLanguage (P : SupportedLanguage → Prop) [DecidablePred P]
    (languages : List SupportedLanguage) (groups : CodePage → List SupportedLanguage)
    (key : CodePage) :
    (languages.foldl
      (fun groups language =>
        if P language then emplaceLanguage groups (getCodePage language) language
        else groups) groups) key =
      groups key ++ languages.filter (fun l => decide (P l ∧ key = getCodePage l)) := by
  induction languages generalizing groups with
  | nil => simp
  | cons a rest ih =>
    rw [List.foldl_cons, ih]
    by_cases hP : P a
    · rw [if_pos hP]
      by_cases hk : key = getCodePage a
      · simp [List.filter_cons, hP, hk, emplaceLanguage]
      · simp [List.filter_cons, hk, emplaceLanguage]
    · rw [if_neg hP]
      simp [List.filter_cons, hP]

/-- The second loop nest of `getSupportedLanguages` visits the vectors one after
the other. -/
theorem foldl_groups {S : Type} (conf : SettingsRuntime S)
    (groups : CodePage → List SupportedLanguage) (pages : List CodePage)
    (state : List SupportedLanguage × S) :
    pages.foldl (fun state codePage => (groups codePage).foldl (tryLanguage conf) state)
      state = (pages.flatMap groups).foldl (tryLanguage conf) state := by
  induction pages generalizing state with
  | nil => rfl
  | cons p rest ih => rw [List.foldl_cons, ih, List.flatMap_cons, List.foldl_append]

/-- The second loop nest appends a selection of the visited languages, in the
order of the visit. -/
theorem foldl_tryLanguage {S : Type} (conf : SettingsRuntime S)
    (languages : List SupportedLanguage) (state : List SupportedLanguage × S) :
    ∃ chosen, chosen.Sublist languages ∧
      (languages.foldl (tryLanguage conf) state).1 = state.1 ++ chosen := by
  induction languages generalizing state with
  | nil => exact ⟨[], List.Sublist.refl _, by simp⟩
  | cons a rest ih =>
    obtain ⟨chosen, hsub, heq⟩ := ih (tryLanguage conf state a)
    rw [List.foldl_cons, heq]
    unfold tryLanguage
    by_cases hset : (conf.setGameLanguage (getLanguageAbbreviation a) state.2).1 = true
    · refine ⟨a :: chosen, hsub.cons₂ a, ?_⟩
      simp only [hset, if_true, List.append_assoc, List.singleton_append]
    · refine ⟨chosen, hsub.cons a, ?_⟩
      simp only [hset, if_false]
      rfl

/-- Vectors that hold only languages of their key, visited key after key, give a
list in which the keys come in the order of the visit. -/
theorem pairwise_flatMap_groups (groups : CodePage → List SupportedLanguage)
    (hkey : ∀ key, ∀ l ∈ groups key, getCodePage l = key) (pages : List CodePage)
    (hnodup : pages.Nodup) :
    (pages.flatMap groups).Pairwise
      (fun a b => pages.indexOf (getCodePage a) ≤ pages.indexOf (getCodePage b)) := by
  induction pages with
  | nil => exact List.Pairwise.nil
  | cons p rest ih =>
    obtain ⟨hp, hrest⟩ := List.nodup_cons.1 hnodup
    rw [List.flatMap_cons, List.pairwise_append]
    refine ⟨?_, ?_, ?_⟩
    · apply List.pairwise_of_forall_mem_list
      intro a ha b hb
      rw [hkey p a ha, hkey p b hb]
    · refine List.Pairwise.imp_of_mem ?_ (ih hrest)
      intro a b ha hb hle
      obtain ⟨ka, hka, haa⟩ := List.mem_flatMap.1 ha
      obtain ⟨kb, hkb, hbb⟩ := List.mem_flatMap.1 hb
      have hane : p ≠ getCodePage a := by
        rw [hkey ka a haa]
        intro h
        exact hp (h ▸ hka)
      have hbne : p ≠ getCodePage b := by
        rw [hkey kb b hbb]
        intro h
        exact hp (h ▸ hkb)
      rw [List.indexOf_cons_ne _ hane, List.indexOf_cons_ne _ hbne]
      exact Nat.succ_le_succ hle
    · intro a ha b _
      rw [hkey p a ha, List.indexOf_cons_self]
      exact Nat.zero_le _

/-- Languages of one key are at neighbouring positions when the keys come in the
order of a list without repetition. -/
theorem grouped_of_pairwise (pages : List CodePage) (hall : ∀ key, key ∈ pages)
    (l : List SupportedLanguage)
    (hp : l.Pairwise
      (fun a b => pages.indexOf (getCodePage a) ≤ pages.indexOf (getCodePage b)))
    (i j k : Nat) (a b c : SupportedLanguage) (hij : i < j) (hjk : j < k)
    (ha : l[i]? = some a) (hb : l[j]? = some b) (hc : l[k]? = some c)
    (hac : getCodePage a = getCodePage c) : getCodePage b = getCodePage a := by
  obtain ⟨hi, rfl⟩ := List.getElem?_eq_some.1 ha
  obtain ⟨hj, rfl⟩ := List.getElem?_eq_some.1 hb
  obtain ⟨hk, rfl⟩ := List.getElem?_eq_some.1 hc
  have h1 := List.pairwise_iff_getElem.1 hp i j hi hj hij
  have h2 := List.pairwise_iff_getElem.1 hp j k hj hk hjk
  rw [← hac] at h2
  exact (List.indexOf_inj (hall _) (hall _)).1 (le_antisymm h2 h1)

/-- A concrete run: Russian resources, every alphabet supported, translations of
Polish, Russian, German and Czech present, German selected. -/
theorem getSupportedLanguages_sample :
    getSupportedLanguages sampleLanguageValue sampleCodePageValue SupportedLanguage.Russian
        (fun _ => true) sampleSettings "de" =
      ([SupportedLanguage.English, SupportedLanguage.Polish, SupportedLanguage.Czech,
        SupportedLanguage.Russian, SupportedLanguage.German], "de") := by
  decide

/-- Claim C23. For every resource language, every alphabet-support predicate,
every behaviour of `Settings::setGameLanguage` and every assignment of values to
the enumerators, the list that `getSupportedLanguages` returns starts with
English, contains no language twice, contains English at index 0 only, and a
language between two returned languages of one code page has that code page. -/
theorem supported_languages_grouped {S : Type} (languageValue : SupportedLanguage → Nat)
    (codePageValue : CodePage → Nat) (resourceLanguage : SupportedLanguage)
    (isAlphabetSupported : SupportedLanguage → Bool) (conf : SettingsRuntime S)
    (settings : S) :
    ∃ result, (getSupportedLanguages languageValue codePageValue resourceLanguage
        isAlphabetSupported conf settings).1 = result ∧
      result[0]? = some SupportedLanguage.English ∧ result.Nodup ∧
      (∀ i, result[i]? = some SupportedLanguage.English → i = 0) ∧
      ∀ (i j k : Nat) (a b c : SupportedLanguage), i < j → j < k →
        result[i]? = some a → result[j]? = some b → result[k]? = some c →
        getCodePage a = getCodePage c → getCodePage b = getCodePage a := by
  -- the two iteration orders
  have hlperm : (iterationOrder languageValue possibleLanguages).Perm possibleLanguages :=
    List.perm_insertionSort _ _
  have hcperm : (iterationOrder codePageValue allCodePages).Perm allCodePages :=
    List.perm_insertionSort _ _
  have hlnodup : (iterationOrder languageValue possibleLanguages).Nodup :=
    hlperm.nodup_iff.2 (by decide)
  have hlen : SupportedLanguage.English ∉ iterationOrder languageValue possibleLanguages := by
    intro h
    exact absurd (hlperm.mem_iff.1 h) (by decide)
  have hcnodup : (iterationOrder codePageValue allCodePages).Nodup :=
    hcperm.nodup_iff.2 (by decide)
  have hcall : ∀ key, key ∈ iterationOrder codePageValue allCodePages := by
    intro key
    apply hcperm.mem_iff.2
    cases key <;> decide
  -- the map after the first loop
  obtain ⟨groups, hgroups, hkey, heng, hgnodup⟩ :
      ∃ groups : CodePage → List SupportedLanguage,
        (iterationOrder languageValue possibleLanguages).foldl
          (fun groups language =>
            if language ≠ resourceLanguage ∧ isAlphabetSupported language = true then
              emplaceLanguage groups (getCodePage language) language
            else groups)
          (if resourceLanguage ≠ SupportedLanguage.English then
            emplaceLanguage (fun _ => []) (getCodePage resourceLanguage) resourceLanguage
          else fun _ => []) = groups ∧
        (∀ key, ∀ l ∈ groups key, getCodePage l = key) ∧
        (∀ key, ∀ l ∈ groups key, l ≠ SupportedLanguage.English) ∧
        ∀ key, (groups key).Nodup := by
    refine ⟨_, rfl, ?_, ?_, ?_⟩
    · intro key l hl
      rw [foldl_emplaceLanguage] at hl
      rcases List.mem_append.1 hl with h0 | h1
      · by_cases hres : resourceLanguage ≠ SupportedLanguage.English
        · rw [if_pos hres] at h0
          unfold emplaceLanguage at h0
          by_cases hk : key = getCodePage resourceLanguage
          · rw [if_pos hk] at h0
            simp only [List.nil_append, List.mem_singleton] at h0
            rw [h0, hk]
          · rw [if_neg hk] at h0
            exact absurd h0 (List.not_mem_nil _)
        · rw [if_neg hres] at h0
          exact absurd h0 (List.not_mem_nil _)
      · have := (List.mem_filter.1 h1).2
        simp only [decide_eq_true_eq] at this
        exact this.2.symm
    · intro key l hl
      rw [foldl_emplaceLanguage] at hl
      rcases List.mem_append.1 hl with h0 | h1
      · by_cases hres : resourceLanguage ≠ SupportedLanguage.English
        · rw [if_pos hres] at h0
          unfold emplaceLanguage at h0
          by_cases hk : key = getCodePage resourceLanguage
          · rw [if_pos hk] at h0
            simp only [List.nil_append, List.mem_singleton] at h0
            rw [h0]
            exact hres
          · rw [if_neg hk] at h0
            exact absurd h0 (List.not_mem_nil _)
        · rw [if_neg hres] at h0
          exact absurd h0 (List.not_mem_nil _)
      · intro heq
        rw [heq] at h1
        exact hlen (List.mem_filter.1 h1).1
    · intro key
      rw [foldl_emplaceLanguage]
      apply List.Nodup.append
      · by_cases hres : resourceLanguage ≠ SupportedLanguage.English
        · rw [if_pos hres]
          unfold emplaceLanguage
          by_cases hk : key = getCodePage resourceLanguage
          · rw [if_pos hk]
            exact List.nodup_singleton _
          · rw [if_neg hk]
            exact List.nodup_nil
        · rw [if_neg hres]
          exact List.nodup_nil
      · exact hlnodup.filter _
      · intro l h0 h1
        have hne := (List.mem_filter.1 h1).2
        simp only [decide_eq_true_eq] at hne
        by_cases hres : resourceLanguage ≠ SupportedLanguage.English
        · rw [if_pos hres] at h0
          unfold emplaceLanguage at h0
          by_cases hk : key = getCodePage resourceLanguage
          · rw [if_pos hk] at h0
            simp only [List.nil_append, List.mem_singleton] at h0
            exact hne.1.1 h0
          · rw [if_neg hk] at h0
            exact absurd h0 (List.not_mem_nil _)
        · rw [if_neg hres] at h0
          exact absurd h0 (List.not_mem_nil _)
  -- the languages the second loop nest visits
  have hvnodup : ((iterationOrder codePageValue allCodePages).flatMap groups).Nodup := by
    rw [List.nodup_flatMap]
    refine ⟨fun key _ => hgnodup key, ?_⟩
    refine List.Pairwise.imp ?_ hcnodup
    intro p q hpq l hlp hlq
    exact hpq ((hkey p l hlp).symm.trans (hkey q l hlq))
  have hveng : ∀ l ∈ (iterationOrder codePageValue allCodePages).flatMap groups,
      l ≠ SupportedLanguage.English := by
    intro l hl
    obtain ⟨key, _, hlk⟩ := List.mem_flatMap.1 hl
    exact heng key l hlk
  have hvpair := pairwise_flatMap_groups groups hkey _ hcnodup
  obtain ⟨chosen, hsub, hchosen⟩ := foldl_tryLanguage conf
    ((iterationOrder codePageValue allCodePages).flatMap groups)
    ([SupportedLanguage.English], settings)
  have hresult : (getSupportedLanguages languageValue codePageValue resourceLanguage
      isAlphabetSupported conf settings).1 = SupportedLanguage.English :: chosen := by
    unfold getSupportedLanguages
    simp only [hgroups]
    rw [foldl_groups, hchosen]
    rfl
  have hceng : SupportedLanguage.English ∉ chosen := fun h =>
    hveng _ (hsub.subset h) rfl
  refine ⟨_, hresult, by simp, List.nodup_cons.2 ⟨hceng, hvnodup.sublist hsub⟩, ?_, ?_⟩
  · intro i hi
    cases i with
    | zero => rfl
    | succ n =>
      rw [List.getElem?_cons_succ] at hi
      exact absurd (List.getElem?_mem hi) hceng
  · intro i j k a b c hij hjk ha hb hc hac
    obtain ⟨j1, rfl⟩ : ∃ j1, j = j1 + 1 := ⟨j - 1, by omega⟩
    obtain ⟨k1, rfl⟩ : ∃ k1, k = k1 + 1 := ⟨k - 1, by omega⟩
    rw [List.getElem?_cons_succ] at hb hc
    cases i with
    | zero =>
      simp only [List.getElem?_cons_zero, Option.some.injEq] at ha
      subst ha
      have hcE := getCodePage_eq_ASCII hac.symm
      rw [hcE] at hc
      exact absurd (List.getElem?_mem hc) hceng
    | succ i1 =>
      rw [List.getElem?_cons_succ] at ha
      exact grouped_of_pairwise _ hcall chosen (hvpair.sublist hsub) i1 j1 k1 a b c
        (by omega) (by omega) ha hb hc hac

end fheroes2

namespace fheroes2

/-! ## Abbreviations round-trip -/

/-- Claim C24. For each of the 22 languages `L`,
`getLanguageFromAbbreviation( getLanguageAbbreviation( L ) )` is `L` (for English
through the empty abbreviation), and therefore `getLanguageAbbreviation` gives
different abbreviations to different languages. -/
theorem abbreviation_round_trip :
    (∀ language : SupportedLanguage,
      getLanguageFromAbbreviation (getLanguageAbbreviation language) = language) ∧
    getLanguageAbbreviation SupportedLanguage.English = "" ∧
    Function.Injective getLanguageAbbreviation := by
  have hround : ∀ language : SupportedLanguage,
      getLanguageFromAbbreviation (getLanguageAbbreviation language) = language := by
    intro language
    cases language <;> decide
  refine ⟨hround, rfl, ?_⟩
  intro a b hab
  rw [← hround a, ← hround b, hab]

end fheroes2

namespace fheroes2

open HistoryManager

variable {α κ W : Type}

/-! ## `undo` and `redo` undo each other on the history -/

/-- Claim C25. In a reachable state in which undo is available, `undo()` followed
by `redo()` both run to their end, call `undo` and then `redo` on one and the
same action (the one before the cursor) and on no other, and restore the manager
(sequence, cursor and observer slot); in a reachable state in which redo is
available, `redo()` followed by `undo()` likewise call `redo` and then `undo` on
the action at the cursor and restore the manager. -/
theorem undo_redo_restore (rt : Runtime α κ W) (m : HistoryManager α κ) (e : Exec α κ W)
    (h : Reachable rt m) :
    (m.isUndoAvailable = true →
      ∃ a b1 m1 e1 b2 e2, m._actions[m._lastActionId - 1]? = some (some a) ∧
        m.undo rt e = some (b1, m1, e1) ∧ m1.redo rt e1 = some (b2, m, e2) ∧
        m1._actions = m._actions ∧ m1._lastActionId = m._lastActionId - 1 ∧
        ∃ t, e2.trace = e.trace ++ t ∧ actionCalls t = [Event.undo a, Event.redo a]) ∧
    (m.isRedoAvailable = true →
      ∃ a b1 m1 e1 b2 e2, m._actions[m._lastActionId]? = some (some a) ∧
        m.redo rt e = some (b1, m1, e1) ∧ m1.undo rt e1 = some (b2, m, e2) ∧
        m1._actions = m._actions ∧ m1._lastActionId = m._lastActionId + 1 ∧
        ∃ t, e2.trace = e.trace ++ t ∧ actionCalls t = [Event.redo a, Event.undo a]) := by
  have hinv := Invariant.of_reachable rt h
  have hb := maxActions_lt_sizeModulus
  have h1 := hinv.1
  have h2 := hinv.2.1
  obtain ⟨s, c, cb⟩ := m
  simp only at h1 h2
  constructor
  · intro hu
    have h0 : 0 < c := by simpa [isUndoAvailable] using hu
    obtain ⟨a, ha⟩ := hinv.lookup (i := c - 1) (by show c - 1 < s.length; omega)
    have ha1 : s[c - 1]? = some (some a) := ha
    have hu1 := undo_of_available rt ⟨s, c, cb⟩ e a h0 (by show c ≤ sizeModulus; omega) ha
    have hr1 := redo_of_available rt ⟨s, c - 1, cb⟩
      (notify rt ⟨s, c - 1, cb⟩ ⟨(rt.undo a e.world).2, e.trace ++ [Event.undo a]⟩) a
      (by show c - 1 + 1 < sizeModulus; omega) ha1
    have hc : c - 1 + 1 = c := by omega
    simp only [hc] at hr1
    refine ⟨a, _, _, _, _, _, ha, hu1, hr1, rfl, rfl, ?_⟩
    refine ⟨[Event.undo a] ++ (match cb with
        | none => []
        | some k => [Event.stateCallback k (isUndoAvailable ⟨s, c - 1, cb⟩)
            (isRedoAvailable ⟨s, c - 1, cb⟩)]) ++ [Event.redo a] ++ (match cb with
        | none => []
        | some k => [Event.stateCallback k (isUndoAvailable ⟨s, c, cb⟩)
            (isRedoAvailable ⟨s, c, cb⟩)]), ?_, ?_⟩
    · cases cb <;> simp [notify, fire]
    · cases cb <;> simp [actionCalls]
  · intro hr
    have h0 : c < s.length := by simpa [isRedoAvailable] using hr
    obtain ⟨a, ha⟩ := hinv.lookup (i := c) h0
    have ha1 : s[c]? = some (some a) := ha
    have hr1 := redo_of_available rt ⟨s, c, cb⟩ e a (by show c + 1 < sizeModulus; omega) ha
    have hu1 := undo_of_available rt ⟨s, c + 1, cb⟩
      (notify rt ⟨s, c + 1, cb⟩ ⟨(rt.redo a e.world).2, e.trace ++ [Event.redo a]⟩) a
      (by show 0 < c + 1; omega) (by show c + 1 ≤ sizeModulus; omega) ha1
    have hc : c + 1 - 1 = c := by omega
    simp only [hc] at hu1
    refine ⟨a, _, _, _, _, _, ha, hr1, hu1, rfl, rfl, ?_⟩
    refine ⟨[Event.redo a] ++ (match cb with
        | none => []
        | some k => [Event.stateCallback k (isUndoAvailable ⟨s, c + 1, cb⟩)
            (isRedoAvailable ⟨s, c + 1, cb⟩)]) ++ [Event.undo a] ++ (match cb with
        | none => []
        | some k => [Event.stateCallback k (isUndoAvailable ⟨s, c, cb⟩)
            (isRedoAvailable ⟨s, c, cb⟩)]), ?_, ?_⟩
    · cases cb <;> simp [notify, fire]
    · cases cb <;> simp [actionCalls]

theorem undo_redo_restore_witness :
    Reachable sampleRuntime sampleManager ∧ sampleManager.isUndoAvailable = true ∧
      sampleManager.isRedoAvailable = true ∧
      (∃ a b1 m1 e1 b2 e2,
        sampleManager._actions[sampleManager._lastActionId - 1]? = some (some a) ∧
        sampleManager.undo sampleRuntime sampleExec = some (b1, m1, e1) ∧
        m1.redo sampleRuntime e1 = some (b2, sampleManager, e2) ∧
        m1._actions = sampleManager._actions ∧
        m1._lastActionId = sampleManager._lastActionId - 1 ∧
        ∃ t, e2.trace = sampleExec.trace ++ t ∧
          actionCalls t = [Event.undo a, Event.redo a]) ∧
      (∃ a b1 m1 e1 b2 e2,
        sampleManager._actions[sampleManager._lastActionId]? = some (some a) ∧
        sampleManager.redo sampleRuntime sampleExec = some (b1, m1, e1) ∧
        m1.undo sampleRuntime e1 = some (b2, sampleManager, e2) ∧
        m1._actions = sampleManager._actions ∧
        m1._lastActionId = sampleManager._lastActionId + 1 ∧
        ∃ t, e2.trace = sampleExec.trace ++ t ∧
          actionCalls t = [Event.redo a, Event.undo a]) :=
  ⟨sampleManager_reachable, by decide, by decide,
    (undo_redo_restore sampleRuntime sampleManager sampleExec sampleManager_reachable).1
      (by decide),
    (undo_redo_restore sampleRuntime sampleManager sampleExec sampleManager_reachable).2
      (by decide)⟩

end fheroes2

namespace fheroes2

namespace HistoryManager

variable {α κ W : Type}

/-! ## Replaying a history -/

theorem actionCalls_append (t1 t2 : List (Event α κ)) :
    actionCalls (t1 ++ t2) = actionCalls t1 ++ actionCalls t2 := by
  induction t1 with
  | nil => rfl
  | cons x t ih =>
    cases x with
    | undo a => simp [actionCalls, ih]
    | redo a => simp [actionCalls, ih]
    | stateCallback cb u r => simpa [actionCalls] using ih

/-- What `notify` appends to the trace holds no call of an action. -/
theorem notify_trace (rt : Runtime α κ W) (m : HistoryManager α κ) (e : Exec α κ W) :
    ∃ t, (m.notify rt e).trace = e.trace ++ t ∧ actionCalls t = [] := by
  unfold notify
  refine ⟨_, fire_trace rt m _ _ e, ?_⟩
  cases m._stateCallback <;> simp [actionCalls]

/-- Adding any number of actions to a history without a redo tail keeps the
newest `bound` pointers, in order. -/
theorem runWith_adds_window {bound : Nat} (hb : bound + 1 < sizeModulus) (rt : Runtime α κ W)
    (as : List α) (s : List (Option α)) (cb : Option κ) (e : Exec α κ W)
    (h : s.length ≤ bound) :
    ∃ rs e1, runWith bound rt (as.map Call.add) ⟨s, s.length, cb⟩ e =
      some (rs, ⟨(s ++ as.map some).drop (s.length + as.length - bound),
        min (s.length + as.length) bound, cb⟩, e1) := by
  induction as generalizing s e with
  | nil =>
    refine ⟨[], e, ?_⟩
    have h1 : s.length + ([] : List α).length - bound = 0 := by
      simp only [List.length_nil]
      omega
    have h2 : min (s.length + ([] : List α).length) bound = s.length := by
      simp only [List.length_nil]
      omega
    rw [h1, h2]
    simp [runWith]
  | cons a as ih =>
    by_cases hlt : s.length < bound
    · have hadd := addWith_of_lt hb rt (⟨s, s.length, cb⟩ : HistoryManager α κ) (some a) e
        (le_refl _) hlt
      simp only [List.take_length] at hadd
      obtain ⟨rs, e1, hrun⟩ := ih (s ++ [some a])
        (notify rt ⟨s ++ [some a], s.length + 1, cb⟩ e)
        (by simp only [List.length_append, List.length_singleton]; omega)
      simp only [List.length_append, List.length_singleton] at hrun
      refine ⟨none :: rs, e1, ?_⟩
      simp only [List.map_cons, runWith, callWith, hadd, hrun, List.length_cons]
      simp only [List.append_assoc, List.singleton_append]
      have : s.length + 1 + as.length = s.length + (as.length + 1) := by omega
      rw [this]
    · have hfull : s.length = bound := by omega
      have hadd := addWith_of_full hb rt (⟨s, s.length, cb⟩ : HistoryManager α κ) (some a) e
        rfl hfull
      have hlen : ((s ++ [some a]).tail).length = bound := by
        simp only [List.length_tail, List.length_append, List.length_singleton]
        omega
      obtain ⟨rs, e1, hrun⟩ := ih ((s ++ [some a]).tail)
        (notify rt ⟨(s ++ [some a]).tail, bound, cb⟩ e) (le_of_eq hlen)
      rw [hlen] at hrun
      refine ⟨none :: rs, e1, ?_⟩
      simp only [List.map_cons, runWith, callWith, hadd, hrun, List.length_cons]
      have hne : s ++ [some a] ≠ [] := by simp
      have hl : (s ++ [some a]).tail ++ List.map some as =
          List.drop 1 (s ++ some a :: List.map some as) := by
        rw [← List.tail_append_of_ne_nil hne, List.append_assoc, List.singleton_append,
          List.drop_one]
      rw [hl, List.drop_drop]
      have h1 : 1 + (bound + as.length - bound) = s.length + (as.length + 1) - bound := by omega
      have h2 : min (bound + as.length) bound = min (s.length + (as.length + 1)) bound := by
        omega
      rw [h1, h2]

/-- Consecutive calls of `undo`, no more than the cursor allows, call `undo` on
the actions before the cursor, the newest first. -/
theorem runWith_undos (bound : Nat) (rt : Runtime α κ W) (l : List α) (cb : Option κ)
    (k c : Nat) (e : Exec α κ W) (hk : k ≤ c) (hc : c ≤ l.length)
    (hs : l.length < sizeModulus) :
    ∃ rs e1 t, runWith bound rt (List.replicate k Call.undo) ⟨l.map some, c, cb⟩ e =
        some (rs, ⟨l.map some, c - k, cb⟩, e1) ∧ e1.trace = e.trace ++ t ∧
      actionCalls t = (((l.take c).reverse).take k).map Event.undo := by
  induction k generalizing c e with
  | zero => exact ⟨[], e, [], by simp [runWith], by simp, by simp [actionCalls]⟩
  | succ k ih =>
    have hlt : c - 1 < l.length := by omega
    have ha : (l.map some)[c - 1]? = some (some l[c - 1]) := by
      rw [List.getElem?_map, List.getElem?_eq_getElem hlt]
      rfl
    have hu := undo_of_available rt (⟨l.map some, c, cb⟩ : HistoryManager α κ) e l[c - 1]
      (by show 0 < c; omega) (by show c ≤ sizeModulus; omega) ha
    obtain ⟨t0, ht0, hn0⟩ := notify_trace rt (⟨l.map some, c - 1, cb⟩ : HistoryManager α κ)
      ⟨(rt.undo l[c - 1] e.world).2, e.trace ++ [Event.undo l[c - 1]]⟩
    obtain ⟨rs, e1, t, hrun, htr, hact⟩ := ih (c - 1)
      (notify rt ⟨l.map some, c - 1, cb⟩
        ⟨(rt.undo l[c - 1] e.world).2, e.trace ++ [Event.undo l[c - 1]]⟩)
      (by omega) (by omega)
    refine ⟨some (rt.undo l[c - 1] e.world).1 :: rs, e1, [Event.undo l[c - 1]] ++ t0 ++ t,
      ?_, ?_, ?_⟩
    · rw [List.replicate_succ, runWith_cons]
      simp only [callWith, hu, hrun]
      have : c - 1 - k = c - (k + 1) := by omega
      rw [this]
    · rw [htr, ht0]
      simp only [List.append_assoc]
    · rw [actionCalls_append, actionCalls_append, hn0, hact]
      have htake : l.take c = l.take (c - 1) ++ [l[c - 1]] := by
        have h1 : c = c - 1 + 1 := by omega
        conv_lhs => rw [h1]
        rw [List.take_succ, List.getElem?_eq_getElem hlt]
        rfl
      rw [htake, List.reverse_append]
      simp [actionCalls]

/-- Consecutive calls of `redo`, no more than the redo tail allows, call `redo`
on the actions from the cursor on, the oldest first. -/
theorem runWith_redos (bound : Nat) (rt : Runtime α κ W) (l : List α) (cb : Option κ)
    (k c : Nat) (e : Exec α κ W) (hk : c + k ≤ l.length) (hs : l.length < sizeModulus) :
    ∃ rs e1 t, runWith bound rt (List.replicate k Call.redo) ⟨l.map some, c, cb⟩ e =
        some (rs, ⟨l.map some, c + k, cb⟩, e1) ∧ e1.trace = e.trace ++ t ∧
      actionCalls t = ((l.drop c).take k).map Event.redo := by
  induction k generalizing c e with
  | zero => exact ⟨[], e, [], by simp [runWith], by simp, by simp [actionCalls]⟩
  | succ k ih =>
    have hlt : c < l.length := by omega
    have ha : (l.map some)[c]? = some (some l[c]) := by
      rw [List.getElem?_map, List.getElem?_eq_getElem hlt]
      rfl
    have hr := redo_of_available rt (⟨l.map some, c, cb⟩ : HistoryManager α κ) e l[c]
      (by show c + 1 < sizeModulus; omega) ha
    obtain ⟨t0, ht0, hn0⟩ := notify_trace rt (⟨l.map some, c + 1, cb⟩ : HistoryManager α κ)
      ⟨(rt.redo l[c] e.world).2, e.trace ++ [Event.redo l[c]]⟩
    obtain ⟨rs, e1, t, hrun, htr, hact⟩ := ih (c + 1)
      (notify rt ⟨l.map some, c + 1, cb⟩
        ⟨(rt.redo l[c] e.world).2, e.trace ++ [Event.redo l[c]]⟩)
      (by omega)
    refine ⟨some (rt.redo l[c] e.world).1 :: rs, e1, [Event.redo l[c]] ++ t0 ++ t,
      ?_, ?_, ?_⟩
    · rw [List.replicate_succ, runWith_cons]
      simp only [callWith, hr, hrun]
      have : c + 1 + k = c + (k + 1) := by omega
      rw [this]
    · rw [htr, ht0]
      simp only [List.append_assoc]
    · rw [actionCalls_append, actionCalls_append, hn0, hact]
      rw [List.drop_eq_getElem_cons hlt, List.take_succ_cons, List.map_cons]
      simp [actionCalls]

/-- Replay of a history built by `reset` and `n` calls of `add`, for a manager
with any bound: `min n bound` calls of `undo` reach the actions newest first, the
next one finds nothing; as many calls of `redo` reach them oldest first, and the
next one finds nothing. -/
theorem replayWith {bound : Nat} (hb : bound + 1 < sizeModulus) (rt : Runtime α κ W)
    (m0 : HistoryManager α κ) (e0 : Exec α κ W) (as : List α) :
    ∃ r1 m1 e1 r2 m2 e2 t2 r3 e3 t3,
      runWith bound rt (Call.reset :: as.map Call.add) m0 e0 = some (r1, m1, e1) ∧
      runWith bound rt (List.replicate (min as.length bound) Call.undo) m1 e1 =
        some (r2, m2, e2) ∧
      e2.trace = e1.trace ++ t2 ∧
      actionCalls t2 = (as.reverse.take (min as.length bound)).map Event.undo ∧
      m2.undo rt e2 = some (false, m2, e2) ∧
      runWith bound rt (List.replicate (min as.length bound) Call.redo) m2 e2 =
        some (r3, m1, e3) ∧
      e3.trace = e2.trace ++ t3 ∧
      actionCalls t3 = (as.drop (as.length - min as.length bound)).map Event.redo ∧
      m1.redo rt e3 = some (false, m1, e3) := by
  obtain ⟨s0, c0, cb⟩ := m0
  obtain ⟨r1, e1, hadds⟩ := runWith_adds_window hb rt as [] cb
    (fire rt (⟨[], 0, cb⟩ : HistoryManager α κ) false false e0) (Nat.zero_le _)
  simp only [List.nil_append, List.length_nil, Nat.zero_add] at hadds
  have hd : as.length - min as.length bound = as.length - bound := by omega
  have hl : (as.map some).drop (as.length - bound) =
      (as.drop (as.length - bound)).map some := by
    rw [List.map_drop]
  rw [hl] at hadds
  have hlen : (as.drop (as.length - bound)).length = min as.length bound := by
    rw [List.length_drop]
    omega
  have hmin : min as.length bound < sizeModulus := by omega
  obtain ⟨r2, e2, t2, hundo, htr2, hact2⟩ := runWith_undos bound rt
    (as.drop (as.length - bound)) cb (min as.length bound) (min as.length bound) e1
    (le_refl _) (le_of_eq hlen.symm) (by rw [hlen]; exact hmin)
  obtain ⟨r3, e3, t3, hredo, htr3, hact3⟩ := runWith_redos bound rt
    (as.drop (as.length - bound)) cb (min as.length bound) 0 e2
    (by rw [hlen]; omega) (by rw [hlen]; exact hmin)
  simp only [Nat.sub_self] at hundo
  simp only [Nat.zero_add] at hredo
  refine ⟨none :: r1, _, e1, r2, _, e2, t2, r3, e3, t3, ?_, hundo, htr2, ?_, ?_, hredo, htr3,
    ?_, ?_⟩
  · rw [runWith_cons]
    simp only [callWith, reset, hadds]
  · rw [hact2, ← hlen, List.take_length, List.take_of_length_le (by simp), hlen,
      List.take_reverse, hd]
  · exact undo_of_unavailable rt _ e2 rfl
  · rw [hact3, List.drop_zero, ← hlen, List.take_length, hlen, hd]
  · exact redo_of_unavailable rt _ e3 (by
      show (List.map some (List.drop (as.length - bound) as)).length ≤ min as.length bound
      rw [List.length_map, hlen])

end HistoryManager

open HistoryManager

variable {α κ W : Type}

/-- Claim C26. From any manager state, `reset()` followed by `add(a_1)`, ...,
`add(a_n)` runs to its end; with `m = min n 500`, the next `m` calls of `undo()`
run to their end and call `Action::undo` exactly on `a_n`, ..., `a_(n-m+1)` in
that order; one more `undo()` returns `false` and changes nothing; the following
`m` calls of `redo()` call `Action::redo` exactly on `a_(n-m+1)`, ..., `a_n` in
that order and bring the manager back to the state after the last `add`; one
more `redo()` returns `false` and changes nothing. -/
theorem history_replay_lifo (rt : Runtime α κ W) (m0 : HistoryManager α κ) (e0 : Exec α κ W)
    (as : List α) :
    ∃ r1 m1 e1 r2 m2 e2 t2 r3 e3 t3,
      run rt (Call.reset :: as.map Call.add) m0 e0 = some (r1, m1, e1) ∧
      run rt (List.replicate (min as.length 500) Call.undo) m1 e1 = some (r2, m2, e2) ∧
      e2.trace = e1.trace ++ t2 ∧
      actionCalls t2 = (as.reverse.take (min as.length 500)).map Event.undo ∧
      m2.undo rt e2 = some (false, m2, e2) ∧
      run rt (List.replicate (min as.length 500) Call.redo) m2 e2 = some (r3, m1, e3) ∧
      e3.trace = e2.trace ++ t3 ∧
      actionCalls t3 = (as.drop (as.length - min as.length 500)).map Event.redo ∧
      m1.redo rt e3 = some (false, m1, e3) :=
  replayWith maxActions_lt_sizeModulus rt m0 e0 as

end fheroes2

namespace fheroes2

namespace HistoryManager

variable {α κ W : Type}

/-! ## The observer slot does not steer the manager -/

theorem fire_related (rt : Runtime α κ W) (R : W → W → Prop) (s : List (Option α)) (c : Nat)
    (cb : Option κ) (hobs : ObserverInvisible rt R cb) (u r : Bool) (w : W) (e : Exec α κ W)
    (h : R w e.world) : R w (fire rt ⟨s, c, cb⟩ u r e).world := by
  cases cb with
  | none => exact h
  | some k => exact hobs.2.2 k rfl u r w e.world h

theorem notify_related (rt : Runtime α κ W) (R : W → W → Prop) (s : List (Option α)) (c : Nat)
    (cb : Option κ) (hobs : ObserverInvisible rt R cb) (w : W) (e : Exec α κ W)
    (h : R w e.world) : R w (notify rt ⟨s, c, cb⟩ e).world :=
  fire_related rt R s c cb hobs _ _ w e h

/-- One call made on two managers that differ in the observer slot only, one of
them without an observer: both calls run to their end, the managers differ in
the slot only afterwards, both call the same actions, and they return the same
when the observer is invisible to the actions. -/
theorem callWith_slot {bound : Nat} (hb : bound + 1 < sizeModulus) (rt : Runtime α κ W)
    (s : List (Option α)) (c : Nat) (cb : Option κ)
    (h : Invariant bound (⟨s, c, none⟩ : HistoryManager α κ)) (e1 e2 : Exec α κ W)
    (call : Call α κ) (hc : ∀ k, call ≠ Call.setStateCallback k) :
    ∃ r1 r2 s1 c1 x1 x2 t1 t2,
      callWith bound rt ⟨s, c, none⟩ e1 call = some (r1, ⟨s1, c1, none⟩, x1) ∧
      callWith bound rt ⟨s, c, cb⟩ e2 call = some (r2, ⟨s1, c1, cb⟩, x2) ∧
      Invariant bound (⟨s1, c1, none⟩ : HistoryManager α κ) ∧
      x1.trace = e1.trace ++ t1 ∧ x2.trace = e2.trace ++ t2 ∧
      actionCalls t1 = actionCalls t2 ∧
      ∀ R : W → W → Prop, ObserverInvisible rt R cb → R e1.world e2.world →
        r1 = r2 ∧ R x1.world x2.world := by
  have h1 : c ≤ s.length := h.1
  have h2 : s.length ≤ bound := h.2.1
  cases call with
  | setStateCallback k => exact absurd rfl (hc k)
  | reset =>
    obtain ⟨t2, ht2, hn2⟩ : ∃ t, (fire rt (⟨[], 0, cb⟩ : HistoryManager α κ) false false
        e2).trace = e2.trace ++ t ∧ actionCalls t = [] := by
      refine ⟨_, fire_trace rt _ false false e2, ?_⟩
      cases cb <;> simp [actionCalls]
    refine ⟨none, none, [], 0, e1, fire rt ⟨[], 0, cb⟩ false false e2, [], t2, rfl, rfl,
      Invariant.reset rt ⟨s, c, none⟩ e1,
      by simp, ht2, by rw [hn2]; rfl, ?_⟩
    intro R hobs hR
    exact ⟨rfl, fire_related rt R [] 0 cb hobs false false e1.world e2 hR⟩
  | add a =>
    by_cases hlt : c < bound
    · have ha1 := addWith_of_lt hb rt (⟨s, c, none⟩ : HistoryManager α κ) (some a) e1 h1 hlt
      have ha2 := addWith_of_lt hb rt (⟨s, c, cb⟩ : HistoryManager α κ) (some a) e2 h1 hlt
      obtain ⟨t2, ht2, hn2⟩ := notify_trace rt
        (⟨s.take c ++ [some a], c + 1, cb⟩ : HistoryManager α κ) e2
      obtain ⟨m1, x1, hadd, hinv⟩ := h.addWith hb rt a e1
      have hm1 : m1 = ⟨s.take c ++ [some a], c + 1, none⟩ := by
        rw [ha1] at hadd
        injection hadd with hadd
        injection hadd with hadd _
        exact hadd.symm
      rw [hm1] at hinv
      refine ⟨none, none, s.take c ++ [some a], c + 1, e1,
        notify rt ⟨s.take c ++ [some a], c + 1, cb⟩ e2, [], t2, ?_, ?_, hinv,
        by simp, ht2, by rw [hn2]; rfl, ?_⟩
      · simp only [callWith, ha1]
        rfl
      · simp only [callWith, ha2]
      · intro R hobs hR
        exact ⟨rfl, notify_related rt R _ _ cb hobs e1.world e2 hR⟩
    · have hfull : c = bound := by omega
      have hcl : c = s.length := by omega
      have ha1 := addWith_of_full hb rt (⟨s, c, none⟩ : HistoryManager α κ) (some a) e1
        hcl hfull
      have ha2 := addWith_of_full hb rt (⟨s, c, cb⟩ : HistoryManager α κ) (some a) e2
        hcl hfull
      obtain ⟨t2, ht2, hn2⟩ := notify_trace rt
        (⟨(s ++ [some a]).tail, bound, cb⟩ : HistoryManager α κ) e2
      obtain ⟨m1, x1, hadd, hinv⟩ := h.addWith hb rt a e1
      have hm1 : m1 = ⟨(s ++ [some a]).tail, bound, none⟩ := by
        rw [ha1] at hadd
        injection hadd with hadd
        injection hadd with hadd _
        exact hadd.symm
      rw [hm1] at hinv
      refine ⟨none, none, (s ++ [some a]).tail, bound, e1,
        notify rt ⟨(s ++ [some a]).tail, bound, cb⟩ e2, [], t2, ?_, ?_, hinv,
        by simp, ht2, by rw [hn2]; rfl, ?_⟩
      · simp only [callWith, ha1]
        rfl
      · simp only [callWith, ha2]
      · intro R hobs hR
        exact ⟨rfl, notify_related rt R _ _ cb hobs e1.world e2 hR⟩
  | undo =>
    by_cases h0 : c = 0
    · refine ⟨some false, some false, s, c, e1, e2, [], [], ?_, ?_, h, by simp, by simp, rfl,
        fun R _ hR => ⟨rfl, hR⟩⟩
      · simp [callWith, undo_of_unavailable rt (⟨s, c, none⟩ : HistoryManager α κ) e1 h0]
      · simp [callWith, undo_of_unavailable rt (⟨s, c, cb⟩ : HistoryManager α κ) e2 h0]
    · obtain ⟨a, ha⟩ := h.lookup (i := c - 1) (by show c - 1 < s.length; omega)
      have ha1 : s[c - 1]? = some (some a) := ha
      have hu1 := undo_of_available rt (⟨s, c, none⟩ : HistoryManager α κ) e1 a
        (by show 0 < c; omega) (by show c ≤ sizeModulus; omega) ha1
      have hu2 := undo_of_available rt (⟨s, c, cb⟩ : HistoryManager α κ) e2 a
        (by show 0 < c; omega) (by show c ≤ sizeModulus; omega) ha1
      obtain ⟨t2, ht2, hn2⟩ := notify_trace rt (⟨s, c - 1, cb⟩ : HistoryManager α κ)
        ⟨(rt.undo a e2.world).2, e2.trace ++ [Event.undo a]⟩
      refine ⟨some (rt.undo a e1.world).1, some (rt.undo a e2.world).1, s, c - 1,
        ⟨(rt.undo a e1.world).2, e1.trace ++ [Event.undo a]⟩,
        notify rt ⟨s, c - 1, cb⟩ ⟨(rt.undo a e2.world).2, e2.trace ++ [Event.undo a]⟩,
        [Event.undo a],
        [Event.undo a] ++ t2, ?_, ?_, ⟨?_, h2, h.2.2⟩, rfl, ?_, ?_, ?_⟩
      · simp only [callWith, hu1]
        rfl
      · simp only [callWith, hu2]
      · show c - 1 ≤ s.length
        omega
      · rw [ht2]
        simp only [List.append_assoc]
      · rw [actionCalls_append, hn2, List.append_nil]
      · intro R hobs hR
        have hres := hobs.1 a e1.world e2.world hR
        exact ⟨by rw [hres.1], notify_related rt R _ _ cb hobs _ _ hres.2⟩
  | redo =>
    by_cases h0 : s.length ≤ c
    · refine ⟨some false, some false, s, c, e1, e2, [], [], ?_, ?_, h, by simp, by simp, rfl,
        fun R _ hR => ⟨rfl, hR⟩⟩
      · simp [callWith, redo_of_unavailable rt (⟨s, c, none⟩ : HistoryManager α κ) e1 h0]
      · simp [callWith, redo_of_unavailable rt (⟨s, c, cb⟩ : HistoryManager α κ) e2 h0]
    · obtain ⟨a, ha⟩ := h.lookup (i := c) (by show c < s.length; omega)
      have ha1 : s[c]? = some (some a) := ha
      have hr1 := redo_of_available rt (⟨s, c, none⟩ : HistoryManager α κ) e1 a
        (by show c + 1 < sizeModulus; omega) ha1
      have hr2 := redo_of_available rt (⟨s, c, cb⟩ : HistoryManager α κ) e2 a
        (by show c + 1 < sizeModulus; omega) ha1
      obtain ⟨t2, ht2, hn2⟩ := notify_trace rt (⟨s, c + 1, cb⟩ : HistoryManager α κ)
        ⟨(rt.redo a e2.world).2, e2.trace ++ [Event.redo a]⟩
      refine ⟨some (rt.redo a e1.world).1, some (rt.redo a e2.world).1, s, c + 1,
        ⟨(rt.redo a e1.world).2, e1.trace ++ [Event.redo a]⟩,
        notify rt ⟨s, c + 1, cb⟩ ⟨(rt.redo a e2.world).2, e2.trace ++ [Event.redo a]⟩,
        [Event.redo a],
        [Event.redo a] ++ t2, ?_, ?_, ⟨?_, h2, h.2.2⟩, rfl, ?_, ?_, ?_⟩
      · simp only [callWith, hr1]
        rfl
      · simp only [callWith, hr2]
      · show c + 1 ≤ s.length
        omega
      · rw [ht2]
        simp only [List.append_assoc]
      · rw [actionCalls_append, hn2, List.append_nil]
      · intro R hobs hR
        have hres := hobs.2.1 a e1.world e2.world hR
        exact ⟨by rw [hres.1], notify_related rt R _ _ cb hobs _ _ hres.2⟩

/-- A script without `setStateCallback` run on two managers that differ in the
observer slot only, one of them without an observer. -/
theorem runWith_slot {bound : Nat} (hb : bound + 1 < sizeModulus) (rt : Runtime α κ W)
    (cs : List (Call α κ)) (hk : keepsObserver cs = true) (s : List (Option α)) (c : Nat)
    (cb : Option κ) (h : Invariant bound (⟨s, c, none⟩ : HistoryManager α κ))
    (e1 e2 : Exec α κ W) :
    ∃ rs1 rs2 s1 c1 x1 x2 t1 t2,
      runWith bound rt cs ⟨s, c, none⟩ e1 = some (rs1, ⟨s1, c1, none⟩, x1) ∧
      runWith bound rt cs ⟨s, c, cb⟩ e2 = some (rs2, ⟨s1, c1, cb⟩, x2) ∧
      x1.trace = e1.trace ++ t1 ∧ x2.trace = e2.trace ++ t2 ∧
      actionCalls t1 = actionCalls t2 ∧
      ∀ R : W → W → Prop, ObserverInvisible rt R cb → R e1.world e2.world →
        rs1 = rs2 ∧ R x1.world x2.world := by
  induction cs generalizing s c e1 e2 with
  | nil =>
    exact ⟨[], [], s, c, e1, e2, [], [], rfl, rfl, by simp, by simp, rfl,
      fun R _ hR => ⟨rfl, hR⟩⟩
  | cons call cs ih =>
    have hc : ∀ k, call ≠ Call.setStateCallback k := by
      intro k hcc
      rw [hcc] at hk
      simp [keepsObserver] at hk
    have hk1 : keepsObserver cs = true := by
      cases call with
      | setStateCallback k => exact absurd rfl (hc k)
      | reset => simpa [keepsObserver] using hk
      | add a => simpa [keepsObserver] using hk
      | undo => simpa [keepsObserver] using hk
      | redo => simpa [keepsObserver] using hk
    obtain ⟨r1, r2, s1, c1, x1, x2, t1, t2, hc1, hc2, hinv, htr1, htr2, hact, hrel⟩ :=
      callWith_slot hb rt s c cb h e1 e2 call hc
    obtain ⟨rs1, rs2, s2, c2, y1, y2, u1, u2, hr1, hr2, hur1, hur2, huact, hurel⟩ :=
      ih hk1 s1 c1 hinv x1 x2
    refine ⟨r1 :: rs1, r2 :: rs2, s2, c2, y1, y2, t1 ++ u1, t2 ++ u2, ?_, ?_, ?_, ?_, ?_, ?_⟩
    · rw [runWith_cons, hc1]
      simp only [hr1]
    · rw [runWith_cons, hc2]
      simp only [hr2]
    · rw [hur1, htr1, List.append_assoc]
    · rw [hur2, htr2, List.append_assoc]
    · rw [actionCalls_append, actionCalls_append, hact, huact]
    · intro R hobs hR
      obtain ⟨hreq, hR1⟩ := hrel R hobs hR
      obtain ⟨hrseq, hR2⟩ := hurel R hobs hR1
      exact ⟨by rw [hreq, hrseq], hR2⟩

end HistoryManager

open HistoryManager

variable {α κ W : Type}

/-- Counterexample to claim C27 as stated. An observer that is not re-entrant
changes a return value: in `meddlingRuntime` the script `add(5); undo()` makes
`undo()` return `true` when no observer is installed and `false` when observer
`9` is installed, because the observer called by `add` changes the document on
which the result of `Action::undo` depends. -/
theorem observer_changes_return_value :
    (run meddlingRuntime [Call.add 5, Call.undo] ⟨[], 0, none⟩ ⟨0, []⟩).map (fun x => x.1) =
        some [none, some true] ∧
      (run meddlingRuntime [Call.add 5, Call.undo] ⟨[], 0, some 9⟩ ⟨0, []⟩).map
        (fun x => x.1) = some [none, some false] := by
  decide

/-- Claim C27, amended. A script of `reset`, `add`, `undo` and `redo` calls is run
from the same state of the history (one that satisfies the class invariant) and
the same outside world, once without an observer and once with any observer
`cb`. Both runs reach their end with the same action sequence and the same
cursor and make the same calls of `Action::undo` and `Action::redo` in the same
order. The return values are the same as well whenever the observer is
invisible to the actions: for every relation `R` on outside worlds that the
actions cannot tell apart and that the observer respects, the two runs return
the same values and end in related worlds. -/
theorem observer_noninterference (rt : Runtime α κ W) (cs : List (Call α κ))
    (hk : keepsObserver cs = true) (s : List (Option α)) (c : Nat) (cb : Option κ)
    (h : Invariant maxActions (⟨s, c, none⟩ : HistoryManager α κ)) (e : Exec α κ W) :
    ∃ rs1 rs2 s1 c1 x1 x2 t1 t2,
      run rt cs ⟨s, c, none⟩ e = some (rs1, ⟨s1, c1, none⟩, x1) ∧
      run rt cs ⟨s, c, cb⟩ e = some (rs2, ⟨s1, c1, cb⟩, x2) ∧
      x1.trace = e.trace ++ t1 ∧ x2.trace = e.trace ++ t2 ∧
      actionCalls t1 = actionCalls t2 ∧
      ∀ R : W → W → Prop, ObserverInvisible rt R cb → R e.world e.world →
        rs1 = rs2 ∧ R x1.world x2.world :=
  runWith_slot maxActions_lt_sizeModulus rt cs hk s c cb h e e

theorem observer_noninterference_witness :
    keepsObserver ([Call.add 5, Call.undo, Call.redo, Call.reset] : List (Call Nat Nat)) =
        true ∧
      Invariant maxActions (⟨[some 1], 1, none⟩ : HistoryManager Nat Nat) ∧
      ObserverInvisible countingRuntime (fun w1 w2 => w1.1 = w2.1) (some 9) ∧
      ∃ rs1 rs2 s1 c1 x1 x2 t1 t2,
        run countingRuntime [Call.add 5, Call.undo, Call.redo, Call.reset]
          ⟨[some 1], 1, none⟩ ⟨(0, 0), []⟩ = some (rs1, ⟨s1, c1, none⟩, x1) ∧
        run countingRuntime [Call.add 5, Call.undo, Call.redo, Call.reset]
          ⟨[some 1], 1, some 9⟩ ⟨(0, 0), []⟩ = some (rs2, ⟨s1, c1, some 9⟩, x2) ∧
        x1.trace = ([] : List (Event Nat Nat)) ++ t1 ∧
        x2.trace = ([] : List (Event Nat Nat)) ++ t2 ∧
        actionCalls t1 = actionCalls t2 ∧
        ∀ R : Int × Nat → Int × Nat → Prop, ObserverInvisible countingRuntime R (some 9) →
          R (0, 0) (0, 0) → rs1 = rs2 ∧ R x1.world x2.world :=
  ⟨by decide, ⟨by decide, by decide, by decide⟩,
    ⟨fun _ _ _ h => ⟨by simp [countingRuntime, h], by simp [countingRuntime, h]⟩,
      fun _ _ _ h => ⟨by simp [countingRuntime, h], by simp [countingRuntime, h]⟩,
      fun _ _ _ _ _ _ h => h⟩,
    observer_noninterference countingRuntime [Call.add 5, Call.undo, Call.redo, Call.reset]
      (by decide) [some 1] 1 (some 9) ⟨by decide, by decide, by decide⟩ ⟨(0, 0), []⟩⟩

end fheroes2
